import Mathlib

/-! # gonn: a sequential feed-forward network with first-order optimizers

Shallow embedding of `seqnet.go` and `optim.go`.

Modelling conventions.

* `float64` has two readings.  `Float64` (below, "The number type `float64`") is IEEE 754
  binary64 itself: rounding to nearest-even, overflow to the infinities, NaN, and
  `Float64.sqrt` for `math.Sqrt`.  An arbitrary linearly ordered field `α` (the reals are
  the intended instance, the rationals give an executable one) is exact arithmetic, in
  which rounding, infinities and NaN do not exist; a theorem stated over a field says
  what the code computes up to these effects.  The optimizers, `Layer.Step` and the
  constructors ask of `α` only the operations they use, so the same definitions run on
  `Float64`; the other layer methods are stated over a field.
* `math.Exp` and `math.Sqrt` belong to the Go standard library; they are taken
  as function parameters `exp sqrt : α → α`.
* A slice is a `List α`.  Every index expression of the source is a checked
  access: a read is `l[i]?`, a write is `store`, and an out-of-range index (a
  Go run-time panic) makes the whole operation return `none`.
* Go `int` sizes (`in`, `out`) are natural numbers: a negative size makes every
  `make` of the source panic, so no layer with a negative size can be used.
* Methods that write through a pointer or into a shared backing array return
  the new value of the receiver next to their result.
* Distinct slices do not share storage, as is the case for every buffer the
  constructors allocate; a network does not hold the same layer twice.
* `for i := 0; i < n; i++ { ... }` is `forLoop n body`.
-/

namespace Gonn

set_option linter.unusedSectionVars false

/-! ## Go primitives -/

/-- Go loop `for i := 0; i < n; i++ { s = body i s }`; a panic in the body aborts the loop. -/
def forLoop {σ : Type} : Nat → (Nat → σ → Option σ) → σ → Option σ
  | 0, _, s => some s
  | n + 1, body, s => (forLoop n body s).bind (body n)

/-- Go assignment `l[i] = v`: panics when `i` is out of range. -/
def store {β : Type} (l : List β) (i : Nat) (v : β) : Option (List β) :=
  if i < l.length then some (l.set i v) else none

/-- Go builtin `copy(dst, src)`: overwrites the first `min (len dst) (len src)` cells of `dst`. -/
def copy {β : Type} (dst src : List β) : List β :=
  src.take dst.length ++ dst.drop src.length

variable {α : Type} [LinearOrderedField α]

/-- Go `make([]float64, n)`: a slice of `n` zeros. -/
def make {α : Type} [Zero α] (n : Nat) : List α := List.replicate n 0

/-- The constant `EPSILON` of `optim.go`. -/
def EPSILON {α : Type} [OfScientific α] : α := 1e-8

/-! ## Layers (`seqnet.go`) -/

/-- The struct `Dense`; `in_` is the field `in`. -/
structure Dense (α : Type) where
  in_ : Nat
  out : Nat
  connections : List α
  lastInput : List α
deriving DecidableEq, Repr

/-- The struct `Bias`. -/
structure Bias (α : Type) where
  connections : List α
deriving DecidableEq, Repr

/-- The two implementers of the interface `Function`. -/
inductive Function where
  | ReLU
  | Sigmoid
deriving DecidableEq, Repr

/-- The struct `Activation`. -/
structure Activation (α : Type) where
  out : Nat
  function : Function
  cache : List α
deriving DecidableEq, Repr

/-- Method `Dense.FeedForward`. -/
def Dense.FeedForward (dense : Dense α) (input : List α) : Option (List α) :=
  forLoop dense.out (fun i output =>
    let offset := i * dense.in_
    forLoop dense.in_ (fun j output => do
      let x ← input[j]?
      let w ← dense.connections[offset + j]?
      let o ← output[i]?
      store output i (o + x * w)) output) (make dense.out)

/-- Method `Dense.CachedFeedForward`: the input is copied into `lastInput` first. -/
def Dense.CachedFeedForward (dense : Dense α) (input : List α) : Option (Dense α × List α) :=
  let dense1 := { dense with lastInput := copy dense.lastInput input }
  (dense1.FeedForward input).map (fun output => (dense1, output))

/-- Method `Dense.BackPropagate`. -/
def Dense.BackPropagate (dense : Dense α) (error : List α) : Option (List α) :=
  forLoop dense.out (fun i prevDelta =>
    let offset := i * dense.in_
    forLoop dense.in_ (fun j prevDelta => do
      let e ← error[i]?
      let w ← dense.connections[offset + j]?
      let p ← prevDelta[j]?
      store prevDelta j (p + e * w)) prevDelta) (make dense.in_)

/-- Method `Dense.GetStep`. -/
def Dense.GetStep (dense : Dense α) (delta : List α) : Option (List α) :=
  forLoop dense.out (fun i step =>
    let offset := i * dense.in_
    forLoop dense.in_ (fun j step => do
      let d ← delta[i]?
      let x ← dense.lastInput[j]?
      store step (offset + j) (d * x)) step) (make dense.connections.length)

/-- Method `Dense.Step`. -/
def Dense.Step {α : Type} [Sub α] (dense : Dense α) (step : List α) : Option (Dense α) :=
  (forLoop step.length (fun i connections => do
    let c ← connections[i]?
    let s ← step[i]?
    store connections i (c - s)) dense.connections).map
    (fun connections => { dense with connections := connections })

/-- Method `Dense.Parameters`. -/
def Dense.Parameters (dense : Dense α) : Nat := dense.connections.length

/-- Constructor `NewDenseRand`, with the random draws `min + rand.Float64()*diff` supplied as
the list `connections` of the `in * out` drawn values. -/
def NewDenseRand (in_ out : Nat) (connections : List α) : Dense α :=
  { in_ := in_, out := out, connections := connections, lastInput := make in_ }

/-- Method `Bias.FeedForward`. -/
def Bias.FeedForward (bias : Bias α) (input : List α) : Option (List α) :=
  forLoop bias.connections.length (fun i output => do
    let x ← input[i]?
    let b ← bias.connections[i]?
    store output i (x + b)) (make bias.connections.length)

/-- Method `Bias.CachedFeedForward`. -/
def Bias.CachedFeedForward (bias : Bias α) (input : List α) : Option (Bias α × List α) :=
  (bias.FeedForward input).map (fun output => (bias, output))

/-- Method `Bias.BackPropagate`. -/
def Bias.BackPropagate (_bias : Bias α) (error : List α) : Option (List α) :=
  some (copy (make error.length) error)

/-- Method `Bias.GetStep`. -/
def Bias.GetStep (_bias : Bias α) (delta : List α) : Option (List α) :=
  some (copy (make delta.length) delta)

/-- Method `Bias.Step`. -/
def Bias.Step {α : Type} [Sub α] (bias : Bias α) (step : List α) : Option (Bias α) :=
  (forLoop step.length (fun i connections => do
    let c ← connections[i]?
    let s ← step[i]?
    store connections i (c - s)) bias.connections).map
    (fun connections => { connections := connections })

/-- Method `Bias.Parameters`. -/
def Bias.Parameters (bias : Bias α) : Nat := bias.connections.length

/-- Method `ReLU.out`. -/
def ReLU.out (x : α) : α := if x < 0 then 0 else x

/-- Method `ReLU.dOut`. -/
def ReLU.dOut (x : α) : α × α := if x < 0 then (0, 0) else (x, 1)

/-- Method `Sigmoid.out`. -/
def Sigmoid.out (exp : α → α) (x : α) : α := 1 / (1 + exp (-x))

/-- Method `Sigmoid.dOut`. -/
def Sigmoid.dOut (exp : α → α) (x : α) : α × α :=
  let val := Sigmoid.out exp x
  (val, val * (1 - val))

/-- Dynamic dispatch of `out` over the interface `Function`. -/
def Function.out (exp : α → α) : Function → α → α
  | .ReLU => ReLU.out
  | .Sigmoid => Sigmoid.out exp

/-- Dynamic dispatch of `dOut` over the interface `Function`. -/
def Function.dOut (exp : α → α) : Function → α → α × α
  | .ReLU => ReLU.dOut
  | .Sigmoid => Sigmoid.dOut exp

/-- Constructor `NewActivation`. -/
def NewActivation (out : Nat) (function : Function) : Activation α :=
  { out := out, function := function, cache := make out }

/-- Method `Activation.FeedForward`. -/
def Activation.FeedForward (exp : α → α) (activation : Activation α) (input : List α) :
    Option (List α) :=
  forLoop activation.out (fun i output => do
    let x ← input[i]?
    store output i (activation.function.out exp x)) (make activation.out)

/-- Method `Activation.CachedFeedForward`; the loop state is the pair `(output, cache)`. -/
def Activation.CachedFeedForward (exp : α → α) (activation : Activation α) (input : List α) :
    Option (Activation α × List α) :=
  (forLoop activation.out (fun i (st : List α × List α) => do
    let x ← input[i]?
    let r := activation.function.dOut exp x
    let output ← store st.1 i r.1
    let cache ← store st.2 i r.2
    pure (output, cache)) (make activation.out, activation.cache)).map
    (fun st => ({ activation with cache := st.2 }, st.1))

/-- Method `Activation.BackPropagate`. -/
def Activation.BackPropagate (activation : Activation α) (error : List α) : Option (List α) :=
  forLoop activation.out (fun i out => do
    let e ← error[i]?
    let c ← activation.cache[i]?
    store out i (e * c)) (make activation.out)

/-- Method `Activation.GetStep`. -/
def Activation.GetStep (_activation : Activation α) (_delta : List α) : Option (List α) :=
  some []

/-- Method `Activation.Step`. -/
def Activation.Step (activation : Activation α) (_step : List α) : Option (Activation α) :=
  some activation

/-- Method `Activation.Parameters`. -/
def Activation.Parameters (_activation : Activation α) : Nat := 0

/-- The implementers of the interface `Layer`. -/
inductive Layer (α : Type) where
  | dense (d : Dense α)
  | bias (b : Bias α)
  | activation (a : Activation α)
deriving DecidableEq, Repr

/-- Interface method `Layer.FeedForward`. -/
def Layer.FeedForward (exp : α → α) : Layer α → List α → Option (List α)
  | .dense d, input => d.FeedForward input
  | .bias b, input => b.FeedForward input
  | .activation a, input => a.FeedForward exp input

/-- Interface method `Layer.CachedFeedForward`. -/
def Layer.CachedFeedForward (exp : α → α) : Layer α → List α → Option (Layer α × List α)
  | .dense d, input => (d.CachedFeedForward input).map (fun r => (.dense r.1, r.2))
  | .bias b, input => (b.CachedFeedForward input).map (fun r => (.bias r.1, r.2))
  | .activation a, input => (a.CachedFeedForward exp input).map (fun r => (.activation r.1, r.2))

/-- Interface method `Layer.BackPropagate`. -/
def Layer.BackPropagate : Layer α → List α → Option (List α)
  | .dense d, error => d.BackPropagate error
  | .bias b, error => b.BackPropagate error
  | .activation a, error => a.BackPropagate error

/-- Interface method `Layer.GetStep`. -/
def Layer.GetStep : Layer α → List α → Option (List α)
  | .dense d, delta => d.GetStep delta
  | .bias b, delta => b.GetStep delta
  | .activation a, delta => a.GetStep delta

/-- Interface method `Layer.Step`. -/
def Layer.Step {α : Type} [Sub α] : Layer α → List α → Option (Layer α)
  | .dense d, step => (d.Step step).map .dense
  | .bias b, step => (b.Step step).map .bias
  | .activation a, step => (a.Step step).map .activation

/-- Interface method `Layer.Parameters`. -/
def Layer.Parameters : Layer α → Nat
  | .dense d => d.Parameters
  | .bias b => b.Parameters
  | .activation a => a.Parameters

/-- The struct `SeqNet`. -/
structure SeqNet (α : Type) where
  layers : List (Layer α)
deriving DecidableEq, Repr

/-! ## Optimizers (`optim.go`) -/

/-- Go read `(*(*m)[i])[j]` of a slice of pointers to slices. -/
def load2 {β : Type} (m : List (List β)) (i j : Nat) : Option β := do
  let row ← m[i]?
  row[j]?

/-- Go write `(*(*m)[i])[j] = v` into a slice of pointers to slices. -/
def store2 {β : Type} (m : List (List β)) (i j : Nat) (v : β) : Option (List (List β)) := do
  let row ← m[i]?
  let row1 ← store row j v
  store m i row1

/-- The struct `SGD`. -/
structure SGD (α : Type) where
  sumSteps : List (List α)
  learningRate : α
deriving DecidableEq, Repr

/-- Constructor `NewSGD` (the source returns it boxed in the interface `Optimizer`): one zero
slice of `Parameters()` cells per layer. -/
def NewSGD {α : Type} [Zero α] (net : SeqNet α) (learningRate : α) : SGD α :=
  { sumSteps := net.layers.map (fun layer => make layer.Parameters)
    learningRate := learningRate }

/-- Method `SGD.Update`. -/
def SGD.Update {α : Type} [Add α] [Mul α] (sgd : SGD α) (steps : List (List α)) :
    Option (SGD α) :=
  (forLoop steps.length (fun i sumSteps => do
    let stepsI ← steps[i]?
    forLoop stepsI.length (fun j sumSteps => do
      let s ← load2 sumSteps i j
      let g ← load2 steps i j
      store2 sumSteps i j (s + g * sgd.learningRate)) sumSteps) sgd.sumSteps).map
    (fun sumSteps => { sgd with sumSteps := sumSteps })

/-- Method `SGD.Step`; the loop state is the pair `(sumSteps, layers)`. -/
def SGD.Step {α : Type} [Zero α] [Sub α] (sgd : SGD α) (net : SeqNet α) :
    Option (SGD α × SeqNet α) :=
  (forLoop net.layers.length (fun i (st : List (List α) × List (Layer α)) => do
    let layer ← st.2[i]?
    let sumI ← st.1[i]?
    let layer1 ← layer.Step sumI
    let layers1 ← store st.2 i layer1
    let sumSteps1 ← forLoop sumI.length (fun j sumSteps => store2 sumSteps i j 0) st.1
    pure (sumSteps1, layers1)) (sgd.sumSteps, net.layers)).map
    (fun st => ({ sgd with sumSteps := st.1 }, { layers := st.2 }))

/-- The struct `SGDMomentum`. -/
structure SGDMomentum (α : Type) where
  sumSteps : List (List α)
  cachedSteps : List (List α)
  momentum : α
  momentumI : α
deriving DecidableEq, Repr

/-- Constructor `NewSGDMomentum`. -/
def NewSGDMomentum {α : Type} [Zero α] [One α] [Sub α] [Mul α] (net : SeqNet α)
    (learningRate momentum : α) : SGDMomentum α :=
  { sumSteps := net.layers.map (fun layer => make layer.Parameters)
    cachedSteps := net.layers.map (fun layer => make layer.Parameters)
    momentum := momentum * learningRate
    momentumI := (1 - momentum) * learningRate }

/-- Method `SGDMomentum.Update`. -/
def SGDMomentum.Update {α : Type} [Add α] (sgd : SGDMomentum α) (steps : List (List α)) :
    Option (SGDMomentum α) :=
  (forLoop steps.length (fun i cachedSteps => do
    let stepsI ← steps[i]?
    forLoop stepsI.length (fun j cachedSteps => do
      let c ← load2 cachedSteps i j
      let g ← load2 steps i j
      store2 cachedSteps i j (c + g)) cachedSteps) sgd.cachedSteps).map
    (fun cachedSteps => { sgd with cachedSteps := cachedSteps })

/-- Method `SGDMomentum.Step`; the outer loop state is `(sumSteps, cachedSteps, layers)`.
The velocity cell is updated with `+=`. -/
def SGDMomentum.Step {α : Type} [Zero α] [Add α] [Sub α] [Mul α] (sgd : SGDMomentum α)
    (net : SeqNet α) :
    Option (SGDMomentum α × SeqNet α) :=
  (forLoop sgd.sumSteps.length
    (fun i (st : List (List α) × List (List α) × List (Layer α)) => do
      let sumI ← st.1[i]?
      let bufs ← forLoop sumI.length (fun j (b : List (List α) × List (List α)) => do
        let v ← load2 b.1 i j
        let c ← load2 b.2 i j
        let sumSteps1 ← store2 b.1 i j (v + (v * sgd.momentum + c * sgd.momentumI))
        let cachedSteps1 ← store2 b.2 i j 0
        pure (sumSteps1, cachedSteps1)) (st.1, st.2.1)
      let layer ← st.2.2[i]?
      let sumI1 ← bufs.1[i]?
      let layer1 ← layer.Step sumI1
      let layers1 ← store st.2.2 i layer1
      pure (bufs.1, bufs.2, layers1))
    (sgd.sumSteps, sgd.cachedSteps, net.layers)).map
    (fun st => ({ sgd with sumSteps := st.1, cachedSteps := st.2.1 }, { layers := st.2.2 }))

/-- The struct `RMSProp`. -/
structure RMSProp (α : Type) where
  learningRate : α
  sumSteps : List (List α)
  cachedSteps : List (List α)
  beta0 : α
  beta1 : α
deriving DecidableEq, Repr

/-- Constructor `newRMSProp`. -/
def newRMSProp {α : Type} [Zero α] [One α] [Sub α] (net : SeqNet α) (learningRate beta : α) :
    RMSProp α :=
  { sumSteps := net.layers.map (fun layer => make layer.Parameters)
    cachedSteps := net.layers.map (fun layer => make layer.Parameters)
    learningRate := learningRate
    beta0 := beta
    beta1 := 1 - beta }

/-- Method `RMSProp.Update`. -/
def RMSProp.Update {α : Type} [Add α] (rmsProp : RMSProp α) (steps : List (List α)) :
    Option (RMSProp α) :=
  (forLoop steps.length (fun i cachedSteps => do
    let stepsI ← steps[i]?
    forLoop stepsI.length (fun j cachedSteps => do
      let c ← load2 cachedSteps i j
      let g ← load2 steps i j
      store2 cachedSteps i j (c + g)) cachedSteps) rmsProp.cachedSteps).map
    (fun cachedSteps => { rmsProp with cachedSteps := cachedSteps })

/-- Method `RMSProp.Step`; the outer loop state is `(sumSteps, cachedSteps, layers)`, the inner
one `(sumSteps, cachedSteps, steps)`.  With `α := Float64` and `sqrt := Float64.sqrt` every
operation is the `float64` one of the source, NaN and infinities included. -/
def RMSProp.Step {α : Type} [Zero α] [Add α] [Sub α] [Mul α] [Div α] [OfScientific α]
    (sqrt : α → α) (rmsProp : RMSProp α) (net : SeqNet α) :
    Option (RMSProp α × SeqNet α) :=
  (forLoop rmsProp.sumSteps.length
    (fun i (st : List (List α) × List (List α) × List (Layer α)) => do
      let sumI ← st.1[i]?
      let length := sumI.length
      let bufs ← forLoop length
        (fun j (b : List (List α) × List (List α) × List α) => do
          let cachedStep ← load2 b.2.1 i j
          let s ← load2 b.1 i j
          let sumSteps1 ← store2 b.1 i j (s * rmsProp.beta0 + cachedStep * cachedStep * rmsProp.beta1)
          let s1 ← load2 sumSteps1 i j
          let steps1 ← store b.2.2 j (cachedStep / (sqrt s1 + EPSILON) * rmsProp.learningRate)
          let cachedSteps1 ← store2 b.2.1 i j 0
          pure (sumSteps1, cachedSteps1, steps1))
        (st.1, st.2.1, make length)
      let layer ← st.2.2[i]?
      let layer1 ← layer.Step bufs.2.2
      let layers1 ← store st.2.2 i layer1
      pure (bufs.1, bufs.2.1, layers1))
    (rmsProp.sumSteps, rmsProp.cachedSteps, net.layers)).map
    (fun st => ({ rmsProp with sumSteps := st.1, cachedSteps := st.2.1 }, { layers := st.2.2 }))

/-- The implementers of the interface `Optimizer`. -/
inductive Optimizer (α : Type) where
  | sgd (o : SGD α)
  | momentum (o : SGDMomentum α)
  | rmsProp (o : RMSProp α)
deriving DecidableEq, Repr

/-- Interface method `Optimizer.Update`. -/
def Optimizer.Update {α : Type} [Add α] [Mul α] :
    Optimizer α → List (List α) → Option (Optimizer α)
  | .sgd o, steps => (o.Update steps).map .sgd
  | .momentum o, steps => (o.Update steps).map .momentum
  | .rmsProp o, steps => (o.Update steps).map .rmsProp

/-- Interface method `Optimizer.Step`. -/
def Optimizer.Step {α : Type} [Zero α] [Add α] [Sub α] [Mul α] [Div α] [OfScientific α]
    (sqrt : α → α) : Optimizer α → SeqNet α → Option (Optimizer α × SeqNet α)
  | .sgd o, net => (o.Step net).map (fun r => (.sgd r.1, r.2))
  | .momentum o, net => (o.Step net).map (fun r => (.momentum r.1, r.2))
  | .rmsProp o, net => (o.Step sqrt net).map (fun r => (.rmsProp r.1, r.2))

/-- One call made by a training driver on an optimizer bound to a network. -/
inductive Call (α : Type) where
  | Update (steps : List (List α))
  | Step
deriving DecidableEq, Repr

/-- Effect of one driver call on the pair (optimizer, network). -/
def Optimizer.call {α : Type} [Zero α] [Add α] [Sub α] [Mul α] [Div α] [OfScientific α]
    (sqrt : α → α) (st : Optimizer α × SeqNet α) :
    Call α → Option (Optimizer α × SeqNet α)
  | .Update steps => (st.1.Update steps).map (fun o => (o, st.2))
  | .Step => st.1.Step sqrt st.2

/-- Effect of a sequence of driver calls, first call first. -/
def Optimizer.run {α : Type} [Zero α] [Add α] [Sub α] [Mul α] [Div α] [OfScientific α]
    (sqrt : α → α) (st : Optimizer α × SeqNet α) :
    List (Call α) → Option (Optimizer α × SeqNet α)
  | [] => some st
  | c :: cs => (Optimizer.call sqrt st c).bind (fun st1 => Optimizer.run sqrt st1 cs)

/-! ## Network passes (`optim.go`) -/

/-- Function `FeedForward`.  The loop `for i := 1; i < len(layers); i++` runs as
`len(layers) - 1` iterations with `i = k + 1`. -/
def FeedForward (exp : α → α) (net : SeqNet α) (input : List α) : Option (List α) := do
  let layer0 ← net.layers[0]?
  let output ← layer0.FeedForward exp input
  forLoop (net.layers.length - 1) (fun k output => do
    let layer ← net.layers[k + 1]?
    layer.FeedForward exp output) output

/-- The part of function `BackPropagate` that precedes the call of `Update`: it returns the
network with the caches the forward pass has filled, and the slice `steps`.  The loop
`for i := numLayers - 1; i > 0; i--` runs as `numLayers - 1` iterations with
`i = numLayers - 1 - k`; the nil cells of `make([]*[]float64, numLayers)` are empty slices. -/
def BackPropagate.steps (exp : α → α) (net : SeqNet α) (input expectedOutput : List α) :
    Option (SeqNet α × List (List α)) := do
  let numLayers := net.layers.length
  let numOut := expectedOutput.length
  let layer0 ← net.layers[0]?
  let r0 ← layer0.CachedFeedForward exp input
  let layers0 ← store net.layers 0 r0.1
  let fwd ← forLoop (numLayers - 1) (fun k (st : List (Layer α) × List α) => do
    let layer ← st.1[k + 1]?
    let r ← layer.CachedFeedForward exp st.2
    let layers1 ← store st.1 (k + 1) r.1
    pure (layers1, r.2)) (layers0, r0.2)
  let outError ← forLoop numOut (fun i outError => do
    let o ← fwd.2[i]?
    let e ← expectedOutput[i]?
    store outError i (o - e)) (make numOut)
  let back ← forLoop (numLayers - 1) (fun k (st : List (List α) × List α) => do
    let i := numLayers - 1 - k
    let layer ← fwd.1[i]?
    let step ← layer.GetStep st.2
    let steps1 ← store st.1 i step
    let outError1 ← layer.BackPropagate st.2
    pure (steps1, outError1)) (List.replicate numLayers [], outError)
  let first ← fwd.1[0]?
  let step0 ← first.GetStep back.2
  let steps ← store back.1 0 step0
  pure ({ layers := fwd.1 }, steps)

/-- Function `BackPropagate`: the gradients of one example are handed to `Update`. -/
def BackPropagate (exp : α → α) (net : SeqNet α) (optimizer : Optimizer α)
    (input expectedOutput : List α) : Option (SeqNet α × Optimizer α) := do
  let r ← BackPropagate.steps exp net input expectedOutput
  let optimizer1 ← optimizer.Update r.2
  pure (r.1, optimizer1)

/-! ## Specification helpers -/

/-- The list `[f 0, ..., f (n-1)]`: loop invariants describe a slice by its cells. -/
def tab {β : Type} (n : Nat) (f : Nat → β) : List β := (List.range n).map f

/-- The dot product that `Dense.FeedForward` accumulates for output unit `o` over the first
`j` inputs. -/
def rowSum (dense : Dense α) (input : List α) (o j : Nat) : α :=
  ∑ k in Finset.range j, input.getD k 0 * dense.connections.getD (o * dense.in_ + k) 0

/-- The sum that `Dense.BackPropagate` accumulates for input unit `j` over the first `i`
output units. -/
def colSum (dense : Dense α) (error : List α) (i j : Nat) : α :=
  ∑ o in Finset.range i, error.getD o 0 * dense.connections.getD (o * dense.in_ + j) 0

/-- The slice of slices with `n` rows, row `i` having `len i` cells, cell `(i, j)` being `f i j`. -/
def tab2 {β : Type} (n : Nat) (len : Nat → Nat) (f : Nat → Nat → β) : List (List β) :=
  tab n (fun i => tab (len i) (f i))

/-- Cell `(i, j)` of a slice of slices (0 outside it). -/
def cell {α : Type} [Zero α] (m : List (List α)) (i j : Nat) : α := (m.getD i []).getD j 0

/-- The trainable parameters of a layer: `connections` for `Dense` and `Bias`, none for
`Activation`. -/
def Layer.params : Layer α → List α
  | .dense d => d.connections
  | .bias b => b.connections
  | .activation _ => []

/-- The layer with its trainable parameters replaced, everything else kept. -/
def Layer.withParams : Layer α → List α → Layer α
  | .dense d, p => .dense { d with connections := p }
  | .bias _, p => .bias { connections := p }
  | .activation a, _ => .activation a

/-- The layer after `step` has been subtracted cell by cell from its parameters. -/
def Layer.descend {α : Type} [Zero α] [Sub α] (l : Layer α) (step : List α) : Layer α :=
  l.withParams (tab l.Parameters (fun k => l.params.getD k 0 - step.getD k 0))

/-- A layer without parameters, used as the default of out-of-range reads in statements. -/
def Layer.nil : Layer α := .activation { out := 0, function := .ReLU, cache := [] }

/-- Layer `i` of a network. -/
def SeqNet.layer (net : SeqNet α) (i : Nat) : Layer α := net.layers.getD i Layer.nil

/-- The parameter counts of the layers of a network, in order. -/
def SeqNet.shape (net : SeqNet α) : List Nat := net.layers.map Layer.Parameters

/-- The buffers `m` hold, for each layer of `net`, exactly `Parameters()` cells. -/
def Shaped (m : List (List α)) (net : SeqNet α) : Prop := m.map List.length = net.shape

/-- Number of input cells a layer reads. -/
def Layer.inSize : Layer α → Nat
  | .dense d => d.in_
  | .bias b => b.connections.length
  | .activation a => a.out

/-- Number of output cells a layer produces. -/
def Layer.outSize : Layer α → Nat
  | .dense d => d.out
  | .bias b => b.connections.length
  | .activation a => a.out

/-- A dense layer holds `in * out` weights (as `NewDenseRand` is called). -/
def Layer.WellShaped : Layer α → Prop
  | .dense d => d.connections.length = d.in_ * d.out
  | .bias _ => True
  | .activation _ => True

/-- The cache of a layer is as large as its constructor allocates it: `in` cells of
`lastInput` for `Dense`, `out` cells of `cache` for `Activation`. -/
def Layer.CacheFits : Layer α → Prop
  | .dense d => d.lastInput.length = d.in_
  | .bias _ => True
  | .activation a => a.cache.length = a.out

/-- Each layer's output size is the input size of the next layer. -/
def Chained : List (Layer α) → Prop
  | [] => True
  | [_] => True
  | l :: l1 :: ls => l.outSize = l1.inSize ∧ Chained (l1 :: ls)

/-- A well-shaped network: dense weights of length `in * out`, and sizes chained. -/
def SeqNet.WellShaped (net : SeqNet α) : Prop :=
  (∀ l ∈ net.layers, l.WellShaped) ∧ Chained net.layers

/-- The slice `l` with `h` added to cell `k`. -/
def bump (l : List α) (k : Nat) (h : α) : List α := l.set k (l.getD k 0 + h)

/-- The scalar `Σ_o e[o] * FeedForward(x)[o]` whose gradients `GetStep` and `BackPropagate`
of a dense layer compute (0 when `FeedForward` fails). -/
def Dense.probe (dense : Dense α) (e x : List α) : α :=
  ∑ o in Finset.range dense.out, e.getD o 0 * ((dense.FeedForward x).getD []).getD o 0

/-- Every buffer an optimizer holds has, for each layer, exactly `Parameters()` cells. -/
def Optimizer.Bound : Optimizer α → SeqNet α → Prop
  | .sgd o, net => Shaped o.sumSteps net
  | .momentum o, net => Shaped o.sumSteps net ∧ Shaped o.cachedSteps net
  | .rmsProp o, net => Shaped o.sumSteps net ∧ Shaped o.cachedSteps net

/-- The three constructors, boxed as the source returns them. -/
def Optimizer.Fresh (o : Optimizer α) (net : SeqNet α) : Prop :=
  (∃ lr, o = .sgd (NewSGD net lr)) ∨ (∃ lr m, o = .momentum (NewSGDMomentum net lr m))
    ∨ (∃ lr beta, o = .rmsProp (newRMSProp net lr beta))

/-- The slice entering layer `i` during the cached forward pass of `BackPropagate`
(`fwdOuts 0` is the input; the empty slice if an earlier layer fails). -/
def fwdOuts (exp : α → α) (net : SeqNet α) (input : List α) : Nat → List α
  | 0 => input
  | i + 1 =>
    (((net.layer i).CachedFeedForward exp (fwdOuts exp net input i)).map Prod.snd).getD []

/-- Layer `i` as the cached forward pass of `BackPropagate` leaves it. -/
def fwdLayer (exp : α → α) (net : SeqNet α) (input : List α) (i : Nat) : Layer α :=
  (((net.layer i).CachedFeedForward exp (fwdOuts exp net input i)).map Prod.fst).getD
    (net.layer i)

/-- The error slice after `k` iterations of the backward loop of `BackPropagate` over the
layers `L`, that is the error at the output of layer `n - 1 - k`. -/
def backErrs (L : Nat → Layer α) (n : Nat) (top : List α) : Nat → List α
  | 0 => top
  | k + 1 => ((L (n - 1 - k)).BackPropagate (backErrs L n top k)).getD []

/-! ## The number type `float64` (IEEE 754 binary64)

The values of Go's `float64` and the operations on them that `optim.go` uses: every
arithmetic operation returns the exact result rounded to the nearest representable number
(a tie goes to the even significand), a result of magnitude `2 ^ 1024` or more becomes an
infinity, and the invalid operations give NaN.  The two zeros are one value here: they are
equal in Go, and they differ only in the sign of `x / 0`, which is taken as the sign of `x`;
no division of gonn has a zero divisor (the divisors are `sqrt s + EPSILON` and
`1 + exp (-x)`). -/

/-- Loop of `leadingBit`: halves `n` until it is below 2. -/
def leadingBitLoop : Nat → Nat → Nat
  | 0, _ => 0
  | fuel + 1, n => if 2 ≤ n then leadingBitLoop fuel (n / 2) + 1 else 0

/-- Index of the leading binary digit of `n`, that is `⌊log₂ n⌋` (and `0` for `n = 0`). -/
def leadingBit (n : Nat) : Nat := leadingBitLoop n n

/-- The binary exponent of `x ≠ 0`: `⌊log₂ |x|⌋`. -/
def ilog2 (x : ℚ) : ℤ :=
  if (2 : ℚ) ^ ((leadingBit x.num.natAbs : ℤ) - (leadingBit x.den : ℤ)) ≤ |x| then
    (leadingBit x.num.natAbs : ℤ) - (leadingBit x.den : ℤ)
  else (leadingBit x.num.natAbs : ℤ) - (leadingBit x.den : ℤ) - 1

/-- The nearest integer, a tie going to the even one. -/
def roundHalfEven (x : ℚ) : ℤ :=
  if x - ⌊x⌋ < 1 / 2 then ⌊x⌋
  else if 1 / 2 < x - ⌊x⌋ then ⌊x⌋ + 1
  else if ⌊x⌋ % 2 = 0 then ⌊x⌋ else ⌊x⌋ + 1

/-- Spacing of the binary64 numbers around `x`: `2 ^ (e - 52)` where `e` is the binary
exponent of `x`, held at `-1022` in the subnormal range. -/
def ulp (x : ℚ) : ℚ := 2 ^ (max (ilog2 x) (-1022) - 52)

/-- What a `float64` denotes: a rational number, an infinity, or NaN. -/
inductive Ext where
  | fin (q : ℚ)
  | posInf
  | negInf
  | nan
deriving DecidableEq, Repr

/-- Rounding to binary64: the nearest multiple of `ulp x`, ties to even, and an infinity when
that multiple reaches `2 ^ 1024`. -/
def Ext.round (x : ℚ) : Ext :=
  if 2 ^ 1024 ≤ (roundHalfEven (x / ulp x) : ℚ) * ulp x then .posInf
  else if (roundHalfEven (x / ulp x) : ℚ) * ulp x ≤ -2 ^ 1024 then .negInf
  else .fin (roundHalfEven (x / ulp x) * ulp x)

/-- Go's `float64`: NaN, the infinities, and the rationals that rounding produces. -/
structure Float64 where
  val : Ext
  isFloat : val = .nan ∨ val = .posInf ∨ val = .negInf ∨ ∃ x : ℚ, val = Ext.round x
deriving DecidableEq

/-- The `float64` nearest to the rational `x`; a Go constant `c` denotes `ofRat c`. -/
def Float64.ofRat (x : ℚ) : Float64 := ⟨Ext.round x, Or.inr (Or.inr (Or.inr ⟨x, rfl⟩))⟩

/-- Go `math.NaN()`. -/
def Float64.nan : Float64 := ⟨.nan, Or.inl rfl⟩

/-- Go `math.Inf(1)`. -/
def Float64.posInf : Float64 := ⟨.posInf, Or.inr (Or.inl rfl)⟩

/-- Go `math.Inf(-1)`. -/
def Float64.negInf : Float64 := ⟨.negInf, Or.inr (Or.inr (Or.inl rfl))⟩

/-- Go `a + b` on `float64`. -/
def Float64.add (a b : Float64) : Float64 :=
  match a.val, b.val with
  | .fin x, .fin y => ofRat (x + y)
  | .fin _, .posInf => posInf
  | .fin _, .negInf => negInf
  | .posInf, .fin _ => posInf
  | .posInf, .posInf => posInf
  | .posInf, .negInf => nan
  | .negInf, .fin _ => negInf
  | .negInf, .posInf => nan
  | .negInf, .negInf => negInf
  | .nan, _ => nan
  | _, .nan => nan

/-- Go `a - b` on `float64`. -/
def Float64.sub (a b : Float64) : Float64 :=
  match a.val, b.val with
  | .fin x, .fin y => ofRat (x - y)
  | .fin _, .posInf => negInf
  | .fin _, .negInf => posInf
  | .posInf, .fin _ => posInf
  | .posInf, .posInf => nan
  | .posInf, .negInf => posInf
  | .negInf, .fin _ => negInf
  | .negInf, .posInf => negInf
  | .negInf, .negInf => nan
  | .nan, _ => nan
  | _, .nan => nan

/-- Product of an infinity of sign `s` (`true` for `+Inf`) with the finite number `y`. -/
def Float64.infTimes (s : Bool) (y : ℚ) : Float64 :=
  if y = 0 then nan else if (0 < y) = s then posInf else negInf

/-- Go `a * b` on `float64`. -/
def Float64.mul (a b : Float64) : Float64 :=
  match a.val, b.val with
  | .fin x, .fin y => ofRat (x * y)
  | .fin x, .posInf => infTimes true x
  | .fin x, .negInf => infTimes false x
  | .posInf, .fin y => infTimes true y
  | .posInf, .posInf => posInf
  | .posInf, .negInf => negInf
  | .negInf, .fin y => infTimes false y
  | .negInf, .posInf => negInf
  | .negInf, .negInf => posInf
  | .nan, _ => nan
  | _, .nan => nan

/-- Go `a / b` on `float64`. -/
def Float64.div (a b : Float64) : Float64 :=
  match a.val, b.val with
  | .fin x, .fin y =>
    if y = 0 then (if x = 0 then nan else if 0 < x then posInf else negInf) else ofRat (x / y)
  | .fin _, .posInf => ofRat 0
  | .fin _, .negInf => ofRat 0
  | .posInf, .fin y => if 0 ≤ y then posInf else negInf
  | .negInf, .fin y => if 0 ≤ y then negInf else posInf
  | .posInf, .posInf => nan
  | .posInf, .negInf => nan
  | .negInf, .posInf => nan
  | .negInf, .negInf => nan
  | .nan, _ => nan
  | _, .nan => nan

/-- Loop of `isqrt`: decides the binary digits of the root from the top. -/
def isqrtLoop (n : Nat) : Nat → Nat → Nat
  | 0, r => r
  | b + 1, r =>
    if (r + 2 ^ b) * (r + 2 ^ b) ≤ n then isqrtLoop n b (r + 2 ^ b) else isqrtLoop n b r

/-- Integer square root: the largest `r` with `r * r ≤ n`. -/
def isqrt (n : Nat) : Nat := isqrtLoop n (leadingBit n / 2 + 1) 0

/-- A rational that rounds to binary64 as `√x` does, for `x ≥ 0`: with `x * 4 ^ k` in
`[2 ^ 111, 2 ^ 113)` and `r` the integer square root of its floor, `√x * 2 ^ k` lies in
`[r, r + 1)`, a range that holds no binary64 number and no midpoint of two of them in its
interior (`r ≥ 2 ^ 55`); it is `r` exactly when `r * r = x * 4 ^ k`. -/
def sqrtSticky (x : ℚ) : ℚ :=
  (if (isqrt ⌊x * 4 ^ (56 - ilog2 x / 2)⌋.toNat : ℚ) * isqrt ⌊x * 4 ^ (56 - ilog2 x / 2)⌋.toNat
        = x * 4 ^ (56 - ilog2 x / 2)
    then (isqrt ⌊x * 4 ^ (56 - ilog2 x / 2)⌋.toNat : ℚ)
    else isqrt ⌊x * 4 ^ (56 - ilog2 x / 2)⌋.toNat + 1 / 2) / 2 ^ (56 - ilog2 x / 2)

/-- Go `math.Sqrt`: the correctly rounded square root; NaN for a negative argument. -/
def Float64.sqrt (a : Float64) : Float64 :=
  match a.val with
  | .fin x => if x < 0 then nan else ofRat (sqrtSticky x)
  | .posInf => posInf
  | .negInf => nan
  | .nan => nan

/-- Go `math.Abs`. -/
def Float64.abs (a : Float64) : Float64 :=
  match a.val with
  | .fin x => ofRat |x|
  | .posInf => posInf
  | .negInf => posInf
  | .nan => nan

/-- Go `a <= b` on `float64`: false when either side is NaN. -/
def Float64.ble (a b : Float64) : Bool :=
  match a.val, b.val with
  | .fin x, .fin y => decide (x ≤ y)
  | .fin _, .posInf => true
  | .negInf, .fin _ => true
  | .negInf, .posInf => true
  | .posInf, .posInf => true
  | .negInf, .negInf => true
  | _, _ => false

/-- Go unary `-a` on `float64`. -/
def Float64.neg (a : Float64) : Float64 :=
  match a.val with
  | .fin x => ofRat (-x)
  | .posInf => negInf
  | .negInf => posInf
  | .nan => nan

/-- Whether a `float64` is a number: neither NaN nor an infinity. -/
def Float64.IsFinite (a : Float64) : Prop := ∃ x : ℚ, a.val = .fin x

instance (a : Float64) : Decidable a.IsFinite :=
  match h : a.val with
  | .fin x => isTrue ⟨x, h⟩
  | .posInf => isFalse (fun ⟨_, hx⟩ => Ext.noConfusion (h.symm.trans hx))
  | .negInf => isFalse (fun ⟨_, hx⟩ => Ext.noConfusion (h.symm.trans hx))
  | .nan => isFalse (fun ⟨_, hx⟩ => Ext.noConfusion (h.symm.trans hx))

instance : Zero Float64 := ⟨Float64.ofRat 0⟩

instance : One Float64 := ⟨Float64.ofRat 1⟩

instance : Add Float64 := ⟨Float64.add⟩

instance : Sub Float64 := ⟨Float64.sub⟩

instance : Neg Float64 := ⟨Float64.neg⟩

instance : Mul Float64 := ⟨Float64.mul⟩

instance : Div Float64 := ⟨Float64.div⟩

instance : OfScientific Float64 :=
  ⟨fun m s e => Float64.ofRat (OfScientific.ofScientific m s e)⟩

instance : LE Float64 := ⟨fun a b => Float64.ble a b = true⟩

instance (a b : Float64) : Decidable (a ≤ b) := inferInstanceAs (Decidable (_ = true))

/-! # Theorems -/

/-! ## Loops and slices -/

theorem forLoop_inv {σ : Type} (P : Nat → σ → Prop) (n : Nat) (body : Nat → σ → Option σ)
    (s : σ) (h0 : P 0 s)
    (hstep : ∀ i, i < n → ∀ t, P i t → ∃ u, body i t = some u ∧ P (i + 1) u) :
    ∃ t, forLoop n body s = some t ∧ P n t := by
  induction n with
  | zero => exact ⟨s, rfl, h0⟩
  | succ n ih =>
    obtain ⟨t, ht, hP⟩ := ih (fun i hi => hstep i (Nat.lt_succ_of_lt hi))
    obtain ⟨u, hu, hQ⟩ := hstep n (Nat.lt_succ_self n) t hP
    exact ⟨u, by simp [forLoop, ht, hu], hQ⟩

@[simp] theorem tab_length {β : Type} (n : Nat) (f : Nat → β) : (tab n f).length = n := by
  simp [tab]

theorem tab_getElem? {β : Type} (n : Nat) (f : Nat → β) (i : Nat) :
    (tab n f)[i]? = if i < n then some (f i) else none := by
  unfold tab
  by_cases h : i < n
  · simp [h, List.getElem?_range h]
  · simp [h, List.getElem?_eq_none (l := List.range n) (by simpa using h)]

theorem tab_getElem?_lt {β : Type} {n : Nat} (f : Nat → β) {i : Nat} (h : i < n) :
    (tab n f)[i]? = some (f i) := by
  rw [tab_getElem?, if_pos h]

theorem tab_congr {β : Type} {n : Nat} {f g : Nat → β} (h : ∀ i, i < n → f i = g i) :
    tab n f = tab n g := by
  unfold tab
  apply List.map_congr_left
  intro i hi
  exact h i (List.mem_range.mp hi)

theorem store_tab {β : Type} {n : Nat} (f : Nat → β) {i : Nat} (h : i < n) (v : β) :
    store (tab n f) i v = some (tab n (Function.update f i v)) := by
  unfold store
  rw [if_pos (by simpa using h)]
  congr 1
  apply List.ext_getElem?
  intro k
  rw [List.getElem?_set, tab_getElem? n (Function.update f i v)]
  by_cases hk : i = k
  · subst hk
    simp [h]
  · have hk2 : k ≠ i := fun e => hk e.symm
    rw [if_neg hk, tab_getElem?, Function.update_noteq hk2]

theorem make_eq_tab {α : Type} [Zero α] (n : Nat) : (make n : List α) = tab n (fun _ => 0) := by
  unfold make tab
  apply List.ext_getElem?
  intro k
  by_cases h : k < n
  · simp [h, List.getElem?_range h, List.getElem?_replicate]
  · simp [h, List.getElem?_replicate, List.getElem?_eq_none (l := List.range n) (by simpa using h)]

theorem getElem?_eq_getD {β : Type} (l : List β) (d : β) {i : Nat} (h : i < l.length) :
    l[i]? = some (l.getD i d) := by
  simp [List.getD, List.getElem?_eq_getElem h]

theorem eq_tab_getD {β : Type} (l : List β) (d : β) : l = tab l.length (fun i => l.getD i d) := by
  apply List.ext_getElem?
  intro k
  rw [tab_getElem?]
  by_cases h : k < l.length
  · rw [if_pos h, getElem?_eq_getD l d h]
  · rw [if_neg h, List.getElem?_eq_none (by simpa using h)]

theorem offset_lt {a b i j : Nat} (hi : i < b) (hj : j < a) : i * a + j < a * b := by
  calc i * a + j < i * a + a := by omega
    _ = (i + 1) * a := by ring
    _ ≤ b * a := Nat.mul_le_mul_right a hi
    _ = a * b := Nat.mul_comm b a

/-! ## Dense layer -/

theorem dense_feedForward_eq (dense : Dense α) (input : List α)
    (hW : dense.connections.length = dense.in_ * dense.out)
    (hx : dense.in_ ≤ input.length) :
    dense.FeedForward input = some (tab dense.out (fun o => rowSum dense input o dense.in_)) := by
  obtain ⟨t, ht, hP⟩ := forLoop_inv
    (fun i (output : List α) =>
      output = tab dense.out (fun o => if o < i then rowSum dense input o dense.in_ else 0))
    dense.out
    (fun i output =>
      let offset := i * dense.in_
      forLoop dense.in_ (fun j output => do
        let x ← input[j]?
        let w ← dense.connections[offset + j]?
        let o ← output[i]?
        store output i (o + x * w)) output)
    (make dense.out)
    (by simp [make_eq_tab])
    (by
      intro i hi t ht
      obtain ⟨u, hu, hQ⟩ := forLoop_inv
        (fun j (output : List α) =>
          output = tab dense.out (fun o =>
            if o < i then rowSum dense input o dense.in_
            else if o = i then rowSum dense input i j else 0))
        dense.in_
        (fun j output => do
          let x ← input[j]?
          let w ← dense.connections[i * dense.in_ + j]?
          let o ← output[i]?
          store output i (o + x * w))
        t
        (by
          rw [ht]
          apply tab_congr
          intro o _
          by_cases h1 : o < i
          · simp [h1]
          · simp [h1, rowSum])
        (by
          intro j hj v hv
          have h1 : input[j]? = some (input.getD j 0) :=
            getElem?_eq_getD input 0 (lt_of_lt_of_le hj hx)
          have h2 : dense.connections[i * dense.in_ + j]?
              = some (dense.connections.getD (i * dense.in_ + j) 0) :=
            getElem?_eq_getD _ 0 (by rw [hW]; exact offset_lt hi hj)
          have h3 : v[i]? = some (rowSum dense input i j) := by
            rw [hv, tab_getElem?_lt _ hi]
            simp
          refine ⟨_, ?_, rfl⟩
          simp only [h1, h2, h3, Option.bind_eq_bind, Option.some_bind]
          rw [hv, store_tab _ hi]
          congr 1
          apply tab_congr
          intro o _
          by_cases h4 : o = i
          · subst h4
            simp [rowSum, Finset.sum_range_succ]
          · simp [h4, Function.update_noteq h4])
      refine ⟨u, hu, ?_⟩
      rw [hQ]
      apply tab_congr
      intro o _
      by_cases h1 : o < i
      · simp [h1, Nat.lt_succ_of_lt h1]
      · by_cases h2 : o = i
        · subst h2
          simp
        · have : ¬ o < i + 1 := by omega
          simp [h1, h2, this])
  unfold Dense.FeedForward
  rw [ht, hP]
  congr 1
  apply tab_congr
  intro o ho
  simp [ho]

theorem dense_backPropagate_eq (dense : Dense α) (error : List α)
    (hW : dense.connections.length = dense.in_ * dense.out)
    (he : dense.out ≤ error.length) :
    dense.BackPropagate error
      = some (tab dense.in_ (fun j => colSum dense error dense.out j)) := by
  obtain ⟨t, ht, hP⟩ := forLoop_inv
    (fun i (prevDelta : List α) => prevDelta = tab dense.in_ (fun j => colSum dense error i j))
    dense.out
    (fun i prevDelta =>
      let offset := i * dense.in_
      forLoop dense.in_ (fun j prevDelta => do
        let e ← error[i]?
        let w ← dense.connections[offset + j]?
        let p ← prevDelta[j]?
        store prevDelta j (p + e * w)) prevDelta)
    (make dense.in_)
    (by simp [make_eq_tab, colSum])
    (by
      intro i hi t ht
      obtain ⟨u, hu, hQ⟩ := forLoop_inv
        (fun j (prevDelta : List α) =>
          prevDelta = tab dense.in_ (fun k =>
            if k < j then colSum dense error (i + 1) k else colSum dense error i k))
        dense.in_
        (fun j prevDelta => do
          let e ← error[i]?
          let w ← dense.connections[i * dense.in_ + j]?
          let p ← prevDelta[j]?
          store prevDelta j (p + e * w))
        t
        (by simp [ht])
        (by
          intro j hj v hv
          have h1 : error[i]? = some (error.getD i 0) :=
            getElem?_eq_getD error 0 (lt_of_lt_of_le hi he)
          have h2 : dense.connections[i * dense.in_ + j]?
              = some (dense.connections.getD (i * dense.in_ + j) 0) :=
            getElem?_eq_getD _ 0 (by rw [hW]; exact offset_lt hi hj)
          have h3 : v[j]? = some (colSum dense error i j) := by
            rw [hv, tab_getElem?_lt _ hj]
            simp
          refine ⟨_, ?_, rfl⟩
          simp only [h1, h2, h3, Option.bind_eq_bind, Option.some_bind]
          rw [hv, store_tab _ hj]
          congr 1
          apply tab_congr
          intro k _
          by_cases h4 : k = j
          · subst h4
            simp [colSum, Finset.sum_range_succ]
          · have h5 : (k < j + 1) = (k < j) := by
              apply propext
              omega
            simp [h4, Function.update_noteq h4, h5])
      refine ⟨u, hu, ?_⟩
      rw [hQ]
      apply tab_congr
      intro k hk
      simp [hk])
  unfold Dense.BackPropagate
  rw [ht, hP]

theorem offset_div {a i j : Nat} (hj : j < a) : (i * a + j) / a = i := by
  have ha : 0 < a := by omega
  rw [Nat.add_comm, Nat.add_mul_div_right _ _ ha, Nat.div_eq_of_lt hj, Nat.zero_add]

theorem offset_mod {a i j : Nat} (hj : j < a) : (i * a + j) % a = j := by
  rw [Nat.add_comm, Nat.add_mul_mod_self_right, Nat.mod_eq_of_lt hj]

theorem dense_getStep_eq (dense : Dense α) (delta : List α)
    (hW : dense.connections.length = dense.in_ * dense.out)
    (hL : dense.in_ ≤ dense.lastInput.length)
    (he : dense.out ≤ delta.length) :
    dense.GetStep delta
      = some (tab (dense.in_ * dense.out) (fun k =>
          delta.getD (k / dense.in_) 0 * dense.lastInput.getD (k % dense.in_) 0)) := by
  obtain ⟨t, ht, hP⟩ := forLoop_inv
    (fun i (step : List α) => step = tab (dense.in_ * dense.out) (fun k =>
      if k < i * dense.in_
      then delta.getD (k / dense.in_) 0 * dense.lastInput.getD (k % dense.in_) 0 else 0))
    dense.out
    (fun i step =>
      let offset := i * dense.in_
      forLoop dense.in_ (fun j step => do
        let d ← delta[i]?
        let x ← dense.lastInput[j]?
        store step (offset + j) (d * x)) step)
    (make dense.connections.length)
    (by simp [make_eq_tab, hW])
    (by
      intro i hi t ht
      obtain ⟨u, hu, hQ⟩ := forLoop_inv
        (fun j (step : List α) => step = tab (dense.in_ * dense.out) (fun k =>
          if k < i * dense.in_ + j
          then delta.getD (k / dense.in_) 0 * dense.lastInput.getD (k % dense.in_) 0 else 0))
        dense.in_
        (fun j step => do
          let d ← delta[i]?
          let x ← dense.lastInput[j]?
          store step (i * dense.in_ + j) (d * x))
        t
        (by simp [ht])
        (by
          intro j hj v hv
          have h1 : delta[i]? = some (delta.getD i 0) :=
            getElem?_eq_getD delta 0 (lt_of_lt_of_le hi he)
          have h2 : dense.lastInput[j]? = some (dense.lastInput.getD j 0) :=
            getElem?_eq_getD _ 0 (lt_of_lt_of_le hj hL)
          refine ⟨_, ?_, rfl⟩
          simp only [h1, h2, Option.bind_eq_bind, Option.some_bind]
          rw [hv, store_tab _ (offset_lt hi hj)]
          congr 1
          apply tab_congr
          intro k _
          by_cases h4 : k = i * dense.in_ + j
          · subst h4
            simp [offset_div hj, offset_mod hj]
          · have h5 : (k < i * dense.in_ + (j + 1)) = (k < i * dense.in_ + j) := by
              apply propext
              omega
            simp only [Function.update_noteq h4, h5])
      refine ⟨u, hu, ?_⟩
      rw [hQ]
      have h6 : i * dense.in_ + dense.in_ = (i + 1) * dense.in_ := by ring
      rw [h6])
  unfold Dense.GetStep
  rw [ht, hP]
  congr 1
  apply tab_congr
  intro k hk
  have : k < dense.out * dense.in_ := by rw [Nat.mul_comm]; exact hk
  simp [this]

theorem copy_length {β : Type} (dst src : List β) : (copy dst src).length = dst.length := by
  simp only [copy, List.length_append, List.length_take, List.length_drop]
  omega

theorem copy_getD {β : Type} (dst src : List β) (d : β) {i : Nat} (hi : i < src.length)
    (hd : i < dst.length) : (copy dst src).getD i d = src.getD i d := by
  have h1 : i < (src.take dst.length).length := by
    simp only [List.length_take]
    omega
  simp only [copy, List.getD_eq_getElem?_getD]
  rw [List.getElem?_append_left h1, List.getElem?_take_of_lt hd]

/-! ## Cached and plain forward passes -/

theorem forLoop_map {σ τ : Type} (proj : τ → σ) (Inv : τ → Prop) (n : Nat)
    (body1 : Nat → σ → Option σ) (body2 : Nat → τ → Option τ)
    (h : ∀ i, i < n → ∀ t, Inv t →
      (body2 i t).map proj = body1 i (proj t) ∧ ∀ u, body2 i t = some u → Inv u)
    (t : τ) (h0 : Inv t) :
    (forLoop n body2 t).map proj = forLoop n body1 (proj t)
      ∧ ∀ u, forLoop n body2 t = some u → Inv u := by
  induction n with
  | zero =>
    refine ⟨rfl, ?_⟩
    intro u hu
    simp only [forLoop, Option.some.injEq] at hu
    exact hu ▸ h0
  | succ n ih =>
    obtain ⟨h1, h2⟩ := ih (fun i hi => h i (Nat.lt_succ_of_lt hi))
    simp only [forLoop]
    cases hr : forLoop n body2 t with
    | none =>
      rw [hr] at h1
      simp [← h1]
    | some u =>
      rw [hr] at h1
      obtain ⟨h3, h4⟩ := h n (Nat.lt_succ_self n) u (h2 u hr)
      simp only [← h1, Option.map_some', Option.some_bind]
      exact ⟨h3, h4⟩

theorem function_dOut_fst (exp : α → α) (f : Function) (x : α) :
    (f.dOut exp x).1 = f.out exp x := by
  cases f with
  | ReLU =>
    simp only [Function.dOut, Function.out, ReLU.dOut, ReLU.out]
    split <;> rfl
  | Sigmoid => rfl

theorem store_length {β : Type} {l u : List β} {i : Nat} {v : β} (h : store l i v = some u) :
    u.length = l.length := by
  unfold store at h
  split at h
  · simp only [Option.some.injEq] at h
    simp [← h]
  · simp at h

theorem activation_cachedFeedForward_snd (exp : α → α) (a : Activation α) (input : List α)
    (hc : a.out ≤ a.cache.length) :
    (a.CachedFeedForward exp input).map Prod.snd = a.FeedForward exp input := by
  have key := (forLoop_map (Prod.fst : List α × List α → List α)
    (fun t => a.out ≤ t.2.length) a.out
    (fun i output => do
      let x ← input[i]?
      store output i (a.function.out exp x))
    (fun i (st : List α × List α) => do
      let x ← input[i]?
      let r := a.function.dOut exp x
      let output ← store st.1 i r.1
      let cache ← store st.2 i r.2
      pure (output, cache))
    (by
      intro i hi t ht
      cases hx : input[i]? with
      | none => simp [hx]
      | some x =>
        have hs : store t.2 i (a.function.dOut exp x).2
            = some (t.2.set i (a.function.dOut exp x).2) := by
          unfold store
          rw [if_pos (lt_of_lt_of_le hi ht)]
        simp only [Option.bind_eq_bind, Option.some_bind, function_dOut_fst, hs, hx]
        cases hs1 : store t.1 i (a.function.out exp x) with
        | none => simp
        | some o => simpa using ht)
    (make a.out, a.cache) hc).1
  unfold Activation.CachedFeedForward Activation.FeedForward
  rw [← key, Option.map_map]
  rfl

theorem layer_cachedFeedForward_snd (exp : α → α) (l : Layer α) (input : List α)
    (hc : ∀ a, l = .activation a → a.out ≤ a.cache.length) :
    (l.CachedFeedForward exp input).map Prod.snd = l.FeedForward exp input := by
  cases l with
  | dense d =>
    simp only [Layer.CachedFeedForward, Layer.FeedForward, Dense.CachedFeedForward,
      Option.map_map]
    have : (Prod.snd ∘ (fun r : Dense α × List α => (Layer.dense r.1, r.2)) ∘
        fun output => ({ d with lastInput := copy d.lastInput input }, output)) = id := rfl
    rw [this, Option.map_id]
    rfl
  | bias b =>
    simp only [Layer.CachedFeedForward, Layer.FeedForward, Bias.CachedFeedForward,
      Option.map_map]
    have : (Prod.snd ∘ (fun r : Bias α × List α => (Layer.bias r.1, r.2)) ∘
        fun output => (b, output)) = id := rfl
    rw [this, Option.map_id]
    rfl
  | activation a =>
    simp only [Layer.CachedFeedForward, Layer.FeedForward, Option.map_map]
    exact activation_cachedFeedForward_snd exp a input (hc a rfl)

/-! ## Layer contracts -/

/-- C1. For a dense layer whose weight slice has `in * out` cells and an input of `in` cells,
`FeedForward` returns a slice of `out` cells whose cell `o` is the sum over `i < in` of
`x[i] * W[o*in + i]`. -/
theorem dense_feedForward_sum (dense : Dense α) (x : List α)
    (hW : dense.connections.length = dense.in_ * dense.out)
    (hx : x.length = dense.in_) :
    ∃ y, dense.FeedForward x = some y ∧ y.length = dense.out ∧
      ∀ o, o < dense.out →
        y[o]? = some (∑ i in Finset.range dense.in_,
          x.getD i 0 * dense.connections.getD (o * dense.in_ + i) 0) := by
  refine ⟨_, dense_feedForward_eq dense x hW (le_of_eq hx.symm), tab_length _ _, ?_⟩
  intro o ho
  rw [tab_getElem?_lt _ ho]
  rfl

/-- Instance of C1 at in=2, out=1, W=[1, 2], x=[3, 4]: the output is [11]. -/
theorem dense_feedForward_sum_witness :
    (NewDenseRand 2 1 [(1 : ℚ), 2]).FeedForward [3, 4] = some [11] ∧
    ∃ y, (NewDenseRand 2 1 [(1 : ℚ), 2]).FeedForward [3, 4] = some y ∧ y.length = 1 ∧
      ∀ o, o < 1 →
        y[o]? = some (∑ i in Finset.range 2,
          [(3 : ℚ), 4].getD i 0 * [(1 : ℚ), 2].getD (o * 2 + i) 0) :=
  ⟨by simp [Dense.FeedForward, forLoop, store, make, NewDenseRand]; norm_num,
   dense_feedForward_sum (NewDenseRand 2 1 [(1 : ℚ), 2]) [3, 4] rfl rfl⟩

/-- C2. For a dense layer whose weight slice has `in * out` cells and an error of `out` cells,
`BackPropagate` returns a slice of `in` cells whose cell `i` is the sum over `o < out` of
`e[o] * W[o*in + i]`. -/
theorem dense_backPropagate_sum (dense : Dense α) (e : List α)
    (hW : dense.connections.length = dense.in_ * dense.out)
    (he : e.length = dense.out) :
    ∃ p, dense.BackPropagate e = some p ∧ p.length = dense.in_ ∧
      ∀ i, i < dense.in_ →
        p[i]? = some (∑ o in Finset.range dense.out,
          e.getD o 0 * dense.connections.getD (o * dense.in_ + i) 0) := by
  refine ⟨_, dense_backPropagate_eq dense e hW (le_of_eq he.symm), tab_length _ _, ?_⟩
  intro i hi
  rw [tab_getElem?_lt _ hi]
  rfl

/-- Instance of C2 at in=2, out=1, W=[1, 2], e=[1]: the input gradient is [1, 2]. -/
theorem dense_backPropagate_sum_witness :
    (NewDenseRand 2 1 [(1 : ℚ), 2]).BackPropagate [1] = some [1, 2] ∧
    ∃ p, (NewDenseRand 2 1 [(1 : ℚ), 2]).BackPropagate [1] = some p ∧ p.length = 2 ∧
      ∀ i, i < 2 →
        p[i]? = some (∑ o in Finset.range 1,
          [(1 : ℚ)].getD o 0 * [(1 : ℚ), 2].getD (o * 2 + i) 0) :=
  ⟨by simp [Dense.BackPropagate, forLoop, store, make, NewDenseRand],
   dense_backPropagate_sum (NewDenseRand 2 1 [(1 : ℚ), 2]) [1] rfl rfl⟩

/-- C3. For a dense layer whose weight slice has `in * out` cells and whose input cache has at
least `in` cells (`NewDenseRand` allocates exactly `in`), an input of `in` cells and an error of
`out` cells: `CachedFeedForward x` succeeds, and on the layer it leaves behind `GetStep e`
returns a slice of `in * out` cells whose cell `o*in + i` is `e[o] * x[i]`. -/
theorem dense_getStep_outer (dense : Dense α) (x e : List α)
    (hW : dense.connections.length = dense.in_ * dense.out)
    (hL : dense.in_ ≤ dense.lastInput.length)
    (hx : x.length = dense.in_)
    (he : e.length = dense.out) :
    ∃ dense1 y, dense.CachedFeedForward x = some (dense1, y) ∧
      ∃ s, dense1.GetStep e = some s ∧ s.length = dense.in_ * dense.out ∧
        ∀ o i, o < dense.out → i < dense.in_ →
          s[o * dense.in_ + i]? = some (e.getD o 0 * x.getD i 0) := by
  have hf := dense_feedForward_eq { dense with lastInput := copy dense.lastInput x } x hW
    (le_of_eq hx.symm)
  have hg := dense_getStep_eq { dense with lastInput := copy dense.lastInput x } e hW
    (by rw [copy_length]; exact hL) (le_of_eq he.symm)
  have hc : dense.CachedFeedForward x = some ({ dense with lastInput := copy dense.lastInput x },
      tab dense.out (fun o =>
        rowSum { dense with lastInput := copy dense.lastInput x } x o dense.in_)) := by
    simp only [Dense.CachedFeedForward, hf, Option.map_some']
  refine ⟨_, _, hc, _, hg, tab_length _ _, ?_⟩
  intro o i ho hi
  rw [tab_getElem?_lt _ (offset_lt ho hi)]
  simp only [offset_div hi, offset_mod hi]
  rw [copy_getD _ _ _ (by omega) (by omega)]

/-- Instance of C3 at in=2, out=1, x=[3, 4], e=[1]: the parameter gradient is [3, 4]. -/
theorem dense_getStep_outer_witness :
    ((NewDenseRand 2 1 [(1 : ℚ), 2]).CachedFeedForward [3, 4]).bind
      (fun r => r.1.GetStep [1]) = some [3, 4] ∧
    ∃ dense1 y, (NewDenseRand 2 1 [(1 : ℚ), 2]).CachedFeedForward [3, 4] = some (dense1, y) ∧
      ∃ s, dense1.GetStep [1] = some s ∧ s.length = 2 * 1 ∧
        ∀ o i, o < 1 → i < 2 →
          s[o * 2 + i]? = some ([(1 : ℚ)].getD o 0 * [(3 : ℚ), 4].getD i 0) :=
  ⟨by simp [Dense.CachedFeedForward, Dense.FeedForward, Dense.GetStep, forLoop, store, make,
      NewDenseRand, copy],
   dense_getStep_outer (NewDenseRand 2 1 [(1 : ℚ), 2]) [3, 4] [1] rfl (le_refl 2) rfl rfl⟩

/-- C4. For a dense layer, a bias layer, and an activation layer (ReLU or Sigmoid) whose
derivative cache has at least `out` cells (`NewActivation` allocates exactly `out`):
`CachedFeedForward` fails exactly when `FeedForward` fails, and whenever `FeedForward` returns
an output, `CachedFeedForward` returns that same output. -/
theorem cachedFeedForward_same_output (exp : α → α) (l : Layer α) (input : List α)
    (hc : ∀ a, l = .activation a → a.out ≤ a.cache.length) :
    (l.CachedFeedForward exp input).map Prod.snd = l.FeedForward exp input ∧
    ∀ y, l.FeedForward exp input = some y →
      ∃ l1, l.CachedFeedForward exp input = some (l1, y) := by
  have h := layer_cachedFeedForward_snd exp l input hc
  refine ⟨h, ?_⟩
  intro y hy
  rw [← h] at hy
  cases hr : l.CachedFeedForward exp input with
  | none => simp [hr] at hy
  | some r =>
    rw [hr] at hy
    simp only [Option.map_some', Option.some.injEq] at hy
    exact ⟨r.1, by rw [← hy]⟩

/-- Instance of C4 at a ReLU activation of size 1 built by `NewActivation`, on the input [2]. -/
theorem cachedFeedForward_same_output_witness :
    (Layer.activation (NewActivation 1 .ReLU)).FeedForward (fun _ => (0 : ℚ)) [2] = some [2] ∧
    (((Layer.activation (NewActivation 1 .ReLU)).CachedFeedForward (fun _ => (0 : ℚ)) [2]).map
        Prod.snd
      = (Layer.activation (NewActivation 1 .ReLU)).FeedForward (fun _ => (0 : ℚ)) [2] ∧
    ∀ y, (Layer.activation (NewActivation 1 .ReLU)).FeedForward (fun _ => (0 : ℚ)) [2] = some y →
      ∃ l1, (Layer.activation (NewActivation 1 .ReLU)).CachedFeedForward (fun _ => (0 : ℚ)) [2]
        = some (l1, y)) :=
  ⟨by simp [Layer.FeedForward, Activation.FeedForward, forLoop, store, make, NewActivation,
      Function.out, ReLU.out],
   cachedFeedForward_same_output (fun _ => (0 : ℚ)) (Layer.activation (NewActivation 1 .ReLU)) [2]
    (by
      intro a ha
      cases ha
      exact le_refl 1)⟩

/-- C5 (refuted as stated). At `x = 0` the code returns the derivative 1, not 0. -/
theorem relu_dOut_zero_counterexample :
    ReLU.dOut (0 : ℝ) = (0, 1) ∧
    ReLU.dOut (0 : ℝ) ≠ (max 0 0, if (0 : ℝ) > 0 then 1 else 0) := by
  constructor <;> simp [ReLU.dOut]

/-- C5 (amended). `ReLU.out x = max 0 x` and `ReLU.dOut x = (max 0 x, d)` with `d = 1` when
`0 ≤ x` and `d = 0` when `x < 0`; the pair is `(0, 1)` at 0, `(0, 0)` at -1 and `(2, 1)` at 2. -/
theorem relu_out_dOut (x : α) :
    ReLU.out x = max 0 x ∧
    ReLU.dOut x = (max 0 x, if 0 ≤ x then 1 else 0) ∧
    ReLU.dOut (0 : α) = (0, 1) ∧ ReLU.dOut (-1 : α) = (0, 0) ∧ ReLU.dOut (2 : α) = (2, 1) := by
  refine ⟨?_, ?_, ?_, ?_, ?_⟩
  · unfold ReLU.out
    split
    · rename_i h
      exact (max_eq_left (le_of_lt h)).symm
    · rename_i h
      exact (max_eq_right (not_lt.mp h)).symm
  · unfold ReLU.dOut
    split
    · rename_i h
      rw [max_eq_left (le_of_lt h), if_neg (not_le.mpr h)]
    · rename_i h
      rw [max_eq_right (not_lt.mp h), if_pos (not_lt.mp h)]
  · simp [ReLU.dOut]
  · simp [ReLU.dOut]
  · simp [ReLU.dOut]

/-! ## Slices of slices -/

theorem tab2_length {β : Type} (n : Nat) (len : Nat → Nat) (f : Nat → Nat → β) :
    (tab2 n len f).length = n := by
  simp [tab2]

theorem tab2_row {β : Type} {n : Nat} (len : Nat → Nat) (f : Nat → Nat → β) {i : Nat}
    (hi : i < n) : (tab2 n len f)[i]? = some (tab (len i) (f i)) := by
  unfold tab2
  rw [tab_getElem?_lt _ hi]

theorem load2_tab2 {β : Type} {n : Nat} (len : Nat → Nat) (f : Nat → Nat → β) {i j : Nat}
    (hi : i < n) (hj : j < len i) : load2 (tab2 n len f) i j = some (f i j) := by
  simp only [load2, tab2_row len f hi, Option.bind_eq_bind, Option.some_bind]
  rw [tab_getElem?_lt _ hj]

theorem tab2_congr {β : Type} {n : Nat} {len : Nat → Nat} {f g : Nat → Nat → β}
    (h : ∀ i j, i < n → j < len i → f i j = g i j) : tab2 n len f = tab2 n len g := by
  unfold tab2
  apply tab_congr
  intro i hi
  apply tab_congr
  intro j hj
  exact h i j hi hj

theorem store2_tab2 {β : Type} {n : Nat} (len : Nat → Nat) (f : Nat → Nat → β) {i j : Nat}
    (hi : i < n) (hj : j < len i) (v : β) :
    store2 (tab2 n len f) i j v
      = some (tab2 n len (fun a b => if a = i ∧ b = j then v else f a b)) := by
  simp only [store2, tab2_row len f hi, Option.bind_eq_bind, Option.some_bind,
    store_tab _ hj]
  unfold tab2
  rw [store_tab _ hi]
  congr 1
  apply tab_congr
  intro a _
  by_cases ha : a = i
  · subst ha
    rw [Function.update_same]
    apply tab_congr
    intro b _
    by_cases hb : b = j
    · subst hb
      simp
    · simp [hb, Function.update_noteq hb]
  · rw [Function.update_noteq ha]
    apply tab_congr
    intro b _
    simp [ha]

theorem getD_map_length {β : Type} (m : List (List β)) (i : Nat) :
    (m.map List.length).getD i 0 = (m.getD i []).length := by
  simp only [List.getD_eq_getElem?_getD, List.getElem?_map]
  cases m[i]? <;> simp

theorem eq_tab2 {α : Type} [Zero α] (m : List (List α)) :
    m = tab2 m.length (fun i => (m.getD i []).length) (cell m) := by
  unfold tab2
  conv_lhs => rw [eq_tab_getD m []]
  apply tab_congr
  intro i _
  exact eq_tab_getD (m.getD i []) 0

theorem shape_length {α : Type} (net : SeqNet α) : net.shape.length = net.layers.length := by
  simp [SeqNet.shape]

theorem shape_getD {α : Type} (net : SeqNet α) (i : Nat) :
    net.shape.getD i 0 = (net.layer i).Parameters := by
  simp only [SeqNet.shape, SeqNet.layer, List.getD_eq_getElem?_getD, List.getElem?_map]
  cases net.layers[i]? <;> simp [Layer.nil, Layer.Parameters, Activation.Parameters]

theorem shaped_length_eq {α : Type} {m : List (List α)} {net : SeqNet α} (h : Shaped m net) :
    m.length = net.layers.length := by
  have := congrArg List.length h
  simpa [SeqNet.shape] using this

theorem shaped_row_length {α : Type}
    {m : List (List α)} {net : SeqNet α} (h : Shaped m net) (i : Nat) :
    (m.getD i []).length = (net.layer i).Parameters := by
  rw [← getD_map_length, h, shape_getD]

theorem shaped_eq_tab2 {α : Type} [Zero α] {m : List (List α)} {net : SeqNet α} (h : Shaped m net) :
    m = tab2 net.layers.length (fun i => (net.layer i).Parameters) (cell m) := by
  conv_lhs => rw [eq_tab2 m]
  rw [shaped_length_eq h]
  unfold tab2
  apply tab_congr
  intro i _
  beta_reduce
  rw [shaped_row_length h]

theorem tab2_shaped {α : Type} (net : SeqNet α) (f : Nat → Nat → α) :
    Shaped (tab2 net.layers.length (fun i => (net.layer i).Parameters) f) net := by
  unfold Shaped
  apply List.ext_getElem?
  intro i
  simp only [List.getElem?_map, tab2, tab_getElem?, SeqNet.shape]
  by_cases hi : i < net.layers.length
  · simp [hi, SeqNet.layer, List.getD_eq_getElem?_getD, List.getElem?_eq_getElem hi]
  · simp [hi, List.getElem?_eq_none (l := net.layers) (by simpa using hi)]

theorem zeros_eq_tab2 {α : Type} [Zero α] (net : SeqNet α) :
    net.layers.map (fun layer => (make layer.Parameters : List α))
      = tab2 net.layers.length (fun i => (net.layer i).Parameters) (fun _ _ => 0) := by
  apply List.ext_getElem?
  intro i
  simp only [List.getElem?_map, tab2, tab_getElem?]
  by_cases hi : i < net.layers.length
  · simp [hi, SeqNet.layer, List.getD_eq_getElem?_getD, List.getElem?_eq_getElem hi,
      make_eq_tab]
  · simp [hi, List.getElem?_eq_none (l := net.layers) (by simpa using hi)]

theorem cell_tab2 {α : Type} [Zero α] {n : Nat} (len : Nat → Nat) (f : Nat → Nat → α) {i j : Nat}
    (hi : i < n) (hj : j < len i) : cell (tab2 n len f) i j = f i j := by
  simp only [cell, List.getD_eq_getElem?_getD, tab2_row len f hi, Option.getD_some,
    tab_getElem?_lt _ hj]

theorem getD_tab2 {α : Type}
    {n : Nat} (len : Nat → Nat) (f : Nat → Nat → α) {i : Nat} (hi : i < n) :
    (tab2 n len f).getD i [] = tab (len i) (f i) := by
  simp only [List.getD_eq_getElem?_getD, tab2_row len f hi, Option.getD_some]

/-! ## Applying a step to a layer -/

theorem getD_eq_zero_of_le {α : Type} [Zero α]
    (l : List α) {k : Nat} (h : l.length ≤ k) : l.getD k 0 = 0 := by
  simp only [List.getD_eq_getElem?_getD, List.getElem?_eq_none h, Option.getD_none]

theorem paramLoop_sweep {α : Type} [Zero α] [Sub α] (p step : List α)
    (h : step.length ≤ p.length) :
    forLoop step.length (fun i connections => do
      let c ← connections[i]?
      let s ← step[i]?
      store connections i (c - s)) p
      = some (tab p.length (fun k =>
          if k < step.length then p.getD k 0 - step.getD k 0 else p.getD k 0)) := by
  obtain ⟨t, ht, hP⟩ := forLoop_inv
    (fun i (c : List α) => c = tab p.length (fun k =>
      if k < i then p.getD k 0 - step.getD k 0 else p.getD k 0))
    step.length
    (fun i connections => do
      let c ← connections[i]?
      let s ← step[i]?
      store connections i (c - s))
    p
    (by
      beta_reduce
      conv_lhs => rw [eq_tab_getD p 0]
      simp)
    (by
      intro i hi v hv
      have hip : i < p.length := lt_of_lt_of_le hi h
      have h1 : v[i]? = some (p.getD i 0) := by
        rw [hv, tab_getElem?_lt _ hip]
        simp
      have h2 : step[i]? = some (step.getD i 0) := getElem?_eq_getD step 0 hi
      refine ⟨_, ?_, rfl⟩
      simp only [h1, h2, Option.bind_eq_bind, Option.some_bind]
      rw [hv, store_tab _ hip]
      congr 1
      apply tab_congr
      intro k _
      by_cases h4 : k = i
      · subst h4
        simp
      · have h5 : (k < i + 1) = (k < i) := by
          apply propext
          omega
        simp only [Function.update_noteq h4, h5])
  rw [ht, hP]

theorem paramLoop_eq (p step : List α) (h : step.length ≤ p.length) :
    forLoop step.length (fun i connections => do
      let c ← connections[i]?
      let s ← step[i]?
      store connections i (c - s)) p
      = some (tab p.length (fun k => p.getD k 0 - step.getD k 0)) := by
  rw [paramLoop_sweep p step h]
  congr 1
  apply tab_congr
  intro k _
  by_cases hk : k < step.length
  · rw [if_pos hk]
  · rw [if_neg hk, getD_eq_zero_of_le step (not_lt.mp hk), sub_zero]

theorem paramLoop_exact {α : Type} [Zero α] [Sub α] (p step : List α)
    (h : step.length = p.length) :
    forLoop step.length (fun i connections => do
      let c ← connections[i]?
      let s ← step[i]?
      store connections i (c - s)) p
      = some (tab p.length (fun k => p.getD k 0 - step.getD k 0)) := by
  rw [paramLoop_sweep p step (le_of_eq h)]
  congr 1
  apply tab_congr
  intro k hk
  rw [if_pos (h ▸ hk)]

theorem layer_step_exact {α : Type} [Zero α] [Sub α] (l : Layer α) (step : List α)
    (h : step.length = l.Parameters) : l.Step step = some (l.descend step) := by
  cases l with
  | dense d =>
    simp only [Layer.Step, Dense.Step, paramLoop_exact d.connections step h, Option.map_some']
    rfl
  | bias b =>
    simp only [Layer.Step, Bias.Step, paramLoop_exact b.connections step h, Option.map_some']
    rfl
  | activation a => rfl

theorem layer_step_eq (l : Layer α) (step : List α) (h : step.length ≤ l.Parameters) :
    l.Step step = some (l.descend step) := by
  cases l with
  | dense d =>
    simp only [Layer.Step, Dense.Step, paramLoop_eq d.connections step h, Option.map_some']
    rfl
  | bias b =>
    simp only [Layer.Step, Bias.Step, paramLoop_eq b.connections step h, Option.map_some']
    rfl
  | activation a => rfl

theorem descend_parameters {α : Type} [Zero α] [Sub α] (l : Layer α) (step : List α) :
    (l.descend step).Parameters = l.Parameters := by
  cases l <;>
    simp [Layer.descend, Layer.withParams, Layer.Parameters, Dense.Parameters, Bias.Parameters,
      Activation.Parameters]

theorem withParams_params {α : Type} (l : Layer α) : l.withParams l.params = l := by
  cases l <;> rfl

theorem descend_zero (l : Layer α) (step : List α) (h : ∀ k, step.getD k 0 = 0) :
    l.descend step = l := by
  have : tab l.Parameters (fun k => l.params.getD k 0 - step.getD k 0) = l.params := by
    have hp : l.Parameters = l.params.length := by
      cases l <;> rfl
    conv_rhs => rw [eq_tab_getD l.params 0]
    rw [hp]
    apply tab_congr
    intro k _
    rw [h k, sub_zero]
  rw [Layer.descend, this, withParams_params]

theorem layers_eq_tab {α : Type} (net : SeqNet α) : net.layers = tab net.layers.length net.layer :=
  eq_tab_getD net.layers Layer.nil

/-! ## Plain descent -/

theorem sgd_step_eq (sgd : SGD α) (net : SeqNet α) (h : Shaped sgd.sumSteps net) :
    sgd.Step net = some
      ({ sgd with sumSteps := net.layers.map (fun layer => make layer.Parameters) },
       { layers := tab net.layers.length
          (fun i => (net.layer i).descend (sgd.sumSteps.getD i [])) }) := by
  have hrow : ∀ i, sgd.sumSteps.getD i []
      = tab (net.layer i).Parameters (cell sgd.sumSteps i) := by
    intro i
    conv_lhs => rw [eq_tab_getD (sgd.sumSteps.getD i []) 0]
    rw [shaped_row_length h]
    rfl
  obtain ⟨t, ht, hP⟩ := forLoop_inv
    (fun i (st : List (List α) × List (Layer α)) => st =
      (tab2 net.layers.length (fun a => (net.layer a).Parameters)
        (fun a b => if a < i then 0 else cell sgd.sumSteps a b),
       tab net.layers.length (fun a =>
        if a < i then (net.layer a).descend (sgd.sumSteps.getD a []) else net.layer a)))
    net.layers.length
    (fun i (st : List (List α) × List (Layer α)) => do
      let layer ← st.2[i]?
      let sumI ← st.1[i]?
      let layer1 ← layer.Step sumI
      let layers1 ← store st.2 i layer1
      let sumSteps1 ← forLoop sumI.length (fun j sumSteps => store2 sumSteps i j 0) st.1
      pure (sumSteps1, layers1))
    (sgd.sumSteps, net.layers)
    (by
      simp only [Nat.not_lt_zero, if_false]
      rw [← shaped_eq_tab2 h, ← layers_eq_tab])
    (by
      intro i hi st hst
      have h1 : st.2[i]? = some (net.layer i) := by
        rw [hst]
        simp only []
        rw [tab_getElem?_lt _ hi, if_neg (Nat.lt_irrefl i)]
      have h2 : st.1[i]? = some (sgd.sumSteps.getD i []) := by
        rw [hst]
        simp only []
        rw [tab2_row _ _ hi, hrow i]
        congr 1
        apply tab_congr
        intro b _
        rw [if_neg (Nat.lt_irrefl i)]
      have h3 : (net.layer i).Step (sgd.sumSteps.getD i [])
          = some ((net.layer i).descend (sgd.sumSteps.getD i [])) :=
        layer_step_eq _ _ (le_of_eq (shaped_row_length h i))
      have h4 : store st.2 i ((net.layer i).descend (sgd.sumSteps.getD i []))
          = some (tab net.layers.length (fun a =>
              if a < i + 1 then (net.layer a).descend (sgd.sumSteps.getD a [])
              else net.layer a)) := by
        rw [hst]
        simp only []
        rw [store_tab _ hi]
        congr 1
        apply tab_congr
        intro a _
        by_cases ha : a = i
        · subst ha
          simp
        · have h5 : (a < i + 1) = (a < i) := by
            apply propext
            omega
          simp only [Function.update_noteq ha, h5]
      obtain ⟨u, hu, hQ⟩ := forLoop_inv
        (fun j (m : List (List α)) => m =
          tab2 net.layers.length (fun a => (net.layer a).Parameters)
            (fun a b => if a < i ∨ (a = i ∧ b < j) then 0 else cell sgd.sumSteps a b))
        (sgd.sumSteps.getD i []).length
        (fun j sumSteps => store2 sumSteps i j 0)
        st.1
        (by
          rw [hst]
          simp)
        (by
          intro j hj m hm
          rw [shaped_row_length h] at hj
          refine ⟨_, ?_, rfl⟩
          beta_reduce
          rw [hm, store2_tab2 (fun a => (net.layer a).Parameters) _ hi hj]
          congr 1
          apply tab2_congr
          intro a b _ _
          by_cases hab : a = i ∧ b = j
          · obtain ⟨ha, hb⟩ := hab
            subst ha hb
            simp
          · rw [if_neg hab]
            have h5 : (a < i ∨ a = i ∧ b < j + 1) = (a < i ∨ a = i ∧ b < j) := by
              apply propext
              constructor
              · rintro (h6 | ⟨h6, h7⟩)
                · exact Or.inl h6
                · refine Or.inr ⟨h6, ?_⟩
                  have : b ≠ j := fun e => hab ⟨h6, e⟩
                  omega
              · rintro (h6 | ⟨h6, h7⟩)
                · exact Or.inl h6
                · exact Or.inr ⟨h6, by omega⟩
            simp only [h5])
      refine ⟨_, ?_, rfl⟩
      simp only [h1, h2, h3, h4, hu, Option.bind_eq_bind, Option.some_bind, Option.pure_def]
      rw [hQ]
      congr 2
      apply tab2_congr
      intro a b _ hb
      by_cases ha : a = i
      · subst ha
        rw [shaped_row_length h]
        simp [hb]
      · have h5 : (a < i + 1) = (a < i) := by
          apply propext
          omega
        simp [ha, h5])
  unfold SGD.Step
  rw [ht, hP, zeros_eq_tab2]
  simp only [Option.map_some', Option.some.injEq, Prod.mk.injEq]
  constructor
  · congr 1
    apply tab2_congr
    intro a b ha _
    simp [ha]
  · congr 1
    apply tab_congr
    intro a ha
    simp [ha]

/-! ## Sweeping a slice of slices row by row -/

theorem sweep_update {γ : Type} (new old : Nat → Nat → γ) (i j a b : Nat) :
    (if a = i ∧ b = j then new i j
      else if a < i ∨ (a = i ∧ b < j) then new a b else old a b)
      = if a < i ∨ (a = i ∧ b < j + 1) then new a b else old a b := by
  by_cases hab : a = i ∧ b = j
  · obtain ⟨ha, hb⟩ := hab
    subst ha hb
    simp
  · rw [if_neg hab]
    have h5 : (a < i ∨ a = i ∧ b < j + 1) = (a < i ∨ a = i ∧ b < j) := by
      apply propext
      constructor
      · rintro (h6 | ⟨h6, h7⟩)
        · exact Or.inl h6
        · refine Or.inr ⟨h6, ?_⟩
          have : b ≠ j := fun e => hab ⟨h6, e⟩
          omega
      · rintro (h6 | ⟨h6, h7⟩)
        · exact Or.inl h6
        · exact Or.inr ⟨h6, by omega⟩
    simp only [h5]

theorem sweep_start {γ : Type} (new old : Nat → Nat → γ) (i a b : Nat) :
    (if a < i ∨ (a = i ∧ b < 0) then new a b else old a b)
      = if a < i then new a b else old a b := by
  simp

theorem sweep_end {γ : Type} (new old : Nat → Nat → γ) (len : Nat → Nat) (i a b : Nat)
    (hb : b < len a) :
    (if a < i ∨ (a = i ∧ b < len i) then new a b else old a b)
      = if a < i + 1 then new a b else old a b := by
  have h5 : (a < i ∨ a = i ∧ b < len i) = (a < i + 1) := by
    apply propext
    constructor
    · rintro (h6 | ⟨h6, _⟩) <;> omega
    · intro h6
      by_cases h7 : a = i
      · subst h7
        exact Or.inr ⟨rfl, hb⟩
      · exact Or.inl (by omega)
  simp only [h5]

theorem sweep_here {γ : Type} (new old : Nat → Nat → γ) (i j : Nat) :
    (if i < i ∨ (i = i ∧ j < j) then new i j else old i j) = old i j := by
  simp

theorem store_layers_sweep {α : Type} (net : SeqNet α) (f : Nat → Layer α) {i : Nat}
    (hi : i < net.layers.length) :
    store (tab net.layers.length (fun a => if a < i then f a else net.layer a)) i (f i)
      = some (tab net.layers.length (fun a => if a < i + 1 then f a else net.layer a)) := by
  rw [store_tab _ hi]
  congr 1
  apply tab_congr
  intro a _
  by_cases ha : a = i
  · subst ha
    simp
  · have h5 : (a < i + 1) = (a < i) := by
      apply propext
      omega
    simp only [Function.update_noteq ha, h5]

/-! ## Momentum descent -/

theorem sgdMomentum_step_eq (sgd : SGDMomentum α) (net : SeqNet α)
    (hS : Shaped sgd.sumSteps net) (hC : Shaped sgd.cachedSteps net) :
    sgd.Step net = some
      ({ sgd with
          sumSteps := tab2 net.layers.length (fun i => (net.layer i).Parameters)
            (fun i j => cell sgd.sumSteps i j
              + (cell sgd.sumSteps i j * sgd.momentum + cell sgd.cachedSteps i j * sgd.momentumI))
          cachedSteps := net.layers.map (fun layer => make layer.Parameters) },
       { layers := tab net.layers.length (fun i => (net.layer i).descend
          (tab (net.layer i).Parameters (fun j => cell sgd.sumSteps i j
            + (cell sgd.sumSteps i j * sgd.momentum
              + cell sgd.cachedSteps i j * sgd.momentumI)))) }) := by
  let n := net.layers.length
  let len : Nat → Nat := fun i => (net.layer i).Parameters
  let V := cell sgd.sumSteps
  let C := cell sgd.cachedSteps
  let W : Nat → Nat → α := fun i j => V i j + (V i j * sgd.momentum + C i j * sgd.momentumI)
  let Z : Nat → Nat → α := fun _ _ => 0
  let D : Nat → Layer α := fun i => (net.layer i).descend (tab (len i) (W i))
  obtain ⟨t, ht, hP⟩ := forLoop_inv
    (fun i (st : List (List α) × List (List α) × List (Layer α)) => st =
      (tab2 n len (fun a b => if a < i then W a b else V a b),
       tab2 n len (fun a b => if a < i then Z a b else C a b),
       tab n (fun a => if a < i then D a else net.layer a)))
    n
    (fun i (st : List (List α) × List (List α) × List (Layer α)) => do
      let sumI ← st.1[i]?
      let bufs ← forLoop sumI.length (fun j (b : List (List α) × List (List α)) => do
        let v ← load2 b.1 i j
        let c ← load2 b.2 i j
        let sumSteps1 ← store2 b.1 i j (v + (v * sgd.momentum + c * sgd.momentumI))
        let cachedSteps1 ← store2 b.2 i j 0
        pure (sumSteps1, cachedSteps1)) (st.1, st.2.1)
      let layer ← st.2.2[i]?
      let sumI1 ← bufs.1[i]?
      let layer1 ← layer.Step sumI1
      let layers1 ← store st.2.2 i layer1
      pure (bufs.1, bufs.2, layers1))
    (sgd.sumSteps, sgd.cachedSteps, net.layers)
    (by
      simp only [Nat.not_lt_zero, if_false]
      rw [← shaped_eq_tab2 hS, ← shaped_eq_tab2 hC, ← layers_eq_tab])
    (by
      intro i hi st hst
      obtain ⟨u, hu, hQ⟩ := forLoop_inv
        (fun j (b : List (List α) × List (List α)) => b =
          (tab2 n len (fun a b => if a < i ∨ (a = i ∧ b < j) then W a b else V a b),
           tab2 n len (fun a b => if a < i ∨ (a = i ∧ b < j) then Z a b else C a b)))
        (len i)
        (fun j (b : List (List α) × List (List α)) => do
          let v ← load2 b.1 i j
          let c ← load2 b.2 i j
          let sumSteps1 ← store2 b.1 i j (v + (v * sgd.momentum + c * sgd.momentumI))
          let cachedSteps1 ← store2 b.2 i j 0
          pure (sumSteps1, cachedSteps1))
        (st.1, st.2.1)
        (by
          rw [hst]
          simp only [sweep_start])
        (by
          intro j hj b hb
          have h1 : load2 b.1 i j = some (V i j) := by
            rw [hb]
            simp only []
            rw [load2_tab2 len _ hi hj, sweep_here]
          have h2 : load2 b.2 i j = some (C i j) := by
            rw [hb]
            simp only []
            rw [load2_tab2 len _ hi hj, sweep_here]
          have h3 : store2 b.1 i j (W i j) = some
              (tab2 n len (fun a b => if a < i ∨ (a = i ∧ b < j + 1) then W a b else V a b)) := by
            rw [hb]
            simp only []
            rw [store2_tab2 len _ hi hj]
            simp only [sweep_update W V]
          have h4 : store2 b.2 i j 0 = some
              (tab2 n len (fun a b => if a < i ∨ (a = i ∧ b < j + 1) then Z a b else C a b)) := by
            rw [hb]
            simp only []
            rw [store2_tab2 len _ hi hj]
            have := sweep_update Z C
            simp only [Z] at this ⊢
            simp only [this]
          refine ⟨_, ?_, rfl⟩
          simp only [h1, h2, Option.bind_eq_bind, Option.some_bind, Option.pure_def]
          show (store2 b.1 i j (W i j)).bind _ = _
          rw [h3, Option.some_bind, h4, Option.some_bind])
      have h0 : st.1[i]? = some (tab (len i) (fun b => if i < i then W i b else V i b)) := by
        rw [hst]
        simp only []
        rw [tab2_row len _ hi]
      have h1 : st.2.2[i]? = some (net.layer i) := by
        rw [hst]
        simp only []
        rw [tab_getElem?_lt _ hi, if_neg (Nat.lt_irrefl i)]
      have h2 : u.1[i]? = some (tab (len i) (W i)) := by
        rw [hQ]
        simp only []
        rw [tab2_row len _ hi]
        congr 1
        apply tab_congr
        intro b hb
        simp [hb]
      have h3 : (net.layer i).Step (tab (len i) (W i)) = some (D i) :=
        layer_step_eq _ _ (by simp [len])
      have h4 : store st.2.2 i (D i)
          = some (tab n (fun a => if a < i + 1 then D a else net.layer a)) := by
        rw [hst]
        exact store_layers_sweep net D hi
      refine ⟨_, ?_, rfl⟩
      simp only [Option.bind_eq_bind, Option.pure_def] at hu
      simp only [h0, tab_length, hu, h1, h2, h3, h4, Option.bind_eq_bind, Option.some_bind,
        Option.pure_def]
      rw [hQ]
      have e1 : tab2 n len (fun a b => if a < i ∨ (a = i ∧ b < len i) then W a b else V a b)
          = tab2 n len (fun a b => if a < i + 1 then W a b else V a b) :=
        tab2_congr (fun a b _ hb => sweep_end W V len i a b hb)
      have e2 : tab2 n len (fun a b => if a < i ∨ (a = i ∧ b < len i) then Z a b else C a b)
          = tab2 n len (fun a b => if a < i + 1 then Z a b else C a b) :=
        tab2_congr (fun a b _ hb => sweep_end Z C len i a b hb)
      rw [e1, e2])
  unfold SGDMomentum.Step
  rw [shaped_length_eq hS]
  simp only [Option.bind_eq_bind, Option.pure_def] at ht ⊢
  rw [ht, hP, zeros_eq_tab2]
  simp only [Option.map_some', Option.some.injEq, Prod.mk.injEq]
  refine ⟨?_, ?_⟩
  · have e1 : tab2 n len (fun a b => if a < n then W a b else V a b) = tab2 n len W :=
      tab2_congr (fun a b ha _ => if_pos ha)
    have e2 : tab2 n len (fun a b => if a < n then Z a b else C a b) = tab2 n len Z :=
      tab2_congr (fun a b ha _ => if_pos ha)
    rw [e1, e2]
  · congr 1
    exact tab_congr (fun a ha => if_pos ha)

/-! ## RMS propagation -/

theorem store_prefix {α : Type} [Zero α] (n : Nat) (f : Nat → α) {j : Nat} (hj : j < n) :
    store (tab n (fun k => if k < j then f k else 0)) j (f j)
      = some (tab n (fun k => if k < j + 1 then f k else 0)) := by
  rw [store_tab _ hj]
  congr 1
  apply tab_congr
  intro k _
  by_cases hk : k = j
  · subst hk
    simp
  · have h5 : (k < j + 1) = (k < j) := by
      apply propext
      omega
    simp only [Function.update_noteq hk, h5]

theorem rmsProp_step_eq {α : Type} [Zero α] [Add α] [Sub α] [Mul α] [Div α] [OfScientific α]
    (sqrt : α → α) (rmsProp : RMSProp α) (net : SeqNet α)
    (hS : Shaped rmsProp.sumSteps net) (hC : Shaped rmsProp.cachedSteps net) :
    rmsProp.Step sqrt net = some
      ({ rmsProp with
          sumSteps := tab2 net.layers.length (fun i => (net.layer i).Parameters)
            (fun i j => cell rmsProp.sumSteps i j * rmsProp.beta0
              + cell rmsProp.cachedSteps i j * cell rmsProp.cachedSteps i j * rmsProp.beta1)
          cachedSteps := net.layers.map (fun layer => make layer.Parameters) },
       { layers := tab net.layers.length (fun i => (net.layer i).descend
          (tab (net.layer i).Parameters (fun j => cell rmsProp.cachedSteps i j
            / (sqrt (cell rmsProp.sumSteps i j * rmsProp.beta0
                + cell rmsProp.cachedSteps i j * cell rmsProp.cachedSteps i j * rmsProp.beta1)
              + EPSILON) * rmsProp.learningRate))) }) := by
  let n := net.layers.length
  let len : Nat → Nat := fun i => (net.layer i).Parameters
  let S := cell rmsProp.sumSteps
  let C := cell rmsProp.cachedSteps
  let N : Nat → Nat → α := fun i j => S i j * rmsProp.beta0 + C i j * C i j * rmsProp.beta1
  let T : Nat → Nat → α := fun i j => C i j / (sqrt (N i j) + EPSILON) * rmsProp.learningRate
  let Z : Nat → Nat → α := fun _ _ => 0
  let D : Nat → Layer α := fun i => (net.layer i).descend (tab (len i) (T i))
  obtain ⟨t, ht, hP⟩ := forLoop_inv
    (fun i (st : List (List α) × List (List α) × List (Layer α)) => st =
      (tab2 n len (fun a b => if a < i then N a b else S a b),
       tab2 n len (fun a b => if a < i then Z a b else C a b),
       tab n (fun a => if a < i then D a else net.layer a)))
    n
    (fun i (st : List (List α) × List (List α) × List (Layer α)) => do
      let sumI ← st.1[i]?
      let length := sumI.length
      let bufs ← forLoop length
        (fun j (b : List (List α) × List (List α) × List α) => do
          let cachedStep ← load2 b.2.1 i j
          let s ← load2 b.1 i j
          let sumSteps1 ← store2 b.1 i j (s * rmsProp.beta0 + cachedStep * cachedStep * rmsProp.beta1)
          let s1 ← load2 sumSteps1 i j
          let steps1 ← store b.2.2 j (cachedStep / (sqrt s1 + EPSILON) * rmsProp.learningRate)
          let cachedSteps1 ← store2 b.2.1 i j 0
          pure (sumSteps1, cachedSteps1, steps1))
        (st.1, st.2.1, make length)
      let layer ← st.2.2[i]?
      let layer1 ← layer.Step bufs.2.2
      let layers1 ← store st.2.2 i layer1
      pure (bufs.1, bufs.2.1, layers1))
    (rmsProp.sumSteps, rmsProp.cachedSteps, net.layers)
    (by
      simp only [Nat.not_lt_zero, if_false]
      rw [← shaped_eq_tab2 hS, ← shaped_eq_tab2 hC, ← layers_eq_tab])
    (by
      intro i hi st hst
      obtain ⟨u, hu, hQ⟩ := forLoop_inv
        (fun j (b : List (List α) × List (List α) × List α) => b =
          (tab2 n len (fun a b => if a < i ∨ (a = i ∧ b < j) then N a b else S a b),
           tab2 n len (fun a b => if a < i ∨ (a = i ∧ b < j) then Z a b else C a b),
           tab (len i) (fun k => if k < j then T i k else 0)))
        (len i)
        (fun j (b : List (List α) × List (List α) × List α) => do
          let cachedStep ← load2 b.2.1 i j
          let s ← load2 b.1 i j
          let sumSteps1 ← store2 b.1 i j (s * rmsProp.beta0 + cachedStep * cachedStep * rmsProp.beta1)
          let s1 ← load2 sumSteps1 i j
          let steps1 ← store b.2.2 j (cachedStep / (sqrt s1 + EPSILON) * rmsProp.learningRate)
          let cachedSteps1 ← store2 b.2.1 i j 0
          pure (sumSteps1, cachedSteps1, steps1))
        (st.1, st.2.1, make (len i))
        (by
          rw [hst]
          simp only [Nat.not_lt_zero, and_false, or_false, if_false, make_eq_tab])
        (by
          intro j hj b hb
          have h1 : load2 b.2.1 i j = some (C i j) := by
            rw [hb]
            simp only []
            rw [load2_tab2 len _ hi hj, sweep_here]
          have h2 : load2 b.1 i j = some (S i j) := by
            rw [hb]
            simp only []
            rw [load2_tab2 len _ hi hj, sweep_here]
          have h3 : store2 b.1 i j (N i j) = some
              (tab2 n len (fun a b => if a < i ∨ (a = i ∧ b < j + 1) then N a b else S a b)) := by
            rw [hb]
            simp only []
            rw [store2_tab2 len _ hi hj]
            simp only [sweep_update N S]
          have h4 : load2
              (tab2 n len (fun a b => if a < i ∨ (a = i ∧ b < j + 1) then N a b else S a b)) i j
              = some (N i j) := by
            rw [load2_tab2 len _ hi hj]
            simp
          have h5 : store b.2.2 j (T i j)
              = some (tab (len i) (fun k => if k < j + 1 then T i k else 0)) := by
            rw [hb]
            exact store_prefix (len i) (T i) hj
          have h6 : store2 b.2.1 i j 0 = some
              (tab2 n len (fun a b => if a < i ∨ (a = i ∧ b < j + 1) then Z a b else C a b)) := by
            rw [hb]
            simp only []
            rw [store2_tab2 len _ hi hj]
            have := sweep_update Z C
            simp only [Z] at this ⊢
            simp only [this]
          refine ⟨_, ?_, rfl⟩
          simp only [h1, h2, Option.bind_eq_bind, Option.some_bind, Option.pure_def]
          show (store2 b.1 i j (N i j)).bind _ = _
          rw [h3, Option.some_bind, h4, Option.some_bind]
          show (store b.2.2 j (T i j)).bind _ = _
          rw [h5, Option.some_bind, h6, Option.some_bind])
      have h0 : st.1[i]? = some (tab (len i) (fun b => if i < i then N i b else S i b)) := by
        rw [hst]
        simp only []
        rw [tab2_row len _ hi]
      have h1 : st.2.2[i]? = some (net.layer i) := by
        rw [hst]
        simp only []
        rw [tab_getElem?_lt _ hi, if_neg (Nat.lt_irrefl i)]
      have h2 : u.2.2 = tab (len i) (T i) := by
        rw [hQ]
        exact tab_congr (fun k hk => if_pos hk)
      have h3 : (net.layer i).Step (tab (len i) (T i)) = some (D i) :=
        layer_step_exact _ _ (by simp [len])
      have h4 : store st.2.2 i (D i)
          = some (tab n (fun a => if a < i + 1 then D a else net.layer a)) := by
        rw [hst]
        exact store_layers_sweep net D hi
      refine ⟨_, ?_, rfl⟩
      simp only [Option.bind_eq_bind, Option.pure_def] at hu
      simp only [h0, tab_length, hu, h1, h2, h3, h4, Option.bind_eq_bind, Option.some_bind,
        Option.pure_def]
      rw [hQ]
      have e1 : tab2 n len (fun a b => if a < i ∨ (a = i ∧ b < len i) then N a b else S a b)
          = tab2 n len (fun a b => if a < i + 1 then N a b else S a b) :=
        tab2_congr (fun a b _ hb => sweep_end N S len i a b hb)
      have e2 : tab2 n len (fun a b => if a < i ∨ (a = i ∧ b < len i) then Z a b else C a b)
          = tab2 n len (fun a b => if a < i + 1 then Z a b else C a b) :=
        tab2_congr (fun a b _ hb => sweep_end Z C len i a b hb)
      rw [e1, e2])
  unfold RMSProp.Step
  rw [shaped_length_eq hS]
  simp only [Option.bind_eq_bind, Option.pure_def] at ht ⊢
  rw [ht, hP, zeros_eq_tab2]
  simp only [Option.map_some', Option.some.injEq, Prod.mk.injEq]
  refine ⟨?_, ?_⟩
  · have e1 : tab2 n len (fun a b => if a < n then N a b else S a b) = tab2 n len N :=
      tab2_congr (fun a b ha _ => if_pos ha)
    have e2 : tab2 n len (fun a b => if a < n then Z a b else C a b) = tab2 n len Z :=
      tab2_congr (fun a b ha _ => if_pos ha)
    rw [e1, e2]
  · congr 1
    exact tab_congr (fun a ha => if_pos ha)

/-! ## Accumulating gradients -/

theorem forLoop_preserves {σ : Type} (Inv : σ → Prop) (n : Nat) (body : Nat → σ → Option σ)
    (h : ∀ i t u, Inv t → body i t = some u → Inv u) (s t : σ) (h0 : Inv s)
    (hr : forLoop n body s = some t) : Inv t := by
  induction n generalizing t with
  | zero =>
    simp only [forLoop, Option.some.injEq] at hr
    exact hr ▸ h0
  | succ n ih =>
    simp only [forLoop] at hr
    cases hm : forLoop n body s with
    | none => simp [hm] at hr
    | some m =>
      rw [hm, Option.some_bind] at hr
      exact h n m t (ih m hm) hr

theorem store2_shape {β : Type} {m u : List (List β)} {i j : Nat} {v : β}
    (h : store2 m i j v = some u) : u.map List.length = m.map List.length := by
  unfold store2 at h
  cases hrow : m[i]? with
  | none => simp [hrow] at h
  | some row =>
    simp only [hrow, Option.bind_eq_bind, Option.some_bind] at h
    cases hr1 : store row j v with
    | none => simp [hr1] at h
    | some row1 =>
      rw [hr1, Option.some_bind] at h
      have hlen : row1.length = row.length := store_length hr1
      unfold store at h
      split at h
      · rename_i hi
        simp only [Option.some.injEq] at h
        rw [← h]
        apply List.ext_getElem?
        intro k
        simp only [List.getElem?_map, List.getElem?_set]
        by_cases hk : i = k
        · subst hk
          simp [hi, hrow, hlen]
        · simp [hk]
      · simp at h

theorem accumulate_shape {α : Type} (f : α → α → α) (steps m u : List (List α))
    (h : forLoop steps.length (fun i m => do
      let stepsI ← steps[i]?
      forLoop stepsI.length (fun j m => do
        let s ← load2 m i j
        let g ← load2 steps i j
        store2 m i j (f s g)) m) m = some u) :
    u.map List.length = m.map List.length := by
  refine forLoop_preserves (fun t => t.map List.length = m.map List.length) _ _ ?_ m u rfl h
  intro i t v ht hv
  cases hs : steps[i]? with
  | none => simp [hs] at hv
  | some stepsI =>
    simp only [hs, Option.bind_eq_bind, Option.some_bind] at hv
    refine forLoop_preserves (fun t => t.map List.length = m.map List.length) _ _ ?_ t v ht hv
    intro j a b ha hb
    cases h1 : load2 a i j with
    | none => simp [h1] at hb
    | some s =>
      cases h2 : load2 steps i j with
      | none => simp [h1, h2] at hb
      | some g =>
        simp only [h1, h2, Option.some_bind] at hb
        rw [store2_shape hb, ha]

theorem accumulate_eq {α : Type} [Zero α] (f : α → α → α) (net : SeqNet α) (steps m : List (List α))
    (hm : Shaped m net) (hs : Shaped steps net) :
    forLoop steps.length (fun i m => do
      let stepsI ← steps[i]?
      forLoop stepsI.length (fun j m => do
        let s ← load2 m i j
        let g ← load2 steps i j
        store2 m i j (f s g)) m) m
      = some (tab2 net.layers.length (fun i => (net.layer i).Parameters)
          (fun i j => f (cell m i j) (cell steps i j))) := by
  let n := net.layers.length
  let len : Nat → Nat := fun i => (net.layer i).Parameters
  let M := cell m
  let G := cell steps
  let F : Nat → Nat → α := fun i j => f (M i j) (G i j)
  have hsteps : steps = tab2 n len G := shaped_eq_tab2 hs
  obtain ⟨t, ht, hP⟩ := forLoop_inv
    (fun i (t : List (List α)) => t = tab2 n len (fun a b => if a < i then F a b else M a b))
    n
    (fun i m => do
      let stepsI ← steps[i]?
      forLoop stepsI.length (fun j m => do
        let s ← load2 m i j
        let g ← load2 steps i j
        store2 m i j (f s g)) m)
    m
    (by
      simp only [Nat.not_lt_zero, if_false]
      exact shaped_eq_tab2 hm)
    (by
      intro i hi t ht
      have h0 : steps[i]? = some (tab (len i) (G i)) := by
        conv_lhs => rw [hsteps]
        exact tab2_row len G hi
      obtain ⟨u, hu, hQ⟩ := forLoop_inv
        (fun j (t : List (List α)) => t =
          tab2 n len (fun a b => if a < i ∨ (a = i ∧ b < j) then F a b else M a b))
        (len i)
        (fun j m => do
          let s ← load2 m i j
          let g ← load2 steps i j
          store2 m i j (f s g))
        t
        (by
          rw [ht]
          simp only [sweep_start])
        (by
          intro j hj b hb
          have h1 : load2 b i j = some (M i j) := by
            rw [hb, load2_tab2 len _ hi hj, sweep_here]
          have h2 : load2 steps i j = some (G i j) := by
            conv_lhs => rw [hsteps]
            exact load2_tab2 len G hi hj
          refine ⟨_, ?_, rfl⟩
          simp only [h1, h2, Option.bind_eq_bind, Option.some_bind]
          show store2 b i j (F i j) = _
          rw [hb, store2_tab2 len _ hi hj]
          simp only [sweep_update F M])
      refine ⟨_, ?_, rfl⟩
      simp only [Option.bind_eq_bind] at hu
      simp only [h0, tab_length, hu, Option.bind_eq_bind, Option.some_bind]
      rw [hQ]
      exact congrArg some (tab2_congr (fun a b _ hb => sweep_end F M len i a b hb)))
  rw [shaped_length_eq hs, ht, hP]
  exact congrArg some (tab2_congr (fun a b ha _ => if_pos ha))

/-! ## Networks after a step, and drained buffers -/

theorem zeros_eq_shape_map {α : Type} [Zero α] (net : SeqNet α) :
    net.layers.map (fun layer => (make layer.Parameters : List α))
      = net.shape.map (fun k => (make k : List α)) := by
  simp [SeqNet.shape]

theorem zeros_congr {α : Type} [Zero α] {net net1 : SeqNet α} (h : net1.shape = net.shape) :
    net1.layers.map (fun layer => (make layer.Parameters : List α))
      = net.layers.map (fun layer => (make layer.Parameters : List α)) := by
  rw [zeros_eq_shape_map, zeros_eq_shape_map, h]

theorem zeros_shaped {α : Type} [Zero α] (net : SeqNet α) :
    Shaped (net.layers.map (fun layer => (make layer.Parameters : List α))) net := by
  rw [zeros_eq_tab2]
  exact tab2_shaped net _

theorem cell_zeros {α : Type} [Zero α] (net : SeqNet α) (i j : Nat) :
    cell (net.layers.map (fun layer => (make layer.Parameters : List α))) i j = 0 := by
  rw [zeros_eq_tab2]
  by_cases hi : i < net.layers.length
  · by_cases hj : j < (net.layer i).Parameters
    · rw [cell_tab2 _ _ hi hj]
    · rw [cell, getD_tab2 _ _ hi]
      exact getD_eq_zero_of_le _ (by simpa using hj)
  · rw [cell]
    have : (tab2 net.layers.length (fun i => (net.layer i).Parameters)
        (fun _ _ => (0 : α))).getD i [] = [] := by
      simp only [List.getD_eq_getElem?_getD]
      rw [List.getElem?_eq_none (by simpa [tab2_length] using hi)]
      rfl
    rw [this]
    rfl

theorem shaped_congr {α : Type} {m : List (List α)} {net net1 : SeqNet α} (h : Shaped m net)
    (hs : net1.shape = net.shape) : Shaped m net1 := by
  unfold Shaped at h ⊢
  rw [h, hs]

theorem stepped_layer {α : Type} (net : SeqNet α) (f : Nat → Layer α) {i : Nat}
    (hi : i < net.layers.length) :
    SeqNet.layer { layers := tab net.layers.length f } i = f i := by
  simp only [SeqNet.layer, List.getD_eq_getElem?_getD, tab_getElem?_lt _ hi, Option.getD_some]

theorem stepped_shape {α : Type} [Zero α] [Sub α] (net : SeqNet α) (step : Nat → List α) :
    SeqNet.shape { layers := tab net.layers.length (fun i => (net.layer i).descend (step i)) }
      = net.shape := by
  apply List.ext_getElem?
  intro i
  simp only [SeqNet.shape, List.getElem?_map, tab_getElem?]
  by_cases hi : i < net.layers.length
  · simp [hi, descend_parameters, SeqNet.layer, List.getD_eq_getElem?_getD,
      List.getElem?_eq_getElem hi]
  · simp [hi, List.getElem?_eq_none (l := net.layers) (by simpa using hi)]

theorem stepped_zero (net : SeqNet α) (step : Nat → List α)
    (h : ∀ i k, (step i).getD k 0 = 0) :
    ({ layers := tab net.layers.length (fun i => (net.layer i).descend (step i)) } : SeqNet α)
      = net := by
  have : tab net.layers.length (fun i => (net.layer i).descend (step i)) = net.layers := by
    conv_rhs => rw [layers_eq_tab net]
    exact tab_congr (fun i _ => descend_zero _ _ (h i))
  rw [this]

theorem descend_params {α : Type} [Zero α] [Sub α] (l : Layer α) (step : List α) :
    (l.descend step).params
      = tab l.Parameters (fun k => l.params.getD k 0 - step.getD k 0) := by
  cases l with
  | dense d => rfl
  | bias b => rfl
  | activation a => rfl

theorem tab_getD {α : Type} [Zero α]
    (n : Nat) (f : Nat → α) {k : Nat} (hk : k < n) : (tab n f).getD k 0 = f k := by
  simp only [List.getD_eq_getElem?_getD, tab_getElem?_lt f hk, Option.getD_some]

/-! ## Driver runs -/

theorem run_append {α : Type} [Zero α] [Add α] [Sub α] [Mul α] [Div α] [OfScientific α]
    (sqrt : α → α) (cs : List (Call α)) (c : Call α)
    (st : Optimizer α × SeqNet α) :
    Optimizer.run sqrt st (cs ++ [c])
      = (Optimizer.run sqrt st cs).bind (fun st1 => Optimizer.call sqrt st1 c) := by
  induction cs generalizing st with
  | nil =>
    simp only [List.nil_append, Optimizer.run, Option.some_bind]
    cases Optimizer.call sqrt st c <;> rfl
  | cons d ds ih =>
    simp only [List.cons_append, Optimizer.run]
    cases Optimizer.call sqrt st d with
    | none => rfl
    | some st1 =>
      simp only [Option.some_bind]
      exact ih st1

theorem sgd_update_shape {sgd sgd1 : SGD α} {steps : List (List α)}
    (h : sgd.Update steps = some sgd1) :
    sgd1.sumSteps.map List.length = sgd.sumSteps.map List.length
      ∧ sgd1.learningRate = sgd.learningRate := by
  unfold SGD.Update at h
  rw [Option.map_eq_some'] at h
  obtain ⟨u, hl, hu⟩ := h
  rw [← hu]
  exact ⟨accumulate_shape (fun s g => s + g * sgd.learningRate) steps _ u hl, rfl⟩

theorem sgd_call_inv (sqrt : α → α) (s : SGD α) (n : SeqNet α) (c : Call α)
    (o1 : Optimizer α) (n1 : SeqNet α) (h : Shaped s.sumSteps n)
    (hc : Optimizer.call sqrt (.sgd s, n) c = some (o1, n1)) :
    ∃ s1, o1 = .sgd s1 ∧ Shaped s1.sumSteps n1 ∧ s1.learningRate = s.learningRate
      ∧ n1.shape = n.shape
      ∧ (c = .Step → s1.sumSteps = n1.layers.map (fun layer => make layer.Parameters)) := by
  cases c with
  | Update steps =>
    simp only [Optimizer.call, Optimizer.Update] at hc
    cases hu : s.Update steps with
    | none => simp [hu] at hc
    | some s1 =>
      rw [hu] at hc
      simp only [Option.map_some', Option.some.injEq, Prod.mk.injEq] at hc
      obtain ⟨h1, h2⟩ := hc
      obtain ⟨h3, h4⟩ := sgd_update_shape hu
      subst h1 h2
      refine ⟨s1, rfl, ?_, h4, rfl, ?_⟩
      · unfold Shaped at h ⊢
        rw [h3, h]
      · intro hx
        cases hx
  | Step =>
    simp only [Optimizer.call, Optimizer.Step, sgd_step_eq s n h, Option.map_some',
      Option.some.injEq, Prod.mk.injEq] at hc
    obtain ⟨h1, h2⟩ := hc
    subst h1 h2
    have hs := stepped_shape n (fun i => s.sumSteps.getD i [])
    refine ⟨_, rfl, ?_, rfl, hs, ?_⟩
    · exact shaped_congr (zeros_shaped n) hs
    · intro _
      exact (zeros_congr hs).symm

theorem getLast?_cons_cons {β : Type} (a b : β) (l : List β) :
    (a :: b :: l).getLast? = (b :: l).getLast? := by
  simp [List.getLast?_cons_cons]

theorem sgd_run_inv (sqrt : α → α) (cs : List (Call α)) :
    ∀ (s : SGD α) (n : SeqNet α) (o1 : Optimizer α) (n1 : SeqNet α), Shaped s.sumSteps n →
      Optimizer.run sqrt (.sgd s, n) cs = some (o1, n1) →
      ∃ s1, o1 = .sgd s1 ∧ Shaped s1.sumSteps n1 ∧ s1.learningRate = s.learningRate
        ∧ n1.shape = n.shape
        ∧ ((cs = [] → s.sumSteps = n.layers.map (fun layer => make layer.Parameters)) →
            (∀ g, cs.getLast? ≠ some (.Update g)) →
            s1.sumSteps = n1.layers.map (fun layer => make layer.Parameters)) := by
  induction cs with
  | nil =>
    intro s n o1 n1 h hr
    simp only [Optimizer.run, Option.some.injEq, Prod.mk.injEq] at hr
    obtain ⟨h1, h2⟩ := hr
    subst h1 h2
    exact ⟨s, rfl, h, rfl, rfl, fun h0 _ => h0 rfl⟩
  | cons c cs ih =>
    intro s n o1 n1 h hr
    simp only [Optimizer.run] at hr
    cases hc : Optimizer.call sqrt (.sgd s, n) c with
    | none => simp [hc] at hr
    | some st =>
      obtain ⟨o2, n2⟩ := st
      rw [hc, Option.some_bind] at hr
      obtain ⟨s2, e2, hS2, hl2, hn2, hd2⟩ := sgd_call_inv sqrt s n c o2 n2 h hc
      subst e2
      obtain ⟨s3, e3, hS3, hl3, hn3, hd3⟩ := ih s2 n2 o1 n1 hS2 hr
      refine ⟨s3, e3, hS3, hl3.trans hl2, hn3.trans hn2, ?_⟩
      intro _ hlast
      apply hd3
      · intro hnil
        subst hnil
        apply hd2
        cases c with
        | Update g => exact absurd rfl (hlast g)
        | Step => rfl
      · intro g
        cases cs with
        | nil => simp
        | cons d ds =>
          have := hlast g
          rwa [getLast?_cons_cons] at this

theorem rmsProp_update_shape {α : Type} [Add α] {r r1 : RMSProp α} {steps : List (List α)}
    (h : r.Update steps = some r1) :
    r1.cachedSteps.map List.length = r.cachedSteps.map List.length
      ∧ r1.sumSteps = r.sumSteps ∧ r1.learningRate = r.learningRate
      ∧ r1.beta0 = r.beta0 ∧ r1.beta1 = r.beta1 := by
  unfold RMSProp.Update at h
  rw [Option.map_eq_some'] at h
  obtain ⟨u, hl, hu⟩ := h
  rw [← hu]
  exact ⟨accumulate_shape (fun c g => c + g) steps _ u hl, rfl, rfl, rfl, rfl⟩

theorem rmsProp_call_inv {α : Type} [Zero α] [Add α] [Sub α] [Mul α] [Div α] [OfScientific α]
    (sqrt : α → α) (r : RMSProp α) (n : SeqNet α) (c : Call α)
    (o1 : Optimizer α) (n1 : SeqNet α) (hS : Shaped r.sumSteps n) (hC : Shaped r.cachedSteps n)
    (hc : Optimizer.call sqrt (.rmsProp r, n) c = some (o1, n1)) :
    ∃ r1, o1 = .rmsProp r1 ∧ Shaped r1.sumSteps n1 ∧ Shaped r1.cachedSteps n1
      ∧ (r1.learningRate = r.learningRate ∧ r1.beta0 = r.beta0 ∧ r1.beta1 = r.beta1)
      ∧ n1.shape = n.shape
      ∧ (c = .Step → r1.cachedSteps = n1.layers.map (fun layer => make layer.Parameters)) := by
  cases c with
  | Update steps =>
    simp only [Optimizer.call, Optimizer.Update] at hc
    rw [Option.map_eq_some'] at hc
    obtain ⟨o2, ho2, e⟩ := hc
    rw [Option.map_eq_some'] at ho2
    obtain ⟨r1, hu, e2⟩ := ho2
    simp only [Prod.mk.injEq] at e
    obtain ⟨h1, h2⟩ := e
    obtain ⟨h3, h4, h5, h6, h7⟩ := rmsProp_update_shape hu
    subst h1 h2 e2
    refine ⟨r1, rfl, ?_, ?_, ⟨h5, h6, h7⟩, rfl, ?_⟩
    · rw [h4]
      exact hS
    · unfold Shaped at hC ⊢
      rw [h3, hC]
    · intro hx
      cases hx
  | Step =>
    simp only [Optimizer.call, Optimizer.Step, rmsProp_step_eq sqrt r n hS hC, Option.map_some',
      Option.some.injEq, Prod.mk.injEq] at hc
    obtain ⟨h1, h2⟩ := hc
    subst h1 h2
    have hs := stepped_shape n (fun i => tab (n.layer i).Parameters (fun j =>
      cell r.cachedSteps i j
        / (sqrt (cell r.sumSteps i j * r.beta0
            + cell r.cachedSteps i j * cell r.cachedSteps i j * r.beta1)
          + EPSILON) * r.learningRate))
    refine ⟨_, rfl, ?_, ?_, ⟨rfl, rfl, rfl⟩, hs, ?_⟩
    · exact shaped_congr (tab2_shaped n _) hs
    · exact shaped_congr (zeros_shaped n) hs
    · intro _
      exact (zeros_congr hs).symm

theorem rmsProp_run_inv {α : Type} [Zero α] [Add α] [Sub α] [Mul α] [Div α] [OfScientific α]
    (sqrt : α → α) (cs : List (Call α)) :
    ∀ (r : RMSProp α) (n : SeqNet α) (o1 : Optimizer α) (n1 : SeqNet α),
      Shaped r.sumSteps n → Shaped r.cachedSteps n →
      Optimizer.run sqrt (.rmsProp r, n) cs = some (o1, n1) →
      ∃ r1, o1 = .rmsProp r1 ∧ Shaped r1.sumSteps n1 ∧ Shaped r1.cachedSteps n1
        ∧ (r1.learningRate = r.learningRate ∧ r1.beta0 = r.beta0 ∧ r1.beta1 = r.beta1)
        ∧ n1.shape = n.shape
        ∧ ((cs = [] → r.cachedSteps = n.layers.map (fun layer => make layer.Parameters)) →
            (∀ g, cs.getLast? ≠ some (.Update g)) →
            r1.cachedSteps = n1.layers.map (fun layer => make layer.Parameters)) := by
  induction cs with
  | nil =>
    intro r n o1 n1 hS hC hr
    simp only [Optimizer.run, Option.some.injEq, Prod.mk.injEq] at hr
    obtain ⟨h1, h2⟩ := hr
    subst h1 h2
    exact ⟨r, rfl, hS, hC, ⟨rfl, rfl, rfl⟩, rfl, fun h0 _ => h0 rfl⟩
  | cons c cs ih =>
    intro r n o1 n1 hS hC hr
    simp only [Optimizer.run] at hr
    cases hc : Optimizer.call sqrt (.rmsProp r, n) c with
    | none => simp [hc] at hr
    | some st =>
      obtain ⟨o2, n2⟩ := st
      rw [hc, Option.some_bind] at hr
      obtain ⟨r2, e2, hS2, hC2, ⟨a2, b2, c2⟩, hn2, hd2⟩ :=
        rmsProp_call_inv sqrt r n c o2 n2 hS hC hc
      subst e2
      obtain ⟨r3, e3, hS3, hC3, ⟨a3, b3, c3⟩, hn3, hd3⟩ := ih r2 n2 o1 n1 hS2 hC2 hr
      refine ⟨r3, e3, hS3, hC3, ⟨a3.trans a2, b3.trans b2, c3.trans c2⟩, hn3.trans hn2, ?_⟩
      intro _ hlast
      apply hd3
      · intro hnil
        subst hnil
        apply hd2
        cases c with
        | Update g => exact absurd rfl (hlast g)
        | Step => rfl
      · intro g
        cases cs with
        | nil => simp
        | cons d ds =>
          have := hlast g
          rwa [getLast?_cons_cons] at this

theorem sgd_step_drained (s : SGD α) (n : SeqNet α)
    (h : s.sumSteps = n.layers.map (fun layer => make layer.Parameters)) :
    s.Step n = some (s, n) := by
  have hS : Shaped s.sumSteps n := h ▸ zeros_shaped n
  rw [sgd_step_eq s n hS]
  have hz : ∀ i k, (s.sumSteps.getD i []).getD k 0 = 0 := by
    intro i k
    rw [h]
    exact cell_zeros n i k
  rw [stepped_zero n (fun i => s.sumSteps.getD i []) hz, ← h]

theorem sgdMomentum_step_fresh (net : SeqNet α) (lr m : α) :
    (NewSGDMomentum net lr m).Step net = some (NewSGDMomentum net lr m, net) := by
  rw [sgdMomentum_step_eq _ net (zeros_shaped net) (zeros_shaped net)]
  have h1 : tab2 net.layers.length (fun i => (net.layer i).Parameters)
      (fun i j => cell (NewSGDMomentum net lr m).sumSteps i j
        + (cell (NewSGDMomentum net lr m).sumSteps i j * (NewSGDMomentum net lr m).momentum
          + cell (NewSGDMomentum net lr m).cachedSteps i j * (NewSGDMomentum net lr m).momentumI))
      = net.layers.map (fun layer => make layer.Parameters) := by
    rw [zeros_eq_tab2]
    apply tab2_congr
    intro i j _ _
    simp only [NewSGDMomentum, cell_zeros]
    ring
  rw [h1, stepped_zero net]
  · rfl
  · intro i k
    by_cases hk : k < (net.layer i).Parameters
    · rw [tab_getD _ _ hk]
      simp only [NewSGDMomentum, cell_zeros]
      ring
    · exact getD_eq_zero_of_le _ (by simpa using hk)

/-! ## Optimizer contracts -/

/-- What `SGDMomentum.Step` computes, cell by cell, on buffers shaped for the network: the
velocity becomes `v + (v*momentum + a*momentumI)` (the source updates it with `+=`), that value
is subtracted from the parameter, and the raw accumulator is reset to 0. -/
theorem sgdMomentum_step_cells (net : SeqNet α) (lr m : α) (V A : List (List α))
    (hV : Shaped V net) (hA : Shaped A net) :
    ∃ sgd1 net1,
      ({ NewSGDMomentum net lr m with sumSteps := V, cachedSteps := A }).Step net
        = some (sgd1, net1) ∧
      ∀ i j, i < net.layers.length → j < (net.layer i).Parameters →
        cell sgd1.sumSteps i j
          = cell V i j + (cell V i j * (m * lr) + cell A i j * ((1 - m) * lr)) ∧
        (net1.layer i).params.getD j 0
          = (net.layer i).params.getD j 0 - cell sgd1.sumSteps i j ∧
        cell sgd1.cachedSteps i j = 0 := by
  refine ⟨_, _, sgdMomentum_step_eq _ net hV hA, ?_⟩
  intro i j hi hj
  refine ⟨?_, ?_, ?_⟩
  · simp only []
    rw [cell_tab2 _ _ hi hj]
    rfl
  · simp only []
    rw [stepped_layer net _ hi, descend_params, tab_getD _ _ hj, tab_getD _ _ hj,
      cell_tab2 _ _ hi hj]
  · exact cell_zeros net i j

/-- C6 (the code departs from the claim). On a one-cell bias network with learning rate 1 and
momentum 1/2, a `Step` taken with velocity 1 and raw accumulator 0 leaves the velocity at 3/2
and moves the parameter by 3/2; the claimed `v*m*lr + a*(1-m)*lr` is 1/2. -/
theorem sgdMomentum_step_velocity_eval :
    ({ NewSGDMomentum (⟨[.bias ⟨[-1]⟩]⟩ : SeqNet ℚ) 1 (1 / 2) with
        sumSteps := [[1]], cachedSteps := [[0]] }).Step ⟨[.bias ⟨[-1]⟩]⟩
      = some (⟨[[3 / 2]], [[0]], 1 / 2, 1 / 2⟩, ⟨[.bias ⟨[-5 / 2]⟩]⟩) ∧
    (3 / 2 : ℚ) ≠ 1 * (1 / 2) * 1 + 0 * (1 - 1 / 2) * 1 := by
  constructor
  · simp [SGDMomentum.Step, NewSGDMomentum, forLoop, load2, store2, store, Layer.Step,
      Bias.Step]
    norm_num
  · norm_num

/-- C7 (refuted as stated). Momentum optimizer on a one-cell bias network, learning rate 1,
momentum 1/2: after `Update [[2]]` and `Step` the parameter is -1; a second `Step` with no
`Update` in between moves it to -5/2. -/
theorem sgdMomentum_idle_step_counterexample :
    Optimizer.run (fun x => x)
        (.momentum (NewSGDMomentum (⟨[.bias ⟨[0]⟩]⟩ : SeqNet ℚ) 1 (1 / 2)), ⟨[.bias ⟨[0]⟩]⟩)
        [.Update [[2]], .Step]
      = some (.momentum ⟨[[1]], [[0]], 1 / 2, 1 / 2⟩, ⟨[.bias ⟨[-1]⟩]⟩) ∧
    Optimizer.Step (fun x => x) (.momentum ⟨[[1]], [[0]], 1 / 2, 1 / 2⟩)
        (⟨[.bias ⟨[-1]⟩]⟩ : SeqNet ℚ)
      = some (.momentum ⟨[[3 / 2]], [[0]], 1 / 2, 1 / 2⟩, ⟨[.bias ⟨[-5 / 2]⟩]⟩) ∧
    (⟨[.bias ⟨[-5 / 2]⟩]⟩ : SeqNet ℚ) ≠ ⟨[.bias ⟨[-1]⟩]⟩ := by
  refine ⟨?_, ?_, ?_⟩
  · simp [Optimizer.run, Optimizer.call, Optimizer.Update, Optimizer.Step, SGDMomentum.Update,
      SGDMomentum.Step, NewSGDMomentum, forLoop, load2, store2, store, Layer.Step, Bias.Step,
      make, Layer.Parameters, Bias.Parameters]
    norm_num
  · simp [Optimizer.Step, SGDMomentum.Step, forLoop, load2, store2, store, Layer.Step,
      Bias.Step]
    norm_num
  · intro h
    simp only [SeqNet.mk.injEq, List.cons.injEq, Layer.bias.injEq, Bias.mk.injEq,
      and_true] at h
    norm_num at h

/-- C7 (amended). Plain descent: in every state reached from construction by `Update` and
`Step` calls whose last call, if any, is not an `Update`, a further `Step` returns the same
optimizer and the same network.  Momentum descent: from construction, any number of `Step`
calls with no `Update` leaves optimizer and network as constructed. -/
theorem idle_step_keeps_parameters (sqrt : α → α) (net : SeqNet α) (lr m : α)
    (calls : List (Call α)) (hlast : ∀ g, calls.getLast? ≠ some (.Update g))
    (st : Optimizer α × SeqNet α)
    (hrun : Optimizer.run sqrt (.sgd (NewSGD net lr), net) calls = some st) :
    Optimizer.Step sqrt st.1 st.2 = some st ∧
    ∀ k, Optimizer.run sqrt (.momentum (NewSGDMomentum net lr m), net)
        (List.replicate k .Step) = some (.momentum (NewSGDMomentum net lr m), net) := by
  constructor
  · obtain ⟨o, n⟩ := st
    obtain ⟨s1, e1, _, _, _, hd⟩ :=
      sgd_run_inv sqrt calls (NewSGD net lr) net o n (zeros_shaped net) hrun
    subst e1
    have hz := hd (fun _ => rfl) hlast
    simp only [Optimizer.Step, sgd_step_drained s1 n hz, Option.map_some']
  · intro k
    induction k with
    | zero => rfl
    | succ k ih =>
      rw [List.replicate_succ', run_append, ih, Option.some_bind]
      simp only [Optimizer.call, Optimizer.Step, sgdMomentum_step_fresh, Option.map_some']

/-- Instance of C7 (amended): plain descent with learning rate 1/2 on a one-cell bias network,
after `Update [[2]]` and `Step`. -/
theorem idle_step_keeps_parameters_witness :
    Optimizer.run (fun x => x) (.sgd (NewSGD (⟨[.bias ⟨[0]⟩]⟩ : SeqNet ℚ) (1 / 2)),
        ⟨[.bias ⟨[0]⟩]⟩) [.Update [[2]], .Step]
      = some (.sgd ⟨[[0]], 1 / 2⟩, ⟨[.bias ⟨[-1]⟩]⟩) ∧
    Optimizer.Step (fun x => x) (.sgd ⟨[[0]], 1 / 2⟩) (⟨[.bias ⟨[-1]⟩]⟩ : SeqNet ℚ)
      = some (.sgd ⟨[[0]], 1 / 2⟩, ⟨[.bias ⟨[-1]⟩]⟩) := by
  have hrun : Optimizer.run (fun x => x) (.sgd (NewSGD (⟨[.bias ⟨[0]⟩]⟩ : SeqNet ℚ) (1 / 2)),
        ⟨[.bias ⟨[0]⟩]⟩) [.Update [[2]], .Step]
      = some (.sgd ⟨[[0]], 1 / 2⟩, ⟨[.bias ⟨[-1]⟩]⟩) := by
    simp [Optimizer.run, Optimizer.call, Optimizer.Update, Optimizer.Step, SGD.Update,
      SGD.Step, NewSGD, forLoop, load2, store2, store, Layer.Step, Bias.Step,
      make, Layer.Parameters, Bias.Parameters]
  exact ⟨hrun, (idle_step_keeps_parameters (fun x => x) ⟨[.bias ⟨[0]⟩]⟩ (1 / 2) 0
    [.Update [[2]], .Step] (by simp) _ hrun).1⟩

/-- C9. RMS propagation built with learning rate `lr` and decay `beta`, holding any running
averages `S` and raw accumulators `G` shaped for the network: `Step` succeeds; each running
average becomes `s*beta + g*g*(1-beta)`, each parameter loses
`g / (sqrt s_new + 1e-8) * lr` where `s_new` is the updated average, and each raw accumulator
becomes 0. -/
theorem rmsProp_step_cells (sqrt : α → α) (net : SeqNet α) (lr beta : α)
    (S G : List (List α)) (hS : Shaped S net) (hG : Shaped G net) :
    ∃ r1 net1,
      ({ newRMSProp net lr beta with sumSteps := S, cachedSteps := G }).Step sqrt net
        = some (r1, net1) ∧
      ∀ i j, i < net.layers.length → j < (net.layer i).Parameters →
        cell r1.sumSteps i j = cell S i j * beta + cell G i j * cell G i j * (1 - beta) ∧
        (net1.layer i).params.getD j 0
          = (net.layer i).params.getD j 0
            - cell G i j / (sqrt (cell r1.sumSteps i j) + 1e-8) * lr ∧
        cell r1.cachedSteps i j = 0 := by
  refine ⟨_, _, rmsProp_step_eq sqrt _ net hS hG, ?_⟩
  intro i j hi hj
  refine ⟨?_, ?_, ?_⟩
  · simp only []
    rw [cell_tab2 _ _ hi hj]
    rfl
  · simp only []
    rw [stepped_layer net _ hi, descend_params, tab_getD _ _ hj, tab_getD _ _ hj,
      cell_tab2 _ _ hi hj]
    rfl
  · exact cell_zeros net i j

/-- Instance of C9: learning rate 1, decay 1/2, a one-cell bias network with parameter 0,
running average 4 and raw accumulator 2 (with the identity in place of the square root). -/
theorem rmsProp_step_cells_witness :
    ({ newRMSProp (⟨[.bias ⟨[0]⟩]⟩ : SeqNet ℚ) 1 (1 / 2) with
        sumSteps := [[4]], cachedSteps := [[2]] }).Step (fun x => x) ⟨[.bias ⟨[0]⟩]⟩
      = some (⟨1, [[4]], [[0]], 1 / 2, 1 / 2⟩, ⟨[.bias ⟨[-(2 / (4 + 1e-8))]⟩]⟩) ∧
    ∃ r1 net1,
      ({ newRMSProp (⟨[.bias ⟨[0]⟩]⟩ : SeqNet ℚ) 1 (1 / 2) with
          sumSteps := [[4]], cachedSteps := [[2]] }).Step (fun x => x) ⟨[.bias ⟨[0]⟩]⟩
        = some (r1, net1) ∧
      ∀ i j, i < 1 → j < (SeqNet.layer (⟨[.bias ⟨[0]⟩]⟩ : SeqNet ℚ) i).Parameters →
        cell r1.sumSteps i j
          = cell [[(4 : ℚ)]] i j * (1 / 2) + cell [[(2 : ℚ)]] i j * cell [[(2 : ℚ)]] i j
            * (1 - 1 / 2) ∧
        (net1.layer i).params.getD j 0
          = (SeqNet.layer (⟨[.bias ⟨[0]⟩]⟩ : SeqNet ℚ) i).params.getD j 0
            - cell [[(2 : ℚ)]] i j / ((fun x => x) (cell r1.sumSteps i j) + 1e-8) * 1 ∧
        cell r1.cachedSteps i j = 0 := by
  constructor
  · simp [RMSProp.Step, newRMSProp, forLoop, load2, store2, store, Layer.Step, Bias.Step,
      make, EPSILON]
    norm_num
  · exact rmsProp_step_cells (fun x => x) ⟨[.bias ⟨[0]⟩]⟩ 1 (1 / 2) [[4]] [[2]] rfl rfl

theorem sgd_update_eq (net : SeqNet α) (lr : α) (A g : List (List α)) (hA : Shaped A net)
    (hg : Shaped g net) :
    (⟨A, lr⟩ : SGD α).Update g
      = some ⟨tab2 net.layers.length (fun i => (net.layer i).Parameters)
          (fun i j => cell A i j + cell g i j * lr), lr⟩ := by
  unfold SGD.Update
  have h := accumulate_eq (fun s g => s + g * lr) net g A hA hg
  simp only [Option.bind_eq_bind] at h ⊢
  rw [h]
  rfl

theorem sgd_updates_eq (sqrt : α → α) (net : SeqNet α) (lr : α) (gs : List (List (List α)))
    (hgs : ∀ g ∈ gs, Shaped g net) :
    ∀ A : List (List α), Shaped A net →
      Optimizer.run sqrt (.sgd ⟨A, lr⟩, net) (gs.map Call.Update)
        = some (.sgd ⟨tab2 net.layers.length (fun i => (net.layer i).Parameters)
            (fun i j => cell A i j + (gs.map (fun g => cell g i j * lr)).sum), lr⟩, net) := by
  induction gs with
  | nil =>
    intro A hA
    simp only [List.map_nil, List.sum_nil, add_zero, Optimizer.run]
    rw [← shaped_eq_tab2 hA]
  | cons g gs ih =>
    intro A hA
    have hg : Shaped g net := hgs g (List.mem_cons_self g gs)
    simp only [List.map_cons, Optimizer.run, Optimizer.call, Optimizer.Update,
      sgd_update_eq net lr A g hA hg, Option.map_some', Option.some_bind]
    rw [ih (fun g1 h1 => hgs g1 (List.mem_cons_of_mem g h1)) _ (tab2_shaped net _)]
    congr 4
    apply tab2_congr
    intro i j hi hj
    rw [cell_tab2 _ _ hi hj, List.sum_cons, add_assoc]

/-- C10. Plain descent with learning rate `lr`, in any state reached from construction whose
last call, if any, is not an `Update` (drained accumulators): after `Update g_1`, ...,
`Update g_k` with gradients shaped for the network and one `Step`, the run succeeds, the
optimizer equals a freshly built one (all running sums 0), every layer keeps its parameter
count, and parameter `j` of layer `i` is its previous value minus `lr` times the sum of the
entries `(i, j)` of `g_1 .. g_k`. -/
theorem sgd_batch_descent (sqrt : α → α) (net0 : SeqNet α) (lr : α) (calls : List (Call α))
    (hlast : ∀ g, calls.getLast? ≠ some (.Update g)) (o : Optimizer α) (net : SeqNet α)
    (hrun : Optimizer.run sqrt (.sgd (NewSGD net0 lr), net0) calls = some (o, net))
    (gs : List (List (List α))) (hgs : ∀ g ∈ gs, Shaped g net) :
    ∃ net1,
      Optimizer.run sqrt (o, net) (gs.map Call.Update ++ [Call.Step])
        = some (.sgd (NewSGD net1 lr), net1) ∧
      net1.layers.length = net.layers.length ∧
      (∀ i j, cell (NewSGD net1 lr).sumSteps i j = 0) ∧
      ∀ i j, i < net.layers.length → j < (net.layer i).Parameters →
        (net1.layer i).Parameters = (net.layer i).Parameters ∧
        (net1.layer i).params.getD j 0
          = (net.layer i).params.getD j 0 - lr * (gs.map (fun g => cell g i j)).sum := by
  obtain ⟨s1, e1, hS1, hl1, _, hd⟩ :=
    sgd_run_inv sqrt calls (NewSGD net0 lr) net0 o net (zeros_shaped net0) hrun
  subst e1
  have hz := hd (fun _ => rfl) hlast
  have hs1 : s1 = ⟨net.layers.map (fun layer => make layer.Parameters), lr⟩ := by
    cases s1
    simp only [NewSGD] at hl1 hz
    simp only [SGD.mk.injEq]
    exact ⟨hz, hl1⟩
  let A := tab2 net.layers.length (fun i => (net.layer i).Parameters)
    (fun i j => cell (net.layers.map (fun layer => (make layer.Parameters : List α))) i j
      + (gs.map (fun g => cell g i j * lr)).sum)
  have hshape := stepped_shape net (fun i => A.getD i [])
  refine ⟨{ layers := tab net.layers.length (fun i => (net.layer i).descend (A.getD i [])) },
    ?_, by simp, ?_, ?_⟩
  · rw [run_append, hs1, sgd_updates_eq sqrt net lr gs hgs _ (zeros_shaped net),
      Option.some_bind]
    have hstep := sgd_step_eq (⟨A, lr⟩ : SGD α) net (tab2_shaped net _)
    simp only [Optimizer.call, Optimizer.Step]
    rw [hstep]
    simp only [Option.map_some', NewSGD, zeros_congr hshape]
  · intro i j
    exact cell_zeros _ i j
  · intro i j hi hj
    rw [stepped_layer net _ hi]
    refine ⟨descend_parameters _ _, ?_⟩
    rw [descend_params, tab_getD _ _ hj, getD_tab2 _ _ hi, tab_getD _ _ hj, cell_zeros,
      zero_add, List.sum_map_mul_right, mul_comm]

/-- Instance of C10: learning rate 1/2 on a one-cell bias network, freshly built optimizer,
one gradient `[[2]]` (batch size 1): the parameter goes from 0 to `0 - 1/2 * 2`. -/
theorem sgd_batch_descent_witness :
    Optimizer.run (fun x => x) (.sgd (NewSGD (⟨[.bias ⟨[0]⟩]⟩ : SeqNet ℚ) (1 / 2)),
        ⟨[.bias ⟨[0]⟩]⟩) [.Update [[2]], .Step]
      = some (.sgd ⟨[[0]], 1 / 2⟩, ⟨[.bias ⟨[-1]⟩]⟩) ∧
    ∃ net1,
      Optimizer.run (fun x => x) (.sgd (NewSGD (⟨[.bias ⟨[0]⟩]⟩ : SeqNet ℚ) (1 / 2)),
          ⟨[.bias ⟨[0]⟩]⟩) ([[[(2 : ℚ)]]].map Call.Update ++ [Call.Step])
        = some (.sgd (NewSGD net1 (1 / 2)), net1) ∧
      net1.layers.length = 1 ∧
      (∀ i j, cell (NewSGD net1 (1 / 2)).sumSteps i j = 0) ∧
      ∀ i j, i < 1 → j < (SeqNet.layer (⟨[.bias ⟨[0]⟩]⟩ : SeqNet ℚ) i).Parameters →
        (net1.layer i).Parameters = (SeqNet.layer (⟨[.bias ⟨[0]⟩]⟩ : SeqNet ℚ) i).Parameters ∧
        (net1.layer i).params.getD j 0
          = (SeqNet.layer (⟨[.bias ⟨[0]⟩]⟩ : SeqNet ℚ) i).params.getD j 0
            - 1 / 2 * ([[[(2 : ℚ)]]].map (fun g => cell g i j)).sum := by
  constructor
  · simp [Optimizer.run, Optimizer.call, Optimizer.Update, Optimizer.Step, SGD.Update,
      SGD.Step, NewSGD, forLoop, load2, store2, store, Layer.Step, Bias.Step,
      make, Layer.Parameters, Bias.Parameters]
  · exact sgd_batch_descent (fun x => x) ⟨[.bias ⟨[0]⟩]⟩ (1 / 2) [] (by simp) _ _ rfl
      [[[2]]] (by
        intro g hg
        simp only [List.mem_singleton] at hg
        subst hg
        rfl)

/-! ## Bias layer, parameter steps, shape mismatch -/

theorem copy_make_self (e : List α) : copy (make e.length) e = e := by
  simp [copy, make]

/-- C17. For every bias layer and every error slice `e`, `BackPropagate e` and `GetStep e`
both return a slice equal to `e`; with bias `[1/2]` the input `[2]` is forwarded to `[5/2]`. -/
theorem bias_backward_identity (bias : Bias α) (e : List α) :
    bias.BackPropagate e = some e ∧ bias.GetStep e = some e ∧
    (⟨[1 / 2]⟩ : Bias α).FeedForward [2] = some [5 / 2] := by
  refine ⟨?_, ?_, ?_⟩
  · simp only [Bias.BackPropagate, copy_make_self]
  · simp only [Bias.GetStep, copy_make_self]
  · simp [Bias.FeedForward, forLoop, store, make]
    norm_num

/-- C18. A step slice with `Parameters()` cells: `Step` succeeds, keeps everything but the
parameters, keeps `Parameters()`, and turns parameter `i` into `p[i] - s[i]`.  An activation
layer has 0 parameters, `GetStep` returns the empty slice and `Step` leaves it as it is, for
any arguments. -/
theorem layer_step_subtracts (l : Layer α) (s delta : List α) (h : s.length = l.Parameters) :
    ∃ l1, l.Step s = some l1 ∧ l1 = l.withParams l1.params ∧
      l1.Parameters = l.Parameters ∧
      (∀ i, i < l.Parameters → l1.params[i]? = some (l.params.getD i 0 - s.getD i 0)) ∧
      (∀ a, l = .activation a →
        l.Parameters = 0 ∧ l.GetStep delta = some [] ∧ ∀ t, l.Step t = some l) := by
  refine ⟨l.descend s, layer_step_eq l s (le_of_eq h), ?_, descend_parameters l s, ?_, ?_⟩
  · cases l <;> rfl
  · intro i hi
    rw [descend_params, tab_getElem?_lt _ hi]
  · intro a ha
    subst ha
    exact ⟨rfl, rfl, fun _ => rfl⟩

/-- Instance of C18: the dense layer with weights `[1, 2]` and the step `[1/2, 1/2]`. -/
theorem layer_step_subtracts_witness :
    (Layer.dense (NewDenseRand 2 1 [(1 : ℚ), 2])).Step [1 / 2, 1 / 2]
      = some (.dense { NewDenseRand 2 1 [(1 : ℚ), 2] with connections := [1 / 2, 3 / 2] }) ∧
    ∃ l1, (Layer.dense (NewDenseRand 2 1 [(1 : ℚ), 2])).Step [1 / 2, 1 / 2] = some l1 ∧
      l1 = (Layer.dense (NewDenseRand 2 1 [(1 : ℚ), 2])).withParams l1.params ∧
      l1.Parameters = (Layer.dense (NewDenseRand 2 1 [(1 : ℚ), 2])).Parameters ∧
      (∀ i, i < (Layer.dense (NewDenseRand 2 1 [(1 : ℚ), 2])).Parameters →
        l1.params[i]? = some ((Layer.dense (NewDenseRand 2 1 [(1 : ℚ), 2])).params.getD i 0
          - [(1 / 2 : ℚ), 1 / 2].getD i 0)) ∧
      (∀ a, Layer.dense (NewDenseRand 2 1 [(1 : ℚ), 2]) = .activation a →
        (Layer.dense (NewDenseRand 2 1 [(1 : ℚ), 2])).Parameters = 0 ∧
        (Layer.dense (NewDenseRand 2 1 [(1 : ℚ), 2])).GetStep [] = some [] ∧
        ∀ t, (Layer.dense (NewDenseRand 2 1 [(1 : ℚ), 2])).Step t
          = some (Layer.dense (NewDenseRand 2 1 [(1 : ℚ), 2]))) :=
  ⟨by simp [Layer.Step, Dense.Step, forLoop, store, NewDenseRand]; norm_num,
   layer_step_subtracts (Layer.dense (NewDenseRand 2 1 [(1 : ℚ), 2])) [1 / 2, 1 / 2] [] rfl⟩

theorem forLoop_none {σ : Type} (n : Nat) (body : Nat → σ → Option σ) (s : σ) (i : Nat)
    (hi : i < n) (h : ∀ t, body i t = none) : forLoop n body s = none := by
  induction n with
  | zero => omega
  | succ n ih =>
    simp only [forLoop]
    by_cases hin : i = n
    · subst hin
      cases forLoop i body s with
      | none => rfl
      | some t => exact h t
    · rw [ih (by omega)]
      rfl

theorem dense_feedForward_short (dense : Dense α) (x : List α) (hx : x.length < dense.in_)
    (ho : 0 < dense.out) : dense.FeedForward x = none := by
  unfold Dense.FeedForward
  apply forLoop_none _ _ _ 0 ho
  intro t
  apply forLoop_none _ _ _ x.length hx
  intro u
  simp

theorem rowSum_take (dense : Dense α) (x : List α) (o : Nat) :
    rowSum dense (x.take dense.in_) o dense.in_ = rowSum dense x o dense.in_ := by
  unfold rowSum
  apply Finset.sum_congr rfl
  intro k hk
  have hk1 : k < dense.in_ := Finset.mem_range.mp hk
  simp only [List.getD_eq_getElem?_getD, List.getElem?_take_of_lt hk1]

/-- C12 (refuted as stated). A dense layer with in=1, out=1 and weight `[1]` accepts the
longer input `[3, 4]` and returns `[3]`; a dense layer with in=1 and out=0 accepts the
shorter input `[]` and returns `[]`. -/
theorem dense_feedForward_mismatch_counterexample :
    (NewDenseRand 1 1 [(1 : ℚ)]).FeedForward [3, 4] = some [3] ∧
    (NewDenseRand 1 0 ([] : List ℚ)).FeedForward [] = some [] := by
  constructor
  · simp [Dense.FeedForward, forLoop, store, make, NewDenseRand]
  · rfl

/-- C12 (amended). A dense layer with at least one output fails on every input shorter than
`in`.  A dense layer with `in * out` weights succeeds on every input longer than `in` and
returns what it returns on the first `in` cells of that input. -/
theorem dense_feedForward_mismatch (dense : Dense α) (x : List α) :
    (x.length < dense.in_ → 0 < dense.out → dense.FeedForward x = none) ∧
    (dense.in_ < x.length → dense.connections.length = dense.in_ * dense.out →
      ∃ y, dense.FeedForward x = some y ∧ y.length = dense.out ∧
        dense.FeedForward (x.take dense.in_) = some y) := by
  refine ⟨dense_feedForward_short dense x, ?_⟩
  intro hx hW
  refine ⟨_, dense_feedForward_eq dense x hW (le_of_lt hx), tab_length _ _, ?_⟩
  rw [dense_feedForward_eq dense (x.take dense.in_) hW
    (by rw [List.length_take]; omega)]
  congr 1
  exact tab_congr (fun o _ => rowSum_take dense x o)

/-- Instance of C12 (amended): weights `[1, 2]` with in=2, out=1; the input `[3]` is too
short, the input `[3, 4, 5]` is too long. -/
theorem dense_feedForward_mismatch_witness :
    (NewDenseRand 2 1 [(1 : ℚ), 2]).FeedForward [3] = none ∧
    ∃ y, (NewDenseRand 2 1 [(1 : ℚ), 2]).FeedForward [3, 4, 5] = some y ∧ y.length = 1 ∧
      (NewDenseRand 2 1 [(1 : ℚ), 2]).FeedForward ([(3 : ℚ), 4, 5].take 2) = some y :=
  ⟨(dense_feedForward_mismatch (NewDenseRand 2 1 [(1 : ℚ), 2]) [3]).1 (by decide) (by decide),
   (dense_feedForward_mismatch (NewDenseRand 2 1 [(1 : ℚ), 2]) [3, 4, 5]).2 (by decide) rfl⟩

/-! ## Bias and activation layers in closed form -/

theorem bias_feedForward_eq (bias : Bias α) (input : List α)
    (hx : bias.connections.length ≤ input.length) :
    bias.FeedForward input = some (tab bias.connections.length
      (fun i => input.getD i 0 + bias.connections.getD i 0)) := by
  obtain ⟨t, ht, hP⟩ := forLoop_inv
    (fun i (output : List α) => output = tab bias.connections.length (fun k =>
      if k < i then input.getD k 0 + bias.connections.getD k 0 else 0))
    bias.connections.length
    (fun i output => do
      let x ← input[i]?
      let b ← bias.connections[i]?
      store output i (x + b))
    (make bias.connections.length)
    (by simp [make_eq_tab])
    (by
      intro i hi v hv
      have h1 : input[i]? = some (input.getD i 0) :=
        getElem?_eq_getD input 0 (lt_of_lt_of_le hi hx)
      have h2 : bias.connections[i]? = some (bias.connections.getD i 0) :=
        getElem?_eq_getD _ 0 hi
      refine ⟨_, ?_, rfl⟩
      simp only [h1, h2, Option.bind_eq_bind, Option.some_bind]
      rw [hv]
      exact store_prefix _ (fun k => input.getD k 0 + bias.connections.getD k 0) hi)
  unfold Bias.FeedForward
  rw [ht, hP]
  exact congrArg some (tab_congr (fun k hk => if_pos hk))

theorem activation_feedForward_eq (exp : α → α) (a : Activation α) (input : List α)
    (hx : a.out ≤ input.length) :
    a.FeedForward exp input
      = some (tab a.out (fun i => a.function.out exp (input.getD i 0))) := by
  obtain ⟨t, ht, hP⟩ := forLoop_inv
    (fun i (output : List α) => output = tab a.out (fun k =>
      if k < i then a.function.out exp (input.getD k 0) else 0))
    a.out
    (fun i output => do
      let x ← input[i]?
      store output i (a.function.out exp x))
    (make a.out)
    (by simp [make_eq_tab])
    (by
      intro i hi v hv
      have h1 : input[i]? = some (input.getD i 0) :=
        getElem?_eq_getD input 0 (lt_of_lt_of_le hi hx)
      refine ⟨_, ?_, rfl⟩
      simp only [h1, Option.bind_eq_bind, Option.some_bind]
      rw [hv]
      exact store_prefix _ (fun k => a.function.out exp (input.getD k 0)) hi)
  unfold Activation.FeedForward
  rw [ht, hP]
  exact congrArg some (tab_congr (fun k hk => if_pos hk))

theorem store_prefix_keep (n : Nat) (f g : Nat → α) {j : Nat} (hj : j < n) :
    store (tab n (fun k => if k < j then f k else g k)) j (f j)
      = some (tab n (fun k => if k < j + 1 then f k else g k)) := by
  rw [store_tab _ hj]
  congr 1
  apply tab_congr
  intro k _
  by_cases hk : k = j
  · subst hk
    simp
  · have h5 : (k < j + 1) = (k < j) := by
      apply propext
      omega
    simp only [Function.update_noteq hk, h5]

theorem activation_cachedFeedForward_eq (exp : α → α) (a : Activation α) (input : List α)
    (hx : a.out ≤ input.length) (hc : a.out ≤ a.cache.length) :
    a.CachedFeedForward exp input
      = some ({ a with cache := tab a.cache.length (fun k =>
                  if k < a.out then (a.function.dOut exp (input.getD k 0)).2
                  else a.cache.getD k 0) },
              tab a.out (fun i => a.function.out exp (input.getD i 0))) := by
  obtain ⟨t, ht, hP⟩ := forLoop_inv
    (fun i (st : List α × List α) => st =
      (tab a.out (fun k => if k < i then (a.function.dOut exp (input.getD k 0)).1 else 0),
       tab a.cache.length (fun k =>
        if k < i then (a.function.dOut exp (input.getD k 0)).2 else a.cache.getD k 0)))
    a.out
    (fun i (st : List α × List α) => do
      let x ← input[i]?
      let r := a.function.dOut exp x
      let output ← store st.1 i r.1
      let cache ← store st.2 i r.2
      pure (output, cache))
    (make a.out, a.cache)
    (by
      simp only [Nat.not_lt_zero, if_false, make_eq_tab, Prod.mk.injEq, true_and]
      exact eq_tab_getD a.cache 0)
    (by
      intro i hi st hst
      have h1 : input[i]? = some (input.getD i 0) :=
        getElem?_eq_getD input 0 (lt_of_lt_of_le hi hx)
      have h2 : store st.1 i (a.function.dOut exp (input.getD i 0)).1 = some
          (tab a.out (fun k =>
            if k < i + 1 then (a.function.dOut exp (input.getD k 0)).1 else 0)) := by
        rw [hst]
        exact store_prefix _ (fun k => (a.function.dOut exp (input.getD k 0)).1) hi
      have h3 : store st.2 i (a.function.dOut exp (input.getD i 0)).2 = some
          (tab a.cache.length (fun k =>
            if k < i + 1 then (a.function.dOut exp (input.getD k 0)).2
            else a.cache.getD k 0)) := by
        rw [hst]
        exact store_prefix_keep _ (fun k => (a.function.dOut exp (input.getD k 0)).2) _
          (lt_of_lt_of_le hi hc)
      refine ⟨_, ?_, rfl⟩
      simp only [h1, h2, h3, Option.bind_eq_bind, Option.some_bind, Option.pure_def])
  unfold Activation.CachedFeedForward
  simp only [Option.bind_eq_bind, Option.pure_def] at ht ⊢
  rw [ht, hP]
  simp only [Option.map_some', Option.some.injEq, Prod.mk.injEq, true_and]
  exact tab_congr (fun k hk => by simp only [if_pos hk, function_dOut_fst])

theorem activation_backPropagate_eq (a : Activation α) (error : List α)
    (he : a.out ≤ error.length) (hc : a.out ≤ a.cache.length) :
    a.BackPropagate error
      = some (tab a.out (fun i => error.getD i 0 * a.cache.getD i 0)) := by
  obtain ⟨t, ht, hP⟩ := forLoop_inv
    (fun i (out : List α) => out = tab a.out (fun k =>
      if k < i then error.getD k 0 * a.cache.getD k 0 else 0))
    a.out
    (fun i out => do
      let e ← error[i]?
      let c ← a.cache[i]?
      store out i (e * c))
    (make a.out)
    (by simp [make_eq_tab])
    (by
      intro i hi v hv
      have h1 : error[i]? = some (error.getD i 0) :=
        getElem?_eq_getD error 0 (lt_of_lt_of_le hi he)
      have h2 : a.cache[i]? = some (a.cache.getD i 0) :=
        getElem?_eq_getD _ 0 (lt_of_lt_of_le hi hc)
      refine ⟨_, ?_, rfl⟩
      simp only [h1, h2, Option.bind_eq_bind, Option.some_bind]
      rw [hv]
      exact store_prefix _ (fun k => error.getD k 0 * a.cache.getD k 0) hi)
  unfold Activation.BackPropagate
  rw [ht, hP]
  exact congrArg some (tab_congr (fun k hk => if_pos hk))

/-! ## Sigmoid -/

/-- C13. An activation layer wrapping Sigmoid whose cache has at least `out` cells, an input
and an error of `out` cells: `CachedFeedForward x` returns `s` with
`s[i] = 1 / (1 + exp (-x[i]))`, and `BackPropagate e` on the layer it leaves behind returns the
slice with cells `e[i] * s[i] * (1 - s[i])`. -/
theorem sigmoid_cached_backward (exp : α → α) (a : Activation α) (x e : List α)
    (hf : a.function = .Sigmoid) (hc : a.out ≤ a.cache.length)
    (hx : x.length = a.out) (he : e.length = a.out) :
    ∃ a1 s, a.CachedFeedForward exp x = some (a1, s) ∧ s.length = a.out ∧
      (∀ i, i < a.out → s[i]? = some (1 / (1 + exp (-(x.getD i 0))))) ∧
      ∃ b, a1.BackPropagate e = some b ∧ b.length = a.out ∧
        ∀ i, i < a.out → b[i]? = some (e.getD i 0 * s.getD i 0 * (1 - s.getD i 0)) := by
  refine ⟨_, _, activation_cachedFeedForward_eq exp a x (le_of_eq hx.symm) hc, tab_length _ _,
    ?_, _, activation_backPropagate_eq _ e (le_of_eq he.symm) (by simpa using hc),
    tab_length _ _, ?_⟩
  · intro i hi
    rw [tab_getElem?_lt _ hi, hf]
    rfl
  · intro i hi
    rw [tab_getElem?_lt _ hi]
    simp only []
    rw [tab_getD _ _ (lt_of_lt_of_le hi hc), tab_getD _ _ hi, if_pos hi, hf, mul_assoc]
    rfl

/-- Instance of C13 over the reals with the real exponential: input `[0]` gives the output
`[1/2]`, the cached derivative `1/4`, and `BackPropagate [1]` gives `[1/4]`. -/
theorem sigmoid_cached_backward_witness :
    (NewActivation 1 .Sigmoid : Activation ℝ).CachedFeedForward Real.exp [0]
      = some ({ out := 1, function := .Sigmoid, cache := [1 / 4] }, [1 / 2]) ∧
    ({ out := 1, function := .Sigmoid, cache := [1 / 4] } : Activation ℝ).BackPropagate [1]
      = some [1 / 4] ∧
    ∃ a1 s, (NewActivation 1 .Sigmoid : Activation ℝ).CachedFeedForward Real.exp [0]
        = some (a1, s) ∧ s.length = 1 ∧
      (∀ i, i < 1 → s[i]? = some (1 / (1 + Real.exp (-([(0 : ℝ)].getD i 0))))) ∧
      ∃ b, a1.BackPropagate [1] = some b ∧ b.length = 1 ∧
        ∀ i, i < 1 → b[i]? = some ([(1 : ℝ)].getD i 0 * s.getD i 0 * (1 - s.getD i 0)) := by
  refine ⟨?_, ?_, sigmoid_cached_backward Real.exp (NewActivation 1 .Sigmoid) [0] [1] rfl
    (le_refl 1) rfl rfl⟩
  · simp [Activation.CachedFeedForward, forLoop, store, make, NewActivation, Function.dOut,
      Sigmoid.dOut, Sigmoid.out]
    norm_num
  · simp [Activation.BackPropagate, forLoop, store, make]

/-- C14. Over the reals, with the real exponential, the second component of `Sigmoid.dOut x`
is the derivative of `Sigmoid.out` at `x`, and it equals `out x * (1 - out x)`. -/
theorem sigmoid_dOut_is_derivative (x : ℝ) :
    HasDerivAt (Sigmoid.out Real.exp) (Sigmoid.dOut Real.exp x).2 x ∧
    (Sigmoid.dOut Real.exp x).2 = Sigmoid.out Real.exp x * (1 - Sigmoid.out Real.exp x) := by
  refine ⟨?_, rfl⟩
  have hpos : (1 + Real.exp (-x)) ≠ 0 := by positivity
  have h1 : HasDerivAt (fun y : ℝ => Real.exp (-y)) (Real.exp (-x) * (-1)) x :=
    (Real.hasDerivAt_exp (-x)).comp x (hasDerivAt_neg x)
  have h2 : HasDerivAt (fun y : ℝ => 1 + Real.exp (-y)) (Real.exp (-x) * (-1)) x :=
    h1.const_add 1
  have h3 := h2.inv hpos
  have h4 : Sigmoid.out Real.exp = (fun y : ℝ => 1 + Real.exp (-y))⁻¹ := by
    funext y
    simp [Sigmoid.out]
  rw [h4]
  convert h3 using 1
  simp only [Sigmoid.dOut, Sigmoid.out]
  field_simp
  ring

/-! ## Gradient check for the dense layer -/

theorem bump_length (l : List α) (k : Nat) (h : α) : (bump l k h).length = l.length := by
  simp [bump]

theorem bump_getD (l : List α) (k m : Nat) (h : α) (hk : k < l.length) :
    (bump l k h).getD m 0 = l.getD m 0 + if m = k then h else 0 := by
  simp only [bump, List.getD_eq_getElem?_getD, List.getElem?_set]
  by_cases hm : m = k
  · subst hm
    simp [hk]
  · have hm2 : ¬ k = m := fun e => hm e.symm
    simp [hm, hm2]

theorem probe_eq (dense : Dense α) (e x : List α)
    (hW : dense.connections.length = dense.in_ * dense.out) (hx : dense.in_ ≤ x.length) :
    dense.probe e x
      = ∑ o in Finset.range dense.out, e.getD o 0 * rowSum dense x o dense.in_ := by
  unfold Dense.probe
  rw [dense_feedForward_eq dense x hW hx]
  apply Finset.sum_congr rfl
  intro o ho
  rw [Option.getD_some, tab_getD _ _ (Finset.mem_range.mp ho)]

theorem sum_indicator (a b k : Nat) (hk : k < a * b) (F : Nat → Nat → α) :
    ∑ o in Finset.range b, ∑ i in Finset.range a, (if o * a + i = k then F o i else 0)
      = F (k / a) (k % a) := by
  have ha : 0 < a := by
    rcases Nat.eq_zero_or_pos a with h0 | h0
    · subst h0
      simp at hk
    · exact h0
  have hdiv : k / a < b := by
    apply Nat.div_lt_of_lt_mul
    exact hk
  rw [Finset.sum_eq_single (k / a)]
  · rw [Finset.sum_eq_single (k % a)]
    · rw [if_pos (by rw [Nat.mul_comm]; exact Nat.div_add_mod k a)]
    · intro i _ hi
      rw [if_neg]
      intro hc
      apply hi
      rw [← hc, offset_mod]
      rw [← hc] at hdiv
      by_contra hlt
      have : i < a := by
        rename_i hmem
        exact Finset.mem_range.mp hmem
      exact hlt this
    · intro hn
      exact absurd (Finset.mem_range.mpr (Nat.mod_lt k ha)) hn
  · intro o _ ho
    apply Finset.sum_eq_zero
    intro i hi
    rw [if_neg]
    intro hc
    apply ho
    rw [← hc, offset_div (Finset.mem_range.mp hi)]
  · intro hn
    exact absurd (Finset.mem_range.mpr hdiv) hn

theorem probe_weight_difference (dense : Dense α) (e x : List α) (h : α) (k : Nat)
    (hW : dense.connections.length = dense.in_ * dense.out) (hx : dense.in_ ≤ x.length)
    (hk : k < dense.in_ * dense.out) :
    Dense.probe { dense with connections := bump dense.connections k h } e x
        - Dense.probe { dense with connections := bump dense.connections k (-h) } e x
      = e.getD (k / dense.in_) 0 * x.getD (k % dense.in_) 0 * (2 * h) := by
  have hp := probe_eq { dense with connections := bump dense.connections k h } e x
    (by simp only [bump_length, hW]) hx
  have hm := probe_eq { dense with connections := bump dense.connections k (-h) } e x
    (by simp only [bump_length, hW]) hx
  rw [hp, hm, ← sum_indicator dense.in_ dense.out k hk
      (fun o i => e.getD o 0 * x.getD i 0 * (2 * h)),
    ← Finset.sum_sub_distrib]
  apply Finset.sum_congr rfl
  intro o _
  rw [← mul_sub, rowSum, rowSum, ← Finset.sum_sub_distrib, Finset.mul_sum]
  apply Finset.sum_congr rfl
  intro i _
  simp only [bump_getD _ _ _ _ (hW ▸ hk)]
  split_ifs <;> ring

theorem probe_input_difference (dense : Dense α) (e x : List α) (h : α) (i : Nat)
    (hW : dense.connections.length = dense.in_ * dense.out) (hx : x.length = dense.in_)
    (hi : i < dense.in_) :
    dense.probe e (bump x i h) - dense.probe e (bump x i (-h))
      = colSum dense e dense.out i * (2 * h) := by
  rw [probe_eq _ e _ hW (by rw [bump_length, hx]), probe_eq _ e _ hW (by rw [bump_length, hx]),
    ← Finset.sum_sub_distrib, colSum, Finset.sum_mul]
  apply Finset.sum_congr rfl
  intro o _
  rw [← mul_sub, rowSum, rowSum, ← Finset.sum_sub_distrib]
  have hterm : ∀ j ∈ Finset.range dense.in_,
      (bump x i h).getD j 0 * dense.connections.getD (o * dense.in_ + j) 0
        - (bump x i (-h)).getD j 0 * dense.connections.getD (o * dense.in_ + j) 0
      = if j = i then dense.connections.getD (o * dense.in_ + j) 0 * (2 * h) else 0 := by
    intro j _
    simp only [bump_getD _ _ _ _ (hx ▸ hi)]
    split_ifs <;> ring
  rw [Finset.sum_congr rfl hterm, Finset.sum_ite_eq' (Finset.range dense.in_) i,
    if_pos (Finset.mem_range.mpr hi)]
  ring

/-- C15. Gradient check for a dense layer with `in * out` weights, an input cache of at least
`in` cells, an input `x` of `in` cells, an error `e` of `out` cells and any `h ≠ 0`.  With
`probe W x = Σ_o e[o] * FeedForward_W(x)[o]`: the centred difference of `probe` in weight `k`
equals cell `k` of `GetStep e` taken after `CachedFeedForward x`, and the centred difference
in input cell `i` equals cell `i` of `BackPropagate e`. -/
theorem dense_gradient_check (dense : Dense α) (x e : List α) (h : α)
    (hW : dense.connections.length = dense.in_ * dense.out)
    (hL : dense.in_ ≤ dense.lastInput.length)
    (hx : x.length = dense.in_) (he : e.length = dense.out) (hh : h ≠ 0) :
    (∃ dense1 y s, dense.CachedFeedForward x = some (dense1, y) ∧ dense1.GetStep e = some s ∧
      ∀ k, k < dense.in_ * dense.out →
        (Dense.probe { dense with connections := bump dense.connections k h } e x
          - Dense.probe { dense with connections := bump dense.connections k (-h) } e x)
          / (2 * h) = s.getD k 0) ∧
    (∃ p, dense.BackPropagate e = some p ∧
      ∀ i, i < dense.in_ →
        (dense.probe e (bump x i h) - dense.probe e (bump x i (-h))) / (2 * h)
          = p.getD i 0) := by
  have h2 : (2 * h) ≠ 0 := mul_ne_zero two_ne_zero hh
  constructor
  · have hf := dense_feedForward_eq { dense with lastInput := copy dense.lastInput x } x hW
      (le_of_eq hx.symm)
    have hg := dense_getStep_eq { dense with lastInput := copy dense.lastInput x } e hW
      (by rw [copy_length]; exact hL) (le_of_eq he.symm)
    have hc : dense.CachedFeedForward x
        = some ({ dense with lastInput := copy dense.lastInput x },
          tab dense.out (fun o =>
            rowSum { dense with lastInput := copy dense.lastInput x } x o dense.in_)) := by
      simp only [Dense.CachedFeedForward, hf, Option.map_some']
    refine ⟨_, _, _, hc, hg, ?_⟩
    intro k hk
    have ha : 0 < dense.in_ := by
      rcases Nat.eq_zero_or_pos dense.in_ with h0 | h0
      · rw [h0] at hk
        simp at hk
      · exact h0
    have hm : k % dense.in_ < dense.in_ := Nat.mod_lt k ha
    rw [probe_weight_difference dense e x h k hW (le_of_eq hx.symm) hk, tab_getD _ _ hk,
      mul_div_assoc, div_self h2, mul_one]
    simp only []
    rw [copy_getD _ _ _ (by omega) (by omega)]
  · refine ⟨_, dense_backPropagate_eq dense e hW (le_of_eq he.symm), ?_⟩
    intro i hi
    rw [probe_input_difference dense e x h i hW hx hi, tab_getD _ _ hi, mul_div_assoc,
      div_self h2, mul_one]

/-- Instance of C15: in=2, out=1, W=[1, 2], x=[3, 4], e=[1], h=1/2. -/
theorem dense_gradient_check_witness :
    (∃ dense1 y s, (NewDenseRand 2 1 [(1 : ℚ), 2]).CachedFeedForward [3, 4] = some (dense1, y) ∧
      dense1.GetStep [1] = some s ∧
      ∀ k, k < 2 * 1 →
        (Dense.probe { NewDenseRand 2 1 [(1 : ℚ), 2] with
              connections := bump [(1 : ℚ), 2] k (1 / 2) } [1] [3, 4]
          - Dense.probe { NewDenseRand 2 1 [(1 : ℚ), 2] with
              connections := bump [(1 : ℚ), 2] k (-(1 / 2)) } [1] [3, 4])
          / (2 * (1 / 2)) = s.getD k 0) ∧
    (∃ p, (NewDenseRand 2 1 [(1 : ℚ), 2]).BackPropagate [1] = some p ∧
      ∀ i, i < 2 →
        ((NewDenseRand 2 1 [(1 : ℚ), 2]).probe [1] (bump [3, 4] i (1 / 2))
          - (NewDenseRand 2 1 [(1 : ℚ), 2]).probe [1] (bump [3, 4] i (-(1 / 2))))
          / (2 * (1 / 2)) = p.getD i 0) :=
  dense_gradient_check (NewDenseRand 2 1 [(1 : ℚ), 2]) [3, 4] [1] (1 / 2) rfl (le_refl 2) rfl rfl
    (by norm_num)

/-! ## Buffer shapes of the optimizers -/

theorem sgdMomentum_update_eq (net : SeqNet α) (o : SGDMomentum α) (g : List (List α))
    (hC : Shaped o.cachedSteps net) (hg : Shaped g net) :
    o.Update g = some { o with
      cachedSteps := tab2 net.layers.length (fun i => (net.layer i).Parameters)
        (fun i j => cell o.cachedSteps i j + cell g i j) } := by
  unfold SGDMomentum.Update
  have h := accumulate_eq (fun c g => c + g) net g o.cachedSteps hC hg
  simp only [Option.bind_eq_bind] at h ⊢
  rw [h]
  rfl

theorem rmsProp_update_eq (net : SeqNet α) (o : RMSProp α) (g : List (List α))
    (hC : Shaped o.cachedSteps net) (hg : Shaped g net) :
    o.Update g = some { o with
      cachedSteps := tab2 net.layers.length (fun i => (net.layer i).Parameters)
        (fun i j => cell o.cachedSteps i j + cell g i j) } := by
  unfold RMSProp.Update
  have h := accumulate_eq (fun c g => c + g) net g o.cachedSteps hC hg
  simp only [Option.bind_eq_bind] at h ⊢
  rw [h]
  rfl

theorem optimizer_call_bound (sqrt : α → α) (o : Optimizer α) (n : SeqNet α) (c : Call α)
    (hb : o.Bound n) (hc : ∀ g, c = .Update g → Shaped g n) :
    ∃ o1 n1, Optimizer.call sqrt (o, n) c = some (o1, n1) ∧ o1.Bound n1
      ∧ n1.shape = n.shape := by
  cases c with
  | Update g =>
    have hg : Shaped g n := hc g rfl
    cases o with
    | sgd s =>
      have hu : s.Update g = some ⟨tab2 n.layers.length (fun i => (n.layer i).Parameters)
          (fun i j => cell s.sumSteps i j + cell g i j * s.learningRate), s.learningRate⟩ :=
        sgd_update_eq n s.learningRate s.sumSteps g hb hg
      refine ⟨.sgd ⟨tab2 n.layers.length (fun i => (n.layer i).Parameters)
          (fun i j => cell s.sumSteps i j + cell g i j * s.learningRate), s.learningRate⟩,
        n, ?_, ?_, rfl⟩
      · simp only [Optimizer.call, Optimizer.Update, hu, Option.map_some']
      · exact tab2_shaped n _
    | momentum s =>
      refine ⟨.momentum { s with
          cachedSteps := tab2 n.layers.length (fun i => (n.layer i).Parameters)
            (fun i j => cell s.cachedSteps i j + cell g i j) }, n, ?_, ?_, rfl⟩
      · simp only [Optimizer.call, Optimizer.Update, sgdMomentum_update_eq n s g hb.2 hg,
          Option.map_some']
      · exact ⟨hb.1, tab2_shaped n _⟩
    | rmsProp s =>
      refine ⟨.rmsProp { s with
          cachedSteps := tab2 n.layers.length (fun i => (n.layer i).Parameters)
            (fun i j => cell s.cachedSteps i j + cell g i j) }, n, ?_, ?_, rfl⟩
      · simp only [Optimizer.call, Optimizer.Update, rmsProp_update_eq n s g hb.2 hg,
          Option.map_some']
      · exact ⟨hb.1, tab2_shaped n _⟩
  | Step =>
    cases o with
    | sgd s =>
      have hs := stepped_shape n (fun i => s.sumSteps.getD i [])
      refine ⟨.sgd { s with sumSteps := n.layers.map (fun layer => make layer.Parameters) },
        _, ?_, ?_, hs⟩
      · simp only [Optimizer.call, Optimizer.Step, sgd_step_eq s n hb, Option.map_some']
      · exact shaped_congr (zeros_shaped n) hs
    | momentum s =>
      have hs := stepped_shape n (fun i => tab (n.layer i).Parameters (fun j =>
        cell s.sumSteps i j
          + (cell s.sumSteps i j * s.momentum + cell s.cachedSteps i j * s.momentumI)))
      refine ⟨.momentum { s with
          sumSteps := tab2 n.layers.length (fun i => (n.layer i).Parameters)
            (fun i j => cell s.sumSteps i j
              + (cell s.sumSteps i j * s.momentum + cell s.cachedSteps i j * s.momentumI))
          cachedSteps := n.layers.map (fun layer => make layer.Parameters) }, _, ?_, ?_, hs⟩
      · simp only [Optimizer.call, Optimizer.Step, sgdMomentum_step_eq s n hb.1 hb.2,
          Option.map_some']
      · exact ⟨shaped_congr (tab2_shaped n _) hs, shaped_congr (zeros_shaped n) hs⟩
    | rmsProp s =>
      have hs := stepped_shape n (fun i => tab (n.layer i).Parameters (fun j =>
        cell s.cachedSteps i j
          / (sqrt (cell s.sumSteps i j * s.beta0
              + cell s.cachedSteps i j * cell s.cachedSteps i j * s.beta1)
            + EPSILON) * s.learningRate))
      refine ⟨.rmsProp { s with
          sumSteps := tab2 n.layers.length (fun i => (n.layer i).Parameters)
            (fun i j => cell s.sumSteps i j * s.beta0
              + cell s.cachedSteps i j * cell s.cachedSteps i j * s.beta1)
          cachedSteps := n.layers.map (fun layer => make layer.Parameters) }, _, ?_, ?_, hs⟩
      · simp only [Optimizer.call, Optimizer.Step, rmsProp_step_eq sqrt s n hb.1 hb.2,
          Option.map_some']
      · exact ⟨shaped_congr (tab2_shaped n _) hs, shaped_congr (zeros_shaped n) hs⟩

theorem optimizer_run_bound (sqrt : α → α) (calls : List (Call α)) :
    ∀ (o : Optimizer α) (n : SeqNet α), o.Bound n →
      (∀ g, Call.Update g ∈ calls → Shaped g n) →
      ∃ o1 n1, Optimizer.run sqrt (o, n) calls = some (o1, n1) ∧ o1.Bound n1
        ∧ n1.shape = n.shape := by
  induction calls with
  | nil =>
    intro o n hb _
    exact ⟨o, n, rfl, hb, rfl⟩
  | cons c cs ih =>
    intro o n hb hg
    obtain ⟨o1, n1, h1, hb1, hs1⟩ := optimizer_call_bound sqrt o n c hb
      (fun g hc => hg g (hc ▸ List.mem_cons_self c cs))
    obtain ⟨o2, n2, h2, hb2, hs2⟩ := ih o1 n1 hb1
      (fun g hmem => shaped_congr (hg g (List.mem_cons_of_mem c hmem)) hs1)
    refine ⟨o2, n2, ?_, hb2, hs2.trans hs1⟩
    simp only [Optimizer.run, h1, Option.some_bind, h2]

theorem fresh_bound (o : Optimizer α) (net : SeqNet α) (h : o.Fresh net) : o.Bound net := by
  rcases h with ⟨lr, rfl⟩ | ⟨lr, m, rfl⟩ | ⟨lr, beta, rfl⟩
  · exact zeros_shaped net
  · exact ⟨zeros_shaped net, zeros_shaped net⟩
  · exact ⟨zeros_shaped net, zeros_shaped net⟩

/-- C16. An optimizer built by `NewSGD`, `NewSGDMomentum` or `newRMSProp` for a network, then
driven by any sequence of `Step` calls and of `Update` calls whose gradients have, layer by
layer, `Parameters()` cells: every call succeeds, the parameter counts of the layers stay
those at construction, and afterwards (`Optimizer.Bound`) each buffer the optimizer holds,
accumulated gradients as well as velocity or running average, has for every layer `i` exactly
`Parameters()` cells of layer `i`. -/
theorem optimizer_buffers_shaped (sqrt : α → α) (net : SeqNet α) (o : Optimizer α)
    (hf : o.Fresh net) (calls : List (Call α))
    (hcalls : ∀ g, Call.Update g ∈ calls → g.map List.length = net.layers.map Layer.Parameters) :
    ∃ o1 net1, Optimizer.run sqrt (o, net) calls = some (o1, net1) ∧
      net1.layers.map Layer.Parameters = net.layers.map Layer.Parameters ∧
      o1.Bound net1 := by
  obtain ⟨o1, n1, h1, hb, hs⟩ :=
    optimizer_run_bound sqrt calls o net (fresh_bound o net hf) hcalls
  exact ⟨o1, n1, h1, hs, hb⟩

/-- Instance of C16: the momentum optimizer on a network of a dense layer 2 → 1 and a bias
layer, after `Update [[1, 2], [3]]` and `Step`. -/
theorem optimizer_buffers_shaped_witness :
    ∃ o1 net1, Optimizer.run (fun x => x)
        (.momentum (NewSGDMomentum
          (⟨[.dense (NewDenseRand 2 1 [(1 : ℚ), 2]), .bias ⟨[1 / 2]⟩]⟩ : SeqNet ℚ) 1 (1 / 2)),
         ⟨[.dense (NewDenseRand 2 1 [(1 : ℚ), 2]), .bias ⟨[1 / 2]⟩]⟩)
        [.Update [[1, 2], [3]], .Step] = some (o1, net1) ∧
      net1.layers.map Layer.Parameters
        = (⟨[.dense (NewDenseRand 2 1 [(1 : ℚ), 2]), .bias ⟨[1 / 2]⟩]⟩ : SeqNet ℚ).layers.map
            Layer.Parameters ∧
      o1.Bound net1 :=
  optimizer_buffers_shaped (fun x => x)
    ⟨[.dense (NewDenseRand 2 1 [(1 : ℚ), 2]), .bias ⟨[1 / 2]⟩]⟩ _
    (Or.inr (Or.inl ⟨1, 1 / 2, rfl⟩)) [.Update [[1, 2], [3]], .Step]
    (by
      intro g hg
      simp only [List.mem_cons, Call.Update.injEq, List.mem_singleton, reduceCtorEq,
        or_false, List.not_mem_nil] at hg
      subst hg
      rfl)

/-! ## Size of the RMS-propagation step -/

theorem cell_tab2_cases {α : Type} [Zero α]
    (n : Nat) (len : Nat → Nat) (f : Nat → Nat → α) (i j : Nat) :
    cell (tab2 n len f) i j = if i < n ∧ j < len i then f i j else 0 := by
  by_cases hi : i < n
  · by_cases hj : j < len i
    · rw [cell_tab2 _ _ hi hj, if_pos ⟨hi, hj⟩]
    · rw [cell, getD_tab2 _ _ hi, if_neg (fun h => hj h.2)]
      exact getD_eq_zero_of_le _ (by simpa using hj)
  · rw [cell, if_neg (fun h => hi h.1)]
    have : (tab2 n len f).getD i [] = [] := by
      simp only [List.getD_eq_getElem?_getD]
      rw [List.getElem?_eq_none (by simpa [tab2_length] using hi)]
      rfl
    rw [this]
    rfl

theorem rmsProp_call_nonneg (sqrt : α → α) (r r1 : RMSProp α) (n n1 : SeqNet α) (c : Call α)
    (hS : Shaped r.sumSteps n) (hC : Shaped r.cachedSteps n)
    (h0 : 0 ≤ r.beta0) (h1 : 0 ≤ r.beta1) (hnn : ∀ i j, 0 ≤ cell r.sumSteps i j)
    (hc : Optimizer.call sqrt (.rmsProp r, n) c = some (.rmsProp r1, n1)) :
    ∀ i j, 0 ≤ cell r1.sumSteps i j := by
  cases c with
  | Update steps =>
    simp only [Optimizer.call, Optimizer.Update] at hc
    rw [Option.map_eq_some'] at hc
    obtain ⟨o2, ho2, e⟩ := hc
    rw [Option.map_eq_some'] at ho2
    obtain ⟨r2, hu, e2⟩ := ho2
    simp only [Prod.mk.injEq] at e
    obtain ⟨e3, _⟩ := e
    rw [← e2] at e3
    simp only [Optimizer.rmsProp.injEq] at e3
    subst e3
    rw [(rmsProp_update_shape hu).2.1]
    exact hnn
  | Step =>
    simp only [Optimizer.call, Optimizer.Step, rmsProp_step_eq sqrt r n hS hC, Option.map_some',
      Option.some.injEq, Prod.mk.injEq, Optimizer.rmsProp.injEq] at hc
    obtain ⟨e1, _⟩ := hc
    subst e1
    intro i j
    simp only []
    rw [cell_tab2_cases]
    split
    · exact add_nonneg (mul_nonneg (hnn i j) h0)
        (mul_nonneg (mul_self_nonneg _) h1)
    · exact le_refl 0

theorem rmsProp_run_nonneg (sqrt : α → α) (cs : List (Call α)) :
    ∀ (r : RMSProp α) (n : SeqNet α) (o1 : Optimizer α) (n1 : SeqNet α),
      Shaped r.sumSteps n → Shaped r.cachedSteps n → 0 ≤ r.beta0 → 0 ≤ r.beta1 →
      (∀ i j, 0 ≤ cell r.sumSteps i j) →
      Optimizer.run sqrt (.rmsProp r, n) cs = some (o1, n1) →
      ∃ r1, o1 = .rmsProp r1 ∧ Shaped r1.sumSteps n1 ∧ Shaped r1.cachedSteps n1
        ∧ (r1.learningRate = r.learningRate ∧ r1.beta0 = r.beta0 ∧ r1.beta1 = r.beta1)
        ∧ ∀ i j, 0 ≤ cell r1.sumSteps i j := by
  induction cs with
  | nil =>
    intro r n o1 n1 hS hC _ _ hnn hr
    simp only [Optimizer.run, Option.some.injEq, Prod.mk.injEq] at hr
    obtain ⟨e1, e2⟩ := hr
    subst e1 e2
    exact ⟨r, rfl, hS, hC, ⟨rfl, rfl, rfl⟩, hnn⟩
  | cons c cs ih =>
    intro r n o1 n1 hS hC h0 h1 hnn hr
    simp only [Optimizer.run] at hr
    cases hc : Optimizer.call sqrt (.rmsProp r, n) c with
    | none => simp [hc] at hr
    | some st =>
      obtain ⟨o2, n2⟩ := st
      rw [hc, Option.some_bind] at hr
      obtain ⟨r2, e2, hS2, hC2, ⟨a2, b2, c2⟩, _, _⟩ :=
        rmsProp_call_inv sqrt r n c o2 n2 hS hC hc
      subst e2
      have hnn2 := rmsProp_call_nonneg sqrt r r2 n n2 c hS hC h0 h1 hnn hc
      obtain ⟨r3, e3, hS3, hC3, ⟨a3, b3, c3⟩, hnn3⟩ :=
        ih r2 n2 o1 n1 hS2 hC2 (b2 ▸ h0) (c2 ▸ h1) hnn2 hr
      exact ⟨r3, e3, hS3, hC3, ⟨a3.trans a2, b3.trans b2, c3.trans c2⟩, hnn3⟩

theorem rmsProp_quotient_bound (s g lr beta : ℝ) (hlr : 0 ≤ lr) (hb0 : 0 ≤ beta)
    (hb1 : beta < 1) (hs : 0 ≤ s) :
    |g / (Real.sqrt (s * beta + g * g * (1 - beta)) + EPSILON) * lr|
      ≤ lr / Real.sqrt (1 - beta) := by
  have h1b : 0 < 1 - beta := by linarith
  have hq : 0 < Real.sqrt (1 - beta) := Real.sqrt_pos.mpr h1b
  have heps : (0 : ℝ) < EPSILON := by
    unfold EPSILON
    norm_num
  have hd : 0 < Real.sqrt (s * beta + g * g * (1 - beta)) + EPSILON :=
    add_pos_of_nonneg_of_pos (Real.sqrt_nonneg _) heps
  have hle : |g| * Real.sqrt (1 - beta)
      ≤ Real.sqrt (s * beta + g * g * (1 - beta)) + EPSILON := by
    have h2 : |g| * Real.sqrt (1 - beta) = Real.sqrt (g * g * (1 - beta)) := by
      rw [Real.sqrt_mul (mul_self_nonneg g), Real.sqrt_mul_self_eq_abs]
    rw [h2]
    have h3 : Real.sqrt (g * g * (1 - beta)) ≤ Real.sqrt (s * beta + g * g * (1 - beta)) :=
      Real.sqrt_le_sqrt (by nlinarith [mul_nonneg hs hb0])
    linarith
  rw [abs_mul, abs_div, abs_of_pos hd, abs_of_nonneg hlr, div_mul_eq_mul_div,
    div_le_div_iff₀ hd hq]
  calc |g| * lr * Real.sqrt (1 - beta) = lr * (|g| * Real.sqrt (1 - beta)) := by ring
    _ ≤ lr * (Real.sqrt (s * beta + g * g * (1 - beta)) + EPSILON) :=
        mul_le_mul_of_nonneg_left hle hlr

/-- C19 (amended). RMS propagation in exact real arithmetic (the reals with the real square
root, so without the rounding, overflow and NaN of `float64`), built with `lr ≥ 0` and
`0 ≤ beta < 1`: in every state reached from construction by `Update` and `Step` calls every
running average is `≥ 0`, `Step` succeeds, and the amount it subtracts from any parameter has
absolute value at most `lr / sqrt (1 - beta)`. -/
theorem rmsProp_step_bounded (net : SeqNet ℝ) (lr beta : ℝ) (hlr : 0 ≤ lr) (hb0 : 0 ≤ beta)
    (hb1 : beta < 1) (calls : List (Call ℝ)) (o : Optimizer ℝ) (n : SeqNet ℝ)
    (hrun : Optimizer.run Real.sqrt (.rmsProp (newRMSProp net lr beta), net) calls
      = some (o, n)) :
    (∃ r, o = .rmsProp r ∧ ∀ i j, 0 ≤ cell r.sumSteps i j) ∧
    ∃ o1 n1, Optimizer.Step Real.sqrt o n = some (o1, n1) ∧
      ∀ i j, i < n.layers.length → j < (n.layer i).Parameters →
        |(n.layer i).params.getD j 0 - (n1.layer i).params.getD j 0|
          ≤ lr / Real.sqrt (1 - beta) := by
  obtain ⟨r, e, hS, hC, ⟨a1, a2, a3⟩, hnn⟩ :=
    rmsProp_run_nonneg Real.sqrt calls (newRMSProp net lr beta) net o n (zeros_shaped net)
      (zeros_shaped net) hb0 (by simp only [newRMSProp]; linarith)
      (fun i j => le_of_eq (cell_zeros net i j).symm) hrun
  subst e
  have hstep : Optimizer.Step Real.sqrt (.rmsProp r) n = some
      (.rmsProp { r with
          sumSteps := tab2 n.layers.length (fun i => (n.layer i).Parameters)
            (fun i j => cell r.sumSteps i j * r.beta0
              + cell r.cachedSteps i j * cell r.cachedSteps i j * r.beta1)
          cachedSteps := n.layers.map (fun layer => make layer.Parameters) },
       { layers := tab n.layers.length (fun i => (n.layer i).descend
          (tab (n.layer i).Parameters (fun j => cell r.cachedSteps i j
            / (Real.sqrt (cell r.sumSteps i j * r.beta0
                + cell r.cachedSteps i j * cell r.cachedSteps i j * r.beta1)
              + EPSILON) * r.learningRate))) }) := by
    simp only [Optimizer.Step, rmsProp_step_eq Real.sqrt r n hS hC, Option.map_some']
  refine ⟨⟨r, rfl, hnn⟩, _, _, hstep, ?_⟩
  intro i j hi hj
  rw [stepped_layer n _ hi, descend_params, tab_getD _ _ hj, tab_getD _ _ hj, sub_sub_cancel,
    a1, a2, a3]
  exact rmsProp_quotient_bound _ _ lr beta hlr hb0 hb1 (hnn i j)

/-- Instance of C19 (amended): learning rate 1, decay 1/2, a one-cell bias network, after
`Update [[2]]`. -/
theorem rmsProp_step_bounded_witness :
    (∃ r : RMSProp ℝ, Optimizer.rmsProp ⟨1, [[0]], [[2]], 1 / 2, 1 - 1 / 2⟩ = .rmsProp r ∧
      ∀ i j, 0 ≤ cell r.sumSteps i j) ∧
    ∃ o1 n1, Optimizer.Step Real.sqrt (.rmsProp ⟨1, [[0]], [[2]], 1 / 2, 1 - 1 / 2⟩)
        (⟨[.bias ⟨[0]⟩]⟩ : SeqNet ℝ) = some (o1, n1) ∧
      ∀ i j, i < 1 → j < (SeqNet.layer (⟨[.bias ⟨[0]⟩]⟩ : SeqNet ℝ) i).Parameters →
        |(SeqNet.layer (⟨[.bias ⟨[0]⟩]⟩ : SeqNet ℝ) i).params.getD j 0
            - (n1.layer i).params.getD j 0|
          ≤ 1 / Real.sqrt (1 - 1 / 2) :=
  rmsProp_step_bounded ⟨[.bias ⟨[0]⟩]⟩ 1 (1 / 2) (by norm_num) (by norm_num) (by norm_num)
    [.Update [[2]]] (.rmsProp ⟨1, [[0]], [[2]], 1 / 2, 1 - 1 / 2⟩) ⟨[.bias ⟨[0]⟩]⟩ (by
      simp [Optimizer.run, Optimizer.call, Optimizer.Update, RMSProp.Update, newRMSProp,
        forLoop, load2, store2, store, make, Layer.Parameters, Bias.Parameters])

/-! ## Network forward pass -/

theorem forLoop_congr {σ : Type} (n : Nat) (body1 body2 : Nat → σ → Option σ) (s : σ)
    (h : ∀ i, i < n → ∀ t, body1 i t = body2 i t) :
    forLoop n body1 s = forLoop n body2 s := by
  induction n with
  | zero => rfl
  | succ n ih =>
    simp only [forLoop]
    rw [ih (fun i hi => h i (Nat.lt_succ_of_lt hi))]
    cases forLoop n body2 s with
    | none => rfl
    | some t => exact h n (Nat.lt_succ_self n) t

theorem forLoop_eq_foldlM {σ β : Type} (f : σ → β → Option σ) (l : List β) (k : Nat) (s : σ) :
    ∀ pre : List β, pre.length = k →
      forLoop l.length (fun i t => do
        let a ← (pre ++ l)[i + k]?
        f t a) s = l.foldlM f s := by
  induction l using List.reverseRecOn with
  | nil =>
    intro pre _
    rfl
  | append_singleton l a ih =>
    intro pre hpre
    rw [List.foldlM_append, List.length_append, List.length_singleton]
    simp only [forLoop]
    have hbody : ∀ i, i < l.length → ∀ t : σ,
        (do let a ← (pre ++ (l ++ [a]))[i + k]?; f t a)
          = (do let a ← (pre ++ l)[i + k]?; f t a) := by
      intro i hi t
      have h1 : (pre ++ (l ++ [a]))[i + k]? = (pre ++ l)[i + k]? := by
        rw [← List.append_assoc]
        exact List.getElem?_append_left (by simp; omega)
      rw [h1]
    rw [forLoop_congr _ _ _ s hbody, ih pre hpre]
    cases l.foldlM f s with
    | none => rfl
    | some t =>
      have h2 : (pre ++ (l ++ [a]))[l.length + k]? = some a := by
        rw [← List.append_assoc, List.getElem?_append_right (by simp; omega)]
        have h3 : l.length + k - (pre ++ l).length = 0 := by
          simp only [List.length_append, hpre]
          omega
        rw [h3]
        rfl
      simp only [Option.some_bind, Option.bind_eq_bind, h2, List.foldlM_cons, List.foldlM_nil]
      cases f t a <;> rfl

theorem feedForward_eq_foldlM (exp : α → α) (l : Layer α) (ls : List (Layer α))
    (input : List α) :
    FeedForward exp ⟨l :: ls⟩ input
      = (l :: ls).foldlM (fun out layer => layer.FeedForward exp out) input := by
  simp only [FeedForward, List.getElem?_cons_zero, Option.bind_eq_bind, Option.some_bind,
    List.length_cons, Nat.add_sub_cancel, List.foldlM_cons]
  cases l.FeedForward exp input with
  | none => rfl
  | some out =>
    simp only [Option.some_bind]
    have h := forLoop_eq_foldlM (fun out (layer : Layer α) => layer.FeedForward exp out) ls 1
      out [l] rfl
    simp only [Option.bind_eq_bind, List.singleton_append] at h
    exact h

theorem layer_feedForward_ok (exp : α → α) (l : Layer α) (x : List α) (hw : l.WellShaped)
    (hx : x.length = l.inSize) :
    ∃ y, l.FeedForward exp x = some y ∧ y.length = l.outSize := by
  cases l with
  | dense d => exact ⟨_, dense_feedForward_eq d x hw (le_of_eq hx.symm), tab_length _ _⟩
  | bias b => exact ⟨_, bias_feedForward_eq b x (le_of_eq hx.symm), tab_length _ _⟩
  | activation a =>
    exact ⟨_, activation_feedForward_eq exp a x (le_of_eq hx.symm), tab_length _ _⟩

theorem chain_feedForward (exp : α → α) (ls : List (Layer α)) :
    ∀ x : List α, (∀ l ∈ ls, l.WellShaped) → Chained ls →
      (∀ l0, ls.head? = some l0 → x.length = l0.inSize) →
      ∃ y, ls.foldlM (fun out layer => layer.FeedForward exp out) x = some y ∧
        ∀ l, ls.getLast? = some l → y.length = l.outSize := by
  induction ls with
  | nil =>
    intro x _ _ _
    exact ⟨x, rfl, fun l h => by simp at h⟩
  | cons l ls ih =>
    intro x hw hc hx
    obtain ⟨y1, hy1, hlen1⟩ := layer_feedForward_ok exp l x (hw l (List.mem_cons_self l ls))
      (hx l rfl)
    cases ls with
    | nil =>
      refine ⟨y1, by simp [hy1], ?_⟩
      intro l1 h1
      simp only [List.getLast?_singleton, Option.some.injEq] at h1
      rw [← h1]
      exact hlen1
    | cons l1 ls1 =>
      obtain ⟨y, hy, hlen⟩ := ih y1 (fun a ha => hw a (List.mem_cons_of_mem l ha)) hc.2
        (by
          intro l0 h0
          simp only [List.head?_cons, Option.some.injEq] at h0
          rw [← h0, hlen1]
          exact hc.1)
      refine ⟨y, ?_, ?_⟩
      · rw [List.foldlM_cons, hy1]
        exact hy
      · intro a ha
        rw [getLast?_cons_cons] at ha
        exact hlen a ha

theorem head?_eq_layer (l : Layer α) (ls : List (Layer α)) :
    SeqNet.layer ⟨l :: ls⟩ 0 = l := rfl

theorem getLast?_eq_layer (net : SeqNet α) (hne : net.layers ≠ []) :
    net.layers.getLast? = some (net.layer (net.layers.length - 1)) := by
  rw [List.getLast?_eq_getElem?, SeqNet.layer, List.getD_eq_getElem?_getD]
  have hlt : net.layers.length - 1 < net.layers.length :=
    Nat.sub_lt (List.length_pos.mpr hne) Nat.one_pos
  rw [List.getElem?_eq_getElem hlt]
  rfl

/-- C20. On a network without layers `FeedForward` fails.  On a well-shaped network with at
least one layer and an input as long as the first layer's input size, `FeedForward` returns a
result (no index leaves its slice), the result has the output size of the last layer, and it
is the left-to-right composition of the layers' `FeedForward`. -/
theorem network_feedForward_safe (exp : α → α) (net : SeqNet α) (input : List α) :
    (net.layers = [] → FeedForward exp net input = none) ∧
    (net.layers ≠ [] → net.WellShaped → input.length = (net.layer 0).inSize →
      ∃ y, FeedForward exp net input = some y ∧
        y.length = (net.layer (net.layers.length - 1)).outSize ∧
        net.layers.foldlM (fun out layer => layer.FeedForward exp out) input = some y) := by
  constructor
  · intro h
    simp [FeedForward, h]
  · intro hne hw hx
    obtain ⟨layers⟩ := net
    cases layers with
    | nil => exact absurd rfl hne
    | cons l ls =>
      obtain ⟨y, hy, hlen⟩ := chain_feedForward exp (l :: ls) input hw.1 hw.2
        (by
          intro l0 h0
          simp only [List.head?_cons, Option.some.injEq] at h0
          rw [← h0]
          exact hx)
      refine ⟨y, ?_, ?_, hy⟩
      · rw [feedForward_eq_foldlM]
        exact hy
      · exact hlen _ (getLast?_eq_layer ⟨l :: ls⟩ hne)

/-- Instance of C20: a dense layer 2 → 1 with weights `[1, 2]` followed by the bias `[1/2]`,
on the input `[3, 4]`. -/
theorem network_feedForward_safe_witness :
    FeedForward (fun x => x)
        (⟨[.dense (NewDenseRand 2 1 [(1 : ℚ), 2]), .bias ⟨[1 / 2]⟩]⟩ : SeqNet ℚ) [3, 4]
      = some [23 / 2] ∧
    FeedForward (fun x => x) (⟨[]⟩ : SeqNet ℚ) [3, 4] = none ∧
    ∃ y, FeedForward (fun x => x)
        (⟨[.dense (NewDenseRand 2 1 [(1 : ℚ), 2]), .bias ⟨[1 / 2]⟩]⟩ : SeqNet ℚ) [3, 4] = some y ∧
      y.length = (SeqNet.layer
        (⟨[.dense (NewDenseRand 2 1 [(1 : ℚ), 2]), .bias ⟨[1 / 2]⟩]⟩ : SeqNet ℚ) (2 - 1)).outSize ∧
      [Layer.dense (NewDenseRand 2 1 [(1 : ℚ), 2]), .bias ⟨[1 / 2]⟩].foldlM
        (fun out layer => layer.FeedForward (fun x => x) out) [3, 4] = some y :=
  ⟨by simp [FeedForward, Layer.FeedForward, Dense.FeedForward, Bias.FeedForward, forLoop, store,
      make, NewDenseRand]; norm_num,
   (network_feedForward_safe (fun x => x) ⟨[]⟩ [3, 4]).1 rfl,
   (network_feedForward_safe (fun x => x)
      ⟨[.dense (NewDenseRand 2 1 [(1 : ℚ), 2]), .bias ⟨[1 / 2]⟩]⟩ [3, 4]).2
     (by simp)
     ⟨by
        intro l hl
        simp only [List.mem_cons, List.mem_singleton, List.not_mem_nil, or_false] at hl
        rcases hl with rfl | rfl
        · exact (rfl : (2 : Nat) = 2 * 1)
        · trivial,
      ⟨rfl, trivial⟩⟩
     rfl⟩

/-! ## Backpropagation through the network -/

theorem layer_cachedFeedForward_ok (exp : α → α) (l : Layer α) (x : List α)
    (hw : l.WellShaped) (hc : l.CacheFits) (hx : x.length = l.inSize) :
    ∃ l1 y, l.CachedFeedForward exp x = some (l1, y) ∧ y.length = l.outSize ∧
      l1.WellShaped ∧ l1.CacheFits ∧ l1.inSize = l.inSize ∧ l1.outSize = l.outSize := by
  cases l with
  | dense d =>
    have hf := dense_feedForward_eq { d with lastInput := copy d.lastInput x } x hw
      (le_of_eq hx.symm)
    have h : (Layer.dense d).CachedFeedForward exp x
        = some (.dense { d with lastInput := copy d.lastInput x },
            tab d.out (fun o =>
              rowSum { d with lastInput := copy d.lastInput x } x o d.in_)) := by
      simp only [Layer.CachedFeedForward, Dense.CachedFeedForward, hf, Option.map_some']
    refine ⟨_, _, h, tab_length _ _, hw, ?_, rfl, rfl⟩
    simp only [Layer.CacheFits, copy_length]
    exact hc
  | bias b =>
    have h : (Layer.bias b).CachedFeedForward exp x
        = some (.bias b, tab b.connections.length
            (fun i => x.getD i 0 + b.connections.getD i 0)) := by
      simp only [Layer.CachedFeedForward, Bias.CachedFeedForward,
        bias_feedForward_eq b x (le_of_eq hx.symm), Option.map_some']
    exact ⟨_, _, h, tab_length _ _, trivial, trivial, rfl, rfl⟩
  | activation a =>
    have hca : a.cache.length = a.out := hc
    have h : (Layer.activation a).CachedFeedForward exp x
        = some (.activation { a with cache := tab a.cache.length (fun k =>
              if k < a.out then (a.function.dOut exp (x.getD k 0)).2 else a.cache.getD k 0) },
            tab a.out (fun i => a.function.out exp (x.getD i 0))) := by
      simp only [Layer.CachedFeedForward,
        activation_cachedFeedForward_eq exp a x (le_of_eq hx.symm) (le_of_eq hca.symm),
        Option.map_some']
    refine ⟨_, _, h, tab_length _ _, trivial, ?_, rfl, rfl⟩
    simp only [Layer.CacheFits, tab_length]
    exact hca

theorem layer_getStep_ok (l : Layer α) (e : List α) (hw : l.WellShaped) (hc : l.CacheFits)
    (he : e.length = l.outSize) : ∃ s, l.GetStep e = some s := by
  cases l with
  | dense d =>
    exact ⟨_, dense_getStep_eq d e hw (le_of_eq (Eq.symm hc)) (le_of_eq he.symm)⟩
  | bias b => exact ⟨_, rfl⟩
  | activation a => exact ⟨_, rfl⟩

theorem layer_backPropagate_ok (l : Layer α) (e : List α) (hw : l.WellShaped)
    (hc : l.CacheFits) (he : e.length = l.outSize) :
    ∃ p, l.BackPropagate e = some p ∧ p.length = l.inSize := by
  cases l with
  | dense d =>
    exact ⟨_, dense_backPropagate_eq d e hw (le_of_eq he.symm), tab_length _ _⟩
  | bias b =>
    refine ⟨e, ?_, he⟩
    simp only [Layer.BackPropagate, Bias.BackPropagate, copy_make_self]
  | activation a =>
    have hca : a.cache.length = a.out := hc
    exact ⟨_, activation_backPropagate_eq a e (le_of_eq he.symm) (le_of_eq hca.symm),
      tab_length _ _⟩

theorem chained_index (ls : List (Layer α)) :
    Chained ls → ∀ i, i + 1 < ls.length →
      (ls.getD i Layer.nil).outSize = (ls.getD (i + 1) Layer.nil).inSize := by
  induction ls with
  | nil =>
    intro _ i hi
    simp at hi
  | cons l ls ih =>
    intro hc i hi
    cases ls with
    | nil => simp at hi
    | cons l1 ls1 =>
      cases i with
      | zero => exact hc.1
      | succ i =>
        have := ih hc.2 i (by simpa using hi)
        simpa using this

theorem layer_mem (net : SeqNet α) {i : Nat} (hi : i < net.layers.length) :
    net.layer i ∈ net.layers := by
  simp only [SeqNet.layer, List.getD_eq_getElem?_getD, List.getElem?_eq_getElem hi,
    Option.getD_some]
  exact List.getElem_mem hi

theorem fwd_ok (exp : α → α) (net : SeqNet α) (input : List α) (hw : net.WellShaped)
    (hc : ∀ l ∈ net.layers, l.CacheFits) (hx : input.length = (net.layer 0).inSize) :
    ∀ i, i < net.layers.length →
      (fwdOuts exp net input i).length = (net.layer i).inSize ∧
      (net.layer i).CachedFeedForward exp (fwdOuts exp net input i)
        = some (fwdLayer exp net input i, fwdOuts exp net input (i + 1)) ∧
      (fwdOuts exp net input (i + 1)).length = (net.layer i).outSize ∧
      (fwdLayer exp net input i).WellShaped ∧ (fwdLayer exp net input i).CacheFits ∧
      (fwdLayer exp net input i).inSize = (net.layer i).inSize ∧
      (fwdLayer exp net input i).outSize = (net.layer i).outSize := by
  have step : ∀ i, i < net.layers.length →
      (fwdOuts exp net input i).length = (net.layer i).inSize →
      (net.layer i).CachedFeedForward exp (fwdOuts exp net input i)
        = some (fwdLayer exp net input i, fwdOuts exp net input (i + 1)) ∧
      (fwdOuts exp net input (i + 1)).length = (net.layer i).outSize ∧
      (fwdLayer exp net input i).WellShaped ∧ (fwdLayer exp net input i).CacheFits ∧
      (fwdLayer exp net input i).inSize = (net.layer i).inSize ∧
      (fwdLayer exp net input i).outSize = (net.layer i).outSize := by
    intro i hi hlen
    obtain ⟨l1, y, h1, h2, h3, h4, h5, h6⟩ := layer_cachedFeedForward_ok exp (net.layer i)
      (fwdOuts exp net input i) (hw.1 _ (layer_mem net hi)) (hc _ (layer_mem net hi)) hlen
    have e1 : fwdLayer exp net input i = l1 := by
      simp only [fwdLayer, h1, Option.map_some', Option.getD_some]
    have e2 : fwdOuts exp net input (i + 1) = y := by
      simp only [fwdOuts, h1, Option.map_some', Option.getD_some]
    rw [e1, e2]
    exact ⟨h1, h2, h3, h4, h5, h6⟩
  intro i
  induction i with
  | zero =>
    intro hi
    exact ⟨hx, step 0 hi hx⟩
  | succ i ih =>
    intro hi
    have hprev := ih (by omega)
    have hlen : (fwdOuts exp net input (i + 1)).length = (net.layer (i + 1)).inSize := by
      rw [hprev.2.2.1]
      exact chained_index net.layers hw.2 i hi
    exact ⟨hlen, step (i + 1) hi hlen⟩

theorem back_ok (L : Nat → Layer α) (n : Nat) (top : List α)
    (hL : ∀ i, i < n → (L i).WellShaped ∧ (L i).CacheFits)
    (hch : ∀ i, i + 1 < n → (L i).outSize = (L (i + 1)).inSize)
    (htop : top.length = (L (n - 1)).outSize) :
    ∀ k, k < n →
      (backErrs L n top k).length = (L (n - 1 - k)).outSize ∧
      (k + 1 < n → (L (n - 1 - k)).BackPropagate (backErrs L n top k)
        = some (backErrs L n top (k + 1))) := by
  have step : ∀ k, k < n → (backErrs L n top k).length = (L (n - 1 - k)).outSize →
      ∃ p, (L (n - 1 - k)).BackPropagate (backErrs L n top k) = some p ∧
        backErrs L n top (k + 1) = p ∧ p.length = (L (n - 1 - k)).inSize := by
    intro k hk hlen
    obtain ⟨p, hp, hpl⟩ := layer_backPropagate_ok (L (n - 1 - k)) (backErrs L n top k)
      (hL _ (by omega)).1 (hL _ (by omega)).2 hlen
    exact ⟨p, hp, by simp only [backErrs, hp, Option.getD_some], hpl⟩
  intro k
  induction k with
  | zero =>
    intro hk
    refine ⟨htop, ?_⟩
    intro _
    obtain ⟨p, hp, e, _⟩ := step 0 hk htop
    rw [hp, e]
  | succ k ih =>
    intro hk
    have hprev := ih (by omega)
    obtain ⟨p, hp, e, hpl⟩ := step k (by omega) hprev.1
    have hlen : (backErrs L n top (k + 1)).length = (L (n - 1 - (k + 1))).outSize := by
      rw [e, hpl]
      have h1 := hch (n - 1 - (k + 1)) (by omega)
      have h2 : n - 1 - (k + 1) + 1 = n - 1 - k := by omega
      rw [h2] at h1
      exact h1.symm
    refine ⟨hlen, ?_⟩
    intro hk2
    obtain ⟨p2, hp2, e2, _⟩ := step (k + 1) hk hlen
    rw [hp2, e2]

theorem replicate_nil_eq_tab (n : Nat) :
    (List.replicate n ([] : List α)) = tab n (fun _ => []) := by
  apply List.ext_getElem?
  intro k
  rw [tab_getElem?]
  by_cases h : k < n
  · simp [h, List.getElem?_replicate]
  · simp [h, List.getElem?_replicate]

theorem outError_eq (output expected : List α) (h : expected.length ≤ output.length) :
    forLoop expected.length (fun i outError => do
      let o ← output[i]?
      let e ← expected[i]?
      store outError i (o - e)) (make expected.length)
      = some (tab expected.length (fun j => output.getD j 0 - expected.getD j 0)) := by
  obtain ⟨t, ht, hP⟩ := forLoop_inv
    (fun i (outError : List α) => outError = tab expected.length (fun k =>
      if k < i then output.getD k 0 - expected.getD k 0 else 0))
    expected.length
    (fun i outError => do
      let o ← output[i]?
      let e ← expected[i]?
      store outError i (o - e))
    (make expected.length)
    (by simp [make_eq_tab])
    (by
      intro i hi v hv
      have h1 : output[i]? = some (output.getD i 0) :=
        getElem?_eq_getD output 0 (lt_of_lt_of_le hi h)
      have h2 : expected[i]? = some (expected.getD i 0) := getElem?_eq_getD _ 0 hi
      refine ⟨_, ?_, rfl⟩
      simp only [h1, h2, Option.bind_eq_bind, Option.some_bind]
      rw [hv]
      exact store_prefix _ (fun k => output.getD k 0 - expected.getD k 0) hi)
  rw [ht, hP]
  exact congrArg some (tab_congr (fun k hk => if_pos hk))

theorem forward_loop_eq (exp : α → α) (net : SeqNet α) (input : List α)
    (hw : net.WellShaped) (hc : ∀ l ∈ net.layers, l.CacheFits)
    (hx : input.length = (net.layer 0).inSize) :
    forLoop (net.layers.length - 1) (fun k (st : List (Layer α) × List α) => do
      let layer ← st.1[k + 1]?
      let r ← layer.CachedFeedForward exp st.2
      let layers1 ← store st.1 (k + 1) r.1
      pure (layers1, r.2))
      (tab net.layers.length
        (fun a => if a < 1 then fwdLayer exp net input a else net.layer a),
       fwdOuts exp net input 1)
      = some (tab net.layers.length
          (fun a => if a < net.layers.length - 1 + 1 then fwdLayer exp net input a
            else net.layer a),
         fwdOuts exp net input (net.layers.length - 1 + 1)) := by
  obtain ⟨t, ht, hP⟩ := forLoop_inv
    (fun k (st : List (Layer α) × List α) => st =
      (tab net.layers.length
        (fun a => if a < k + 1 then fwdLayer exp net input a else net.layer a),
       fwdOuts exp net input (k + 1)))
    (net.layers.length - 1)
    (fun k (st : List (Layer α) × List α) => do
      let layer ← st.1[k + 1]?
      let r ← layer.CachedFeedForward exp st.2
      let layers1 ← store st.1 (k + 1) r.1
      pure (layers1, r.2))
    (tab net.layers.length
        (fun a => if a < 1 then fwdLayer exp net input a else net.layer a),
       fwdOuts exp net input 1)
    rfl
    (by
      intro k hk st hst
      have hk1 : k + 1 < net.layers.length := by omega
      have h1 : st.1[k + 1]? = some (net.layer (k + 1)) := by
        rw [hst]
        simp only []
        rw [tab_getElem?_lt _ hk1, if_neg (Nat.lt_irrefl _)]
      have h2 : st.2 = fwdOuts exp net input (k + 1) := by rw [hst]
      have h3 := (fwd_ok exp net input hw hc hx (k + 1) hk1).2.1
      have h4 : store st.1 (k + 1) (fwdLayer exp net input (k + 1)) = some
          (tab net.layers.length
            (fun a => if a < k + 1 + 1 then fwdLayer exp net input a else net.layer a)) := by
        rw [hst]
        exact store_layers_sweep net (fwdLayer exp net input) hk1
      refine ⟨_, ?_, rfl⟩
      simp only [h1, h2, h3, h4, Option.bind_eq_bind, Option.some_bind, Option.pure_def])
  simp only [Option.bind_eq_bind, Option.pure_def] at ht ⊢
  rw [ht, hP]

theorem backward_loop_eq (L : Nat → Layer α) (n : Nat) (top : List α)
    (hL : ∀ i, i < n → (L i).WellShaped ∧ (L i).CacheFits)
    (hch : ∀ i, i + 1 < n → (L i).outSize = (L (i + 1)).inSize)
    (htop : top.length = (L (n - 1)).outSize) :
    forLoop (n - 1) (fun k (st : List (List α) × List α) => do
      let i := n - 1 - k
      let layer ← (tab n L)[i]?
      let step ← layer.GetStep st.2
      let steps1 ← store st.1 i step
      let outError1 ← layer.BackPropagate st.2
      pure (steps1, outError1)) (List.replicate n [], top)
      = some (tab n (fun a =>
          if n - 1 - (n - 1) < a
          then ((L a).GetStep (backErrs L n top (n - 1 - a))).getD [] else []),
         backErrs L n top (n - 1)) := by
  obtain ⟨t, ht, hP⟩ := forLoop_inv
    (fun k (st : List (List α) × List α) => st =
      (tab n (fun a =>
        if n - 1 - k < a then ((L a).GetStep (backErrs L n top (n - 1 - a))).getD [] else []),
       backErrs L n top k))
    (n - 1)
    (fun k (st : List (List α) × List α) => do
      let i := n - 1 - k
      let layer ← (tab n L)[i]?
      let step ← layer.GetStep st.2
      let steps1 ← store st.1 i step
      let outError1 ← layer.BackPropagate st.2
      pure (steps1, outError1))
    (List.replicate n [], top)
    (by
      simp only [backErrs, Prod.mk.injEq, and_true, replicate_nil_eq_tab]
      apply tab_congr
      intro a ha
      rw [if_neg (by omega)])
    (by
      intro k hk st hst
      have hi : n - 1 - k < n := by omega
      have hkn : k < n := by omega
      have h1 : (tab n L)[n - 1 - k]? = some (L (n - 1 - k)) := tab_getElem?_lt _ hi
      have h2 : st.2 = backErrs L n top k := by rw [hst]
      obtain ⟨hlen, hbp⟩ := back_ok L n top hL hch htop k hkn
      obtain ⟨s, hs⟩ := layer_getStep_ok (L (n - 1 - k)) (backErrs L n top k)
        (hL _ hi).1 (hL _ hi).2 hlen
      have h5 : n - 1 - (n - 1 - k) = k := by omega
      have h3 : store st.1 (n - 1 - k) s = some (tab n (fun a =>
          if n - 1 - (k + 1) < a
          then ((L a).GetStep (backErrs L n top (n - 1 - a))).getD [] else [])) := by
        rw [hst]
        simp only []
        rw [store_tab _ hi]
        congr 1
        apply tab_congr
        intro a _
        by_cases ha : a = n - 1 - k
        · subst ha
          rw [Function.update_same, if_pos (by omega), h5, hs, Option.getD_some]
        · rw [Function.update_noteq ha]
          have h6 : (n - 1 - k < a) = (n - 1 - (k + 1) < a) := by
            apply propext
            omega
          simp only [h6]
      refine ⟨_, ?_, rfl⟩
      simp only [h1, h2, hs, h3, hbp (by omega), Option.bind_eq_bind, Option.some_bind,
        Option.pure_def])
  simp only [Option.bind_eq_bind, Option.pure_def] at ht ⊢
  rw [ht, hP]

theorem backPropagate_steps_eq (exp : α → α) (net : SeqNet α) (x y : List α)
    (hne : net.layers ≠ []) (hw : net.WellShaped) (hc : ∀ l ∈ net.layers, l.CacheFits)
    (hx : x.length = (net.layer 0).inSize)
    (hy : y.length = (net.layer (net.layers.length - 1)).outSize) :
    BackPropagate.steps exp net x y = some
      ({ layers := tab net.layers.length (fwdLayer exp net x) },
       tab net.layers.length (fun a => ((fwdLayer exp net x a).GetStep
        (backErrs (fwdLayer exp net x) net.layers.length
          (tab y.length (fun j => (fwdOuts exp net x net.layers.length).getD j 0 - y.getD j 0))
          (net.layers.length - 1 - a))).getD [])) := by
  have hn : 0 < net.layers.length := List.length_pos.mpr hne
  have hn1 : net.layers.length - 1 + 1 = net.layers.length := by omega
  have hF := fwd_ok exp net x hw hc hx
  have h0 : net.layers[0]? = some (net.layer 0) := by
    conv_lhs => rw [layers_eq_tab net]
    exact tab_getElem?_lt _ hn
  have h1 : (net.layer 0).CachedFeedForward exp x
      = some (fwdLayer exp net x 0, fwdOuts exp net x 1) := (hF 0 hn).2.1
  have h2 : store net.layers 0 (fwdLayer exp net x 0) = some (tab net.layers.length
      (fun a => if a < 1 then fwdLayer exp net x a else net.layer a)) := by
    have := store_layers_sweep net (fwdLayer exp net x) hn
    simp only [Nat.not_lt_zero, if_false, ← layers_eq_tab] at this
    exact this
  have h3 := forward_loop_eq exp net x hw hc hx
  rw [hn1] at h3
  have h3b : tab net.layers.length
      (fun a => if a < net.layers.length then fwdLayer exp net x a else net.layer a)
      = tab net.layers.length (fwdLayer exp net x) := tab_congr (fun a ha => if_pos ha)
  rw [h3b] at h3
  have hlast := (hF (net.layers.length - 1) (by omega)).2.2
  rw [hn1] at hlast
  have h4 := outError_eq (fwdOuts exp net x net.layers.length) y
    (by rw [hlast.1, hy])
  have hL : ∀ i, i < net.layers.length →
      (fwdLayer exp net x i).WellShaped ∧ (fwdLayer exp net x i).CacheFits :=
    fun i hi => ⟨(hF i hi).2.2.2.1, (hF i hi).2.2.2.2.1⟩
  have hch : ∀ i, i + 1 < net.layers.length →
      (fwdLayer exp net x i).outSize = (fwdLayer exp net x (i + 1)).inSize := by
    intro i hi
    rw [(hF i (by omega)).2.2.2.2.2.2, (hF (i + 1) hi).2.2.2.2.2.1]
    exact chained_index net.layers hw.2 i hi
  have htop : (tab y.length
      (fun j => (fwdOuts exp net x net.layers.length).getD j 0 - y.getD j 0)).length
      = (fwdLayer exp net x (net.layers.length - 1)).outSize := by
    rw [tab_length, hy, hlast.2.2.2.2]
  have h5 := backward_loop_eq (fwdLayer exp net x) net.layers.length _ hL hch htop
  have hB := back_ok (fwdLayer exp net x) net.layers.length _ hL hch htop
    (net.layers.length - 1) (by omega)
  have h6 : (tab net.layers.length (fwdLayer exp net x))[0]?
      = some (fwdLayer exp net x 0) := tab_getElem?_lt _ hn
  obtain ⟨s0, hs0⟩ := layer_getStep_ok (fwdLayer exp net x 0) _ (hL 0 hn).1 (hL 0 hn).2
    (by
      have := hB.1
      rw [Nat.sub_self] at this
      exact this)
  have h7 : store (tab net.layers.length (fun a =>
        if net.layers.length - 1 - (net.layers.length - 1) < a
        then ((fwdLayer exp net x a).GetStep
          (backErrs (fwdLayer exp net x) net.layers.length
            (tab y.length
              (fun j => (fwdOuts exp net x net.layers.length).getD j 0 - y.getD j 0))
            (net.layers.length - 1 - a))).getD [] else [])) 0 s0
      = some (tab net.layers.length (fun a => ((fwdLayer exp net x a).GetStep
        (backErrs (fwdLayer exp net x) net.layers.length
          (tab y.length (fun j => (fwdOuts exp net x net.layers.length).getD j 0 - y.getD j 0))
          (net.layers.length - 1 - a))).getD [])) := by
    rw [store_tab _ hn]
    congr 1
    apply tab_congr
    intro a _
    by_cases ha : a = 0
    · subst ha
      rw [Function.update_same, Nat.sub_zero, hs0, Option.getD_some]
    · rw [Function.update_noteq ha, if_pos (by omega)]
  unfold BackPropagate.steps
  simp only [Option.bind_eq_bind, Option.pure_def] at h3 h4 h5 ⊢
  simp only [h0, Option.some_bind, h1, h2, h3, h4, h5, h6, hs0, h7]

/-- C11. A network with at least one layer, well shaped, with caches as the constructors
allocate them, an input as long as the first layer's input size and an expected output as
long as the last layer's output size.  `BackPropagate` succeeds in computing `steps`, hands
exactly `steps` to `Update`, and with `outs` the chain of `CachedFeedForward` results
(`outs 0 = x`) and `net1` the network with the caches filled: the error of the last layer is
`outs n - y` cell by cell, `steps[i]` is `GetStep` of layer `i` on `errs i` for every `i`, and
`errs (i - 1)` is `BackPropagate` of layer `i` on `errs i` for every `i ≥ 1`. -/
theorem backPropagate_gradients (exp : α → α) (net : SeqNet α) (optimizer : Optimizer α)
    (x y : List α) (hne : net.layers ≠ []) (hw : net.WellShaped)
    (hc : ∀ l ∈ net.layers, l.CacheFits) (hx : x.length = (net.layer 0).inSize)
    (hy : y.length = (net.layer (net.layers.length - 1)).outSize) :
    ∃ (net1 : SeqNet α) (steps : List (List α)) (outs errs : Nat → List α),
      BackPropagate.steps exp net x y = some (net1, steps) ∧
      BackPropagate exp net optimizer x y
        = (optimizer.Update steps).map (fun o => (net1, o)) ∧
      net1.layers.length = net.layers.length ∧ steps.length = net.layers.length ∧
      outs 0 = x ∧
      (∀ i, i < net.layers.length →
        (net.layer i).CachedFeedForward exp (outs i) = some (net1.layer i, outs (i + 1))) ∧
      (errs (net.layers.length - 1)).length = y.length ∧
      (∀ j, j < y.length → (errs (net.layers.length - 1))[j]?
        = some ((outs net.layers.length).getD j 0 - y.getD j 0)) ∧
      (∀ i, i < net.layers.length →
        ∃ s, steps[i]? = some s ∧ (net1.layer i).GetStep (errs i) = some s) ∧
      (∀ i, 0 < i → i < net.layers.length →
        (net1.layer i).BackPropagate (errs i) = some (errs (i - 1))) := by
  have hn : 0 < net.layers.length := List.length_pos.mpr hne
  have hn1 : net.layers.length - 1 + 1 = net.layers.length := by omega
  have hF := fwd_ok exp net x hw hc hx
  have hS := backPropagate_steps_eq exp net x y hne hw hc hx hy
  have hL : ∀ i, i < net.layers.length →
      (fwdLayer exp net x i).WellShaped ∧ (fwdLayer exp net x i).CacheFits :=
    fun i hi => ⟨(hF i hi).2.2.2.1, (hF i hi).2.2.2.2.1⟩
  have hch : ∀ i, i + 1 < net.layers.length →
      (fwdLayer exp net x i).outSize = (fwdLayer exp net x (i + 1)).inSize := by
    intro i hi
    rw [(hF i (by omega)).2.2.2.2.2.2, (hF (i + 1) hi).2.2.2.2.2.1]
    exact chained_index net.layers hw.2 i hi
  have hlast := (hF (net.layers.length - 1) (by omega)).2.2
  rw [hn1] at hlast
  have htop : (tab y.length
      (fun j => (fwdOuts exp net x net.layers.length).getD j 0 - y.getD j 0)).length
      = (fwdLayer exp net x (net.layers.length - 1)).outSize := by
    rw [tab_length, hy, hlast.2.2.2.2]
  have hB := back_ok (fwdLayer exp net x) net.layers.length _ hL hch htop
  refine ⟨_, _, fwdOuts exp net x,
    fun i => backErrs (fwdLayer exp net x) net.layers.length
      (tab y.length (fun j => (fwdOuts exp net x net.layers.length).getD j 0 - y.getD j 0))
      (net.layers.length - 1 - i),
    hS, ?_, tab_length _ _, tab_length _ _, rfl, ?_, ?_, ?_, ?_, ?_⟩
  · simp only [BackPropagate, hS, Option.bind_eq_bind, Option.some_bind, Option.pure_def]
    cases optimizer.Update _ <;> rfl
  · intro i hi
    rw [stepped_layer net _ hi]
    exact (hF i hi).2.1
  · simp only [Nat.sub_self, backErrs, tab_length]
  · intro j hj
    simp only [Nat.sub_self, backErrs]
    rw [tab_getElem?_lt _ hj]
  · intro i hi
    have hk : net.layers.length - 1 - (net.layers.length - 1 - i) = i := by omega
    have hlen := (hB (net.layers.length - 1 - i) (by omega)).1
    rw [hk] at hlen
    obtain ⟨s, hs⟩ := layer_getStep_ok (fwdLayer exp net x i) _ (hL i hi).1 (hL i hi).2 hlen
    refine ⟨s, ?_, ?_⟩
    · rw [tab_getElem?_lt _ hi, hs, Option.getD_some]
    · rw [stepped_layer net _ hi]
      exact hs
  · intro i hi0 hi
    have hk : net.layers.length - 1 - (net.layers.length - 1 - i) = i := by omega
    have hk2 : net.layers.length - 1 - i + 1 = net.layers.length - 1 - (i - 1) := by omega
    have hbp := (hB (net.layers.length - 1 - i) (by omega)).2 (by omega)
    rw [hk, hk2] at hbp
    rw [stepped_layer net _ hi]
    exact hbp

/-- Instance of C11: layers `Dense(2 → 1, W = [1, 2])` and `Bias [1/2]`, input `[3, 4]`,
expected output `[10]`: the gradients handed to `Update` are `[[9/2, 6], [3/2]]`. -/
theorem backPropagate_gradients_witness :
    BackPropagate.steps (fun x => x)
        (⟨[.dense (NewDenseRand 2 1 [(1 : ℚ), 2]), .bias ⟨[1 / 2]⟩]⟩ : SeqNet ℚ) [3, 4] [10]
      = some (⟨[.dense { NewDenseRand 2 1 [(1 : ℚ), 2] with lastInput := [3, 4] },
                .bias ⟨[1 / 2]⟩]⟩, [[9 / 2, 6], [3 / 2]]) ∧
    ∃ (net1 : SeqNet ℚ) (steps : List (List ℚ)) (outs errs : Nat → List ℚ),
      BackPropagate.steps (fun x => x)
        (⟨[.dense (NewDenseRand 2 1 [(1 : ℚ), 2]), .bias ⟨[1 / 2]⟩]⟩ : SeqNet ℚ) [3, 4] [10]
        = some (net1, steps) ∧
      BackPropagate (fun x => x)
        (⟨[.dense (NewDenseRand 2 1 [(1 : ℚ), 2]), .bias ⟨[1 / 2]⟩]⟩ : SeqNet ℚ)
        (.sgd (NewSGD ⟨[.dense (NewDenseRand 2 1 [(1 : ℚ), 2]), .bias ⟨[1 / 2]⟩]⟩ 1))
        [3, 4] [10]
        = ((Optimizer.sgd (NewSGD
            (⟨[.dense (NewDenseRand 2 1 [(1 : ℚ), 2]), .bias ⟨[1 / 2]⟩]⟩ : SeqNet ℚ) 1)).Update
              steps).map (fun o => (net1, o)) ∧
      net1.layers.length = 2 ∧ steps.length = 2 ∧
      outs 0 = [3, 4] ∧
      (∀ i, i < 2 →
        (SeqNet.layer (⟨[.dense (NewDenseRand 2 1 [(1 : ℚ), 2]), .bias ⟨[1 / 2]⟩]⟩ : SeqNet ℚ)
          i).CachedFeedForward (fun x => x) (outs i) = some (net1.layer i, outs (i + 1))) ∧
      (errs (2 - 1)).length = 1 ∧
      (∀ j, j < 1 → (errs (2 - 1))[j]? = some ((outs 2).getD j 0 - [(10 : ℚ)].getD j 0)) ∧
      (∀ i, i < 2 → ∃ s, steps[i]? = some s ∧ (net1.layer i).GetStep (errs i) = some s) ∧
      (∀ i, 0 < i → i < 2 → (net1.layer i).BackPropagate (errs i) = some (errs (i - 1))) :=
  ⟨by
    simp [BackPropagate.steps, Layer.CachedFeedForward, Dense.CachedFeedForward,
      Bias.CachedFeedForward, Dense.FeedForward, Bias.FeedForward, Layer.GetStep, Dense.GetStep,
      Bias.GetStep, Layer.BackPropagate, Bias.BackPropagate, forLoop, store, make, copy,
      NewDenseRand]
    norm_num,
   backPropagate_gradients (fun x => x)
    ⟨[.dense (NewDenseRand 2 1 [(1 : ℚ), 2]), .bias ⟨[1 / 2]⟩]⟩
    (.sgd (NewSGD ⟨[.dense (NewDenseRand 2 1 [(1 : ℚ), 2]), .bias ⟨[1 / 2]⟩]⟩ 1)) [3, 4] [10]
    (by simp)
    ⟨by
      intro l hl
      simp only [List.mem_cons, List.mem_singleton, List.not_mem_nil, or_false] at hl
      rcases hl with rfl | rfl
      · exact (rfl : (2 : Nat) = 2 * 1)
      · trivial,
     ⟨rfl, trivial⟩⟩
    (by
      intro l hl
      simp only [List.mem_cons, List.mem_singleton, List.not_mem_nil, or_false] at hl
      rcases hl with rfl | rfl
      · exact (rfl : (2 : Nat) = 2)
      · trivial)
    rfl rfl⟩

/-! ## Steps that subtract zero, in any number system -/

theorem cell_mem_or_zero {α : Type} [Zero α] (m : List (List α)) (i j : Nat) :
    cell m i j = 0 ∨ ∃ row ∈ m, cell m i j ∈ row := by
  unfold cell
  by_cases hi : i < m.length
  · by_cases hj : j < (m.getD i []).length
    · right
      refine ⟨m.getD i [], ?_, ?_⟩
      · rw [List.getD_eq_getElem _ _ hi]
        exact List.getElem_mem hi
      · rw [List.getD_eq_getElem _ _ hj]
        exact List.getElem_mem hj
    · left
      exact getD_eq_zero_of_le _ (not_lt.mp hj)
  · left
    have : m.getD i [] = [] := by
      simp only [List.getD_eq_getElem?_getD]
      rw [List.getElem?_eq_none (not_lt.mp hi)]
      rfl
    rw [this]
    rfl

theorem descend_zero_of {α : Type} [Zero α] [Sub α] (hsub : ∀ x : α, x - 0 = x)
    (l : Layer α) (step : List α) (h : ∀ k, step.getD k 0 = 0) : l.descend step = l := by
  have : tab l.Parameters (fun k => l.params.getD k 0 - step.getD k 0) = l.params := by
    have hp : l.Parameters = l.params.length := by
      cases l <;> rfl
    conv_rhs => rw [eq_tab_getD l.params 0]
    rw [hp]
    apply tab_congr
    intro k _
    rw [h k, hsub]
  rw [Layer.descend, this, withParams_params]

theorem stepped_zero_of {α : Type} [Zero α] [Sub α] (hsub : ∀ x : α, x - 0 = x)
    (net : SeqNet α) (step : Nat → List α) (h : ∀ i k, (step i).getD k 0 = 0) :
    ({ layers := tab net.layers.length (fun i => (net.layer i).descend (step i)) } : SeqNet α)
      = net := by
  have : tab net.layers.length (fun i => (net.layer i).descend (step i)) = net.layers := by
    conv_rhs => rw [layers_eq_tab net]
    exact tab_congr (fun i _ => descend_zero_of hsub _ _ (h i))
  rw [this]


/-! ## Rounding to binary64 -/

theorem leadingBitLoop_spec (fuel : Nat) : ∀ n, 0 < n → n ≤ fuel →
    2 ^ leadingBitLoop fuel n ≤ n ∧ n < 2 ^ (leadingBitLoop fuel n + 1) := by
  induction fuel with
  | zero =>
    intro n h0 h1
    omega
  | succ f ih =>
    intro n h0 h1
    unfold leadingBitLoop
    by_cases h2 : 2 ≤ n
    · rw [if_pos h2]
      obtain ⟨a, b⟩ := ih (n / 2) (Nat.div_pos h2 (by norm_num)) (by omega)
      constructor
      · rw [pow_succ]
        have := Nat.div_mul_le_self n 2
        nlinarith
      · rw [pow_succ]
        have := Nat.lt_div_mul_add (a := n) (b := 2) (by norm_num)
        omega
    · rw [if_neg h2]
      have : n = 1 := by omega
      subst this
      norm_num

theorem leadingBit_spec {n : Nat} (h : 0 < n) :
    2 ^ leadingBit n ≤ n ∧ n < 2 ^ (leadingBit n + 1) :=
  leadingBitLoop_spec n n h (le_refl n)

theorem abs_eq_natAbs_div_den (x : ℚ) : |x| = (x.num.natAbs : ℚ) / (x.den : ℚ) := by
  have h1 : ((x.num.natAbs : ℕ) : ℚ) = |(x.num : ℚ)| := by
    rw [← Int.cast_abs, Int.abs_eq_natAbs, Int.cast_natCast]
  rw [h1]
  conv_lhs => rw [← Rat.num_div_den x]
  rw [abs_div, Nat.abs_cast]

theorem ilog2_spec {x : ℚ} (hx : x ≠ 0) :
    (2 : ℚ) ^ ilog2 x ≤ |x| ∧ |x| < (2 : ℚ) ^ (ilog2 x + 1) := by
  have hn : 0 < x.num.natAbs := Int.natAbs_pos.mpr (Rat.num_ne_zero.mpr hx)
  have hd : 0 < x.den := x.den_pos
  obtain ⟨a1, a2⟩ := leadingBit_spec hn
  obtain ⟨b1, b2⟩ := leadingBit_spec hd
  have a1q : (2 : ℚ) ^ leadingBit x.num.natAbs ≤ (x.num.natAbs : ℚ) := by exact_mod_cast a1
  have a2q : (x.num.natAbs : ℚ) < (2 : ℚ) ^ (leadingBit x.num.natAbs + 1) := by exact_mod_cast a2
  have b1q : (2 : ℚ) ^ leadingBit x.den ≤ (x.den : ℚ) := by exact_mod_cast b1
  have b2q : (x.den : ℚ) < (2 : ℚ) ^ (leadingBit x.den + 1) := by exact_mod_cast b2
  have hdq : (0 : ℚ) < x.den := by exact_mod_cast hd
  have h2 : (2 : ℚ) ≠ 0 := by norm_num
  have hpa : (0 : ℚ) < 2 ^ leadingBit x.num.natAbs := by positivity
  have hpb : (0 : ℚ) < 2 ^ leadingBit x.den := by positivity
  have habs := abs_eq_natAbs_div_den x
  have hk : (2 : ℚ) ^ ((leadingBit x.num.natAbs : ℤ) - (leadingBit x.den : ℤ))
      = 2 ^ leadingBit x.num.natAbs / 2 ^ leadingBit x.den := by
    rw [zpow_sub₀ h2, zpow_natCast, zpow_natCast]
  unfold ilog2
  split
  · rename_i hle
    refine ⟨hle, ?_⟩
    rw [zpow_add₀ h2, hk, habs, zpow_one, div_mul_eq_mul_div, div_lt_div_iff₀ hdq hpb]
    rw [pow_succ] at a2q
    nlinarith
  · refine ⟨?_, ?_⟩
    · rw [zpow_sub₀ h2, hk, habs, zpow_one, div_div, div_le_div_iff₀ (by positivity) hdq]
      rw [pow_succ] at b2q
      nlinarith
    · rename_i hle
      rw [sub_add_cancel]
      exact not_le.mp hle

theorem ilog2_unique {x : ℚ} {k : ℤ} (h1 : (2 : ℚ) ^ k ≤ |x|) (h2 : |x| < (2 : ℚ) ^ (k + 1)) :
    ilog2 x = k := by
  have hx : x ≠ 0 := by
    intro h
    rw [h, abs_zero] at h1
    exact absurd h1 (not_le.mpr (by positivity))
  obtain ⟨s1, s2⟩ := ilog2_spec hx
  have two : (1 : ℚ) < 2 := by norm_num
  have e1 : k < ilog2 x + 1 := (zpow_lt_zpow_iff_right₀ two).mp (lt_of_le_of_lt h1 s2)
  have e2 : ilog2 x < k + 1 := (zpow_lt_zpow_iff_right₀ two).mp (lt_of_le_of_lt s1 h2)
  omega

theorem roundHalfEven_intCast (z : ℤ) : roundHalfEven (z : ℚ) = z := by
  unfold roundHalfEven
  rw [Int.floor_intCast, sub_self, if_pos (by norm_num)]

theorem le_roundHalfEven {a : ℤ} {t : ℚ} (h : (a : ℚ) ≤ t) : a ≤ roundHalfEven t := by
  have h1 : a ≤ ⌊t⌋ := Int.le_floor.mpr h
  unfold roundHalfEven
  split
  · exact h1
  · split
    · omega
    · split <;> omega

theorem roundHalfEven_le {b : ℤ} {t : ℚ} (h : t ≤ (b : ℚ)) : roundHalfEven t ≤ b := by
  have h1 : ⌊t⌋ ≤ b := Int.floor_le_floor h |>.trans (le_of_eq (Int.floor_intCast b))
  have h2 : ¬ (t - ⌊t⌋ < 1 / 2) → ⌊t⌋ + 1 ≤ b := by
    intro hf
    have h3 : (⌊t⌋ : ℚ) < t := by linarith
    have h4 : (⌊t⌋ : ℚ) < (b : ℚ) := lt_of_lt_of_le h3 h
    have h5 : ⌊t⌋ < b := by exact_mod_cast h4
    omega
  unfold roundHalfEven
  split
  · exact h1
  · rename_i hf
    have := h2 hf
    split
    · exact this
    · split
      · exact h1
      · exact this

theorem ulp_pos (x : ℚ) : 0 < ulp x := by
  unfold ulp
  positivity

theorem ulp_eq (x : ℚ) : ulp x = 2 ^ (max (ilog2 x) (-1022) - 52) := rfl

/-- The rounded value before the overflow test. -/
theorem round_eq (x : ℚ) :
    Ext.round x = .posInf ∨ Ext.round x = .negInf ∨
      (Ext.round x = .fin ((roundHalfEven (x / ulp x) : ℚ) * ulp x)
        ∧ (roundHalfEven (x / ulp x) : ℚ) * ulp x < 2 ^ 1024
        ∧ -2 ^ 1024 < (roundHalfEven (x / ulp x) : ℚ) * ulp x) := by
  unfold Ext.round
  split
  · exact Or.inl rfl
  · split
    · exact Or.inr (Or.inl rfl)
    · rename_i h1 h2
      exact Or.inr (Or.inr ⟨rfl, not_le.mp h1, not_le.mp h2⟩)

theorem round_of_intMul {y : ℚ} (z : ℤ) (hz : y / ulp y = z) (h1 : y < 2 ^ 1024)
    (h2 : -2 ^ 1024 < y) : Ext.round y = .fin y := by
  have hy : (roundHalfEven (y / ulp y) : ℚ) * ulp y = y := by
    rw [hz, roundHalfEven_intCast, ← hz, div_mul_cancel₀ _ (ne_of_gt (ulp_pos y))]
  unfold Ext.round
  rw [hy, if_neg (not_le.mpr h1), if_neg (not_le.mpr h2)]

theorem round_zero : Ext.round 0 = .fin 0 :=
  round_of_intMul 0 (by simp) (by positivity) (by norm_num)

theorem abs_div_ulp_lt {x : ℚ} (hx : x ≠ 0) : |x / ulp x| < 2 ^ 53 := by
  obtain ⟨_, s2⟩ := ilog2_spec hx
  have h2 : (2 : ℚ) ≠ 0 := by norm_num
  rw [abs_div, abs_of_pos (ulp_pos x), div_lt_iff₀ (ulp_pos x), ulp_eq]
  have e : (2 : ℚ) ^ 53 * 2 ^ (max (ilog2 x) (-1022) - 52) = 2 ^ (max (ilog2 x) (-1022) + 1) := by
    rw [← zpow_natCast, ← zpow_add₀ h2]
    congr 1
    push_cast
    ring
  rw [e]
  refine lt_of_lt_of_le s2 ?_
  apply zpow_le_zpow_right₀ (by norm_num)
  have := le_max_left (ilog2 x) (-1022)
  omega

theorem roundHalfEven_zero : roundHalfEven 0 = 0 := by
  have := roundHalfEven_intCast 0
  simpa using this

theorem abs_roundHalfEven_le (x : ℚ) : |roundHalfEven (x / ulp x)| ≤ 2 ^ 53 := by
  by_cases hx : x = 0
  · rw [hx, zero_div, roundHalfEven_zero]
    norm_num
  · have h := abs_div_ulp_lt hx
    rw [abs_lt] at h
    rw [abs_le]
    constructor
    · apply le_roundHalfEven
      push_cast
      linarith [h.1]
    · apply roundHalfEven_le
      push_cast
      linarith [h.2]

theorem max_exp_ge (x : ℚ) : -1022 ≤ max (ilog2 x) (-1022) := le_max_right _ _

/-- A multiple `m * 2 ^ (e - 52)` with `|m| ≤ 2 ^ 53` and `e ≥ -1022` is a multiple of its own
spacing. -/
theorem intMul_of_bounded (m : ℤ) (e : ℤ) (he : -1022 ≤ e) (hm : |m| ≤ 2 ^ 53) :
    ∃ z : ℤ, ((m : ℚ) * 2 ^ (e - 52)) / ulp ((m : ℚ) * 2 ^ (e - 52)) = z := by
  have h2 : (2 : ℚ) ≠ 0 := by norm_num
  have two : (1 : ℚ) < 2 := by norm_num
  by_cases hm0 : m = 0
  · exact ⟨0, by simp [hm0]⟩
  have hu : (0 : ℚ) < 2 ^ (e - 52) := by positivity
  have hy0 : (m : ℚ) * 2 ^ (e - 52) ≠ 0 :=
    mul_ne_zero (by exact_mod_cast hm0) (ne_of_gt hu)
  have habs : |(m : ℚ) * 2 ^ (e - 52)| = |(m : ℚ)| * 2 ^ (e - 52) := by
    rw [abs_mul, abs_of_pos hu]
  have hmq : |(m : ℚ)| ≤ 2 ^ 53 := by
    have : ((|m| : ℤ) : ℚ) ≤ ((2 ^ 53 : ℤ) : ℚ) := by exact_mod_cast hm
    simpa using this
  have e53 : (2 : ℚ) ^ 53 * 2 ^ (e - 52) = 2 ^ (e + 1) := by
    rw [← zpow_natCast, ← zpow_add₀ h2]
    congr 1
    push_cast
    ring
  obtain ⟨s1, s2⟩ := ilog2_spec hy0
  by_cases htop : |m| = 2 ^ 53
  · -- the value is a power of two, one binade up
    have htopq : |(m : ℚ)| = 2 ^ 53 := by
      have : ((|m| : ℤ) : ℚ) = ((2 ^ 53 : ℤ) : ℚ) := by exact_mod_cast htop
      simpa using this
    have hval : |(m : ℚ) * 2 ^ (e - 52)| = 2 ^ (e + 1) := by rw [habs, htopq, e53]
    have hlog : ilog2 ((m : ℚ) * 2 ^ (e - 52)) = e + 1 := by
      apply ilog2_unique
      · rw [hval]
      · rw [hval]
        exact zpow_lt_zpow_right₀ two (by omega)
    have hulp : ulp ((m : ℚ) * 2 ^ (e - 52)) = 2 * 2 ^ (e - 52) := by
      rw [ulp_eq, hlog, max_eq_left (by omega)]
      have : e + 1 - 52 = 1 + (e - 52) := by ring
      rw [this, zpow_add₀ h2, zpow_one]
    rcases abs_eq (by positivity : (0 : ℤ) ≤ 2 ^ 53) |>.mp htop with hm1 | hm1
    · refine ⟨2 ^ 52, ?_⟩
      rw [hulp, hm1]
      push_cast
      field_simp
      ring
    · refine ⟨-2 ^ 52, ?_⟩
      rw [hulp, hm1]
      push_cast
      field_simp
      ring
  · have hlt : |m| < 2 ^ 53 := lt_of_le_of_ne hm htop
    have hltq : |(m : ℚ)| < 2 ^ 53 := by
      have : ((|m| : ℤ) : ℚ) < ((2 ^ 53 : ℤ) : ℚ) := by exact_mod_cast hlt
      simpa using this
    have hval : |(m : ℚ) * 2 ^ (e - 52)| < 2 ^ (e + 1) := by
      rw [habs, ← e53]
      exact mul_lt_mul_of_pos_right hltq hu
    have hlog : ilog2 ((m : ℚ) * 2 ^ (e - 52)) < e + 1 :=
      (zpow_lt_zpow_iff_right₀ two).mp (lt_of_le_of_lt s1 hval)
    have hle : max (ilog2 ((m : ℚ) * 2 ^ (e - 52))) (-1022) ≤ e := max_le (by omega) he
    obtain ⟨n, hn⟩ := Int.eq_ofNat_of_zero_le (sub_nonneg.mpr hle)
    refine ⟨m * 2 ^ n, ?_⟩
    rw [ulp_eq, mul_div_assoc, ← zpow_sub₀ h2]
    have : e - 52 - (max (ilog2 ((m : ℚ) * 2 ^ (e - 52))) (-1022) - 52) = (n : ℤ) := by
      rw [← hn]
      ring
    rw [this, zpow_natCast]
    push_cast
    rfl

theorem round_idem {x y : ℚ} (h : Ext.round x = .fin y) : Ext.round y = .fin y := by
  rcases round_eq x with h1 | h1 | ⟨h1, h2, h3⟩
  · rw [h1] at h
    cases h
  · rw [h1] at h
    cases h
  · rw [h1] at h
    have h := Ext.fin.inj h
    subst h
    obtain ⟨z, hz⟩ := intMul_of_bounded (roundHalfEven (x / ulp x)) (max (ilog2 x) (-1022))
      (max_exp_ge x) (abs_roundHalfEven_le x)
    rw [← ulp_eq x] at hz
    exact round_of_intMul z hz h2 h3

theorem round_nonneg {x : ℚ} (hx : 0 ≤ x) :
    Ext.round x = .posInf ∨ ∃ y, 0 ≤ y ∧ Ext.round x = .fin y := by
  have hm : (0 : ℤ) ≤ roundHalfEven (x / ulp x) :=
    le_roundHalfEven (by
      push_cast
      exact div_nonneg hx (le_of_lt (ulp_pos x)))
  have hr : (0 : ℚ) ≤ (roundHalfEven (x / ulp x) : ℚ) * ulp x :=
    mul_nonneg (by exact_mod_cast hm) (le_of_lt (ulp_pos x))
  rcases round_eq x with h1 | h1 | ⟨h1, _, _⟩
  · exact Or.inl h1
  · exfalso
    unfold Ext.round at h1
    split at h1
    · cases h1
    · split at h1
      · rename_i h2
        linarith [show (0 : ℚ) < 2 ^ 1024 by positivity]
      · cases h1
  · exact Or.inr ⟨_, hr, h1⟩

theorem ulp_le_abs {x : ℚ} (hx : 2 ^ (-1074 : ℤ) ≤ |x|) : ulp x ≤ |x| := by
  have hx0 : x ≠ 0 := by
    intro h
    rw [h, abs_zero] at hx
    exact absurd hx (not_le.mpr (by positivity))
  obtain ⟨s1, _⟩ := ilog2_spec hx0
  rw [ulp_eq]
  rcases le_total (ilog2 x) (-1022) with h | h
  · rw [max_eq_right h]
    exact hx
  · rw [max_eq_left h]
    refine le_trans ?_ s1
    exact zpow_le_zpow_right₀ (by norm_num) (by omega)

theorem round_pos {x : ℚ} (hx : 2 ^ (-1074 : ℤ) ≤ x) :
    Ext.round x = .posInf ∨ ∃ y, 0 < y ∧ Ext.round x = .fin y := by
  have hx0 : 0 < x := lt_of_lt_of_le (by positivity) hx
  have hu : ulp x ≤ x := by
    have := ulp_le_abs (x := x) (by rwa [abs_of_pos hx0])
    rwa [abs_of_pos hx0] at this
  have hm : (1 : ℤ) ≤ roundHalfEven (x / ulp x) :=
    le_roundHalfEven (by
      push_cast
      rw [le_div_iff₀ (ulp_pos x)]
      linarith)
  have hr : (0 : ℚ) < (roundHalfEven (x / ulp x) : ℚ) * ulp x :=
    mul_pos (by exact_mod_cast hm) (ulp_pos x)
  rcases round_nonneg (le_of_lt hx0) with h1 | ⟨y, _, h1⟩
  · exact Or.inl h1
  · rcases round_eq x with h2 | h2 | ⟨h2, _, _⟩
    · exact Or.inl h2
    · rw [h2] at h1
      cases h1
    · refine Or.inr ⟨_, hr, h2⟩

theorem round_small {x : ℚ} (hx : |x| ≤ 1) : ∃ y, Ext.round x = .fin y := by
  by_cases hx0 : x = 0
  · exact ⟨0, hx0 ▸ round_zero⟩
  have h2 : (2 : ℚ) ≠ 0 := by norm_num
  obtain ⟨s1, _⟩ := ilog2_spec hx0
  have hlog : ilog2 x < 1 := by
    apply (zpow_lt_zpow_iff_right₀ (by norm_num : (1 : ℚ) < 2)).mp
    refine lt_of_le_of_lt (le_trans s1 hx) ?_
    norm_num
  have he : max (ilog2 x) (-1022) ≤ 0 := max_le (by omega) (by norm_num)
  have hm := abs_roundHalfEven_le x
  have hmq : |(roundHalfEven (x / ulp x) : ℚ)| ≤ 2 ^ 53 := by
    have : ((|roundHalfEven (x / ulp x)| : ℤ) : ℚ) ≤ ((2 ^ 53 : ℤ) : ℚ) := by exact_mod_cast hm
    simpa using this
  have hu : ulp x ≤ 2 ^ (-52 : ℤ) := by
    rw [ulp_eq]
    exact zpow_le_zpow_right₀ (by norm_num) (by omega)
  have hr : |(roundHalfEven (x / ulp x) : ℚ) * ulp x| ≤ 2 := by
    rw [abs_mul, abs_of_pos (ulp_pos x)]
    calc |(roundHalfEven (x / ulp x) : ℚ)| * ulp x ≤ 2 ^ 53 * 2 ^ (-52 : ℤ) :=
          mul_le_mul hmq hu (le_of_lt (ulp_pos x)) (by positivity)
      _ = 2 := by norm_num
  rw [abs_le] at hr
  rcases round_eq x with h1 | h1 | ⟨h1, _, _⟩
  · exfalso
    unfold Ext.round at h1
    split at h1
    · rename_i h3
      linarith [hr.2, show (2 : ℚ) < 2 ^ 1024 by norm_num]
    · split at h1 <;> cases h1
  · exfalso
    unfold Ext.round at h1
    split at h1
    · cases h1
    · split at h1
      · rename_i h3
        linarith [hr.1, show (2 : ℚ) < 2 ^ 1024 by norm_num]
      · cases h1
  · exact ⟨_, h1⟩

/-! ### The square root -/

theorem isqrtLoop_spec (n : Nat) : ∀ b r, r * r ≤ n → n < (r + 2 ^ b) * (r + 2 ^ b) →
    isqrtLoop n b r * isqrtLoop n b r ≤ n
      ∧ n < (isqrtLoop n b r + 1) * (isqrtLoop n b r + 1) := by
  intro b
  induction b with
  | zero =>
    intro r h1 h2
    simpa [isqrtLoop] using ⟨h1, h2⟩
  | succ b ih =>
    intro r h1 h2
    unfold isqrtLoop
    split
    · rename_i h3
      apply ih _ h3
      have : r + 2 ^ b + 2 ^ b = r + 2 ^ (b + 1) := by
        rw [pow_succ]
        ring
      rw [this]
      exact h2
    · rename_i h3
      exact ih _ h1 (not_le.mp h3)

/-- The function `isqrt` is the integer square root. -/
theorem isqrt_spec (n : Nat) : isqrt n * isqrt n ≤ n ∧ n < (isqrt n + 1) * (isqrt n + 1) := by
  unfold isqrt
  apply isqrtLoop_spec
  · exact Nat.zero_le n
  · rw [Nat.zero_add, ← pow_add]
    by_cases hn : n = 0
    · rw [hn]
      positivity
    · have h := (leadingBit_spec (Nat.pos_of_ne_zero hn)).2
      refine lt_of_lt_of_le h ?_
      apply Nat.pow_le_pow_right (by norm_num)
      omega

/-- What `sqrtSticky` returns: with `k = 56 - ilog2 x / 2` and `r` the integer square root of
`⌊x * 4 ^ k⌋`, the root of `x ≥ 0` lies in `[r / 2 ^ k, (r + 1) / 2 ^ k)`; `sqrtSticky x` is
the lower end when that is the root, and the midpoint of the range otherwise. -/
theorem sqrtSticky_bracket {x : ℚ} (hx : 0 ≤ x) :
    ((isqrt ⌊x * 4 ^ (56 - ilog2 x / 2)⌋.toNat : ℚ) / 2 ^ (56 - ilog2 x / 2)) ^ 2 ≤ x ∧
    x < (((isqrt ⌊x * 4 ^ (56 - ilog2 x / 2)⌋.toNat : ℚ) + 1) / 2 ^ (56 - ilog2 x / 2)) ^ 2 ∧
    ((sqrtSticky x = (isqrt ⌊x * 4 ^ (56 - ilog2 x / 2)⌋.toNat : ℚ) / 2 ^ (56 - ilog2 x / 2)
        ∧ sqrtSticky x ^ 2 = x) ∨
      (sqrtSticky x
          = ((isqrt ⌊x * 4 ^ (56 - ilog2 x / 2)⌋.toNat : ℚ) + 1 / 2) / 2 ^ (56 - ilog2 x / 2)
        ∧ ((isqrt ⌊x * 4 ^ (56 - ilog2 x / 2)⌋.toNat : ℚ) / 2 ^ (56 - ilog2 x / 2)) ^ 2
            < x)) := by
  generalize hk : (56 - ilog2 x / 2 : ℤ) = k
  have h4 : (4 : ℚ) ^ k = (2 ^ k) ^ 2 := by
    rw [← zpow_natCast, ← zpow_mul, mul_comm, zpow_mul]
    norm_num
  have hp : (0 : ℚ) < 2 ^ k := by positivity
  have hN : (0 : ℚ) ≤ x * 4 ^ k := mul_nonneg hx (by positivity)
  have hfl : 0 ≤ ⌊x * 4 ^ k⌋ := Int.floor_nonneg.mpr hN
  obtain ⟨s1, s2⟩ := isqrt_spec ⌊x * 4 ^ k⌋.toNat
  generalize hr : isqrt ⌊x * 4 ^ k⌋.toNat = r at s1 s2
  have hcast : ((⌊x * 4 ^ k⌋.toNat : ℕ) : ℚ) = ((⌊x * 4 ^ k⌋ : ℤ) : ℚ) := by
    have : ((⌊x * 4 ^ k⌋.toNat : ℕ) : ℤ) = ⌊x * 4 ^ k⌋ := Int.toNat_of_nonneg hfl
    exact_mod_cast congrArg (fun z : ℤ => (z : ℚ)) this
  have l1 : (r : ℚ) * r ≤ x * 4 ^ k := by
    have : ((r * r : ℕ) : ℚ) ≤ ((⌊x * 4 ^ k⌋.toNat : ℕ) : ℚ) := by exact_mod_cast s1
    rw [hcast] at this
    push_cast at this
    exact le_trans this (Int.floor_le _)
  have l2 : x * 4 ^ k < ((r : ℚ) + 1) * (r + 1) := by
    have h1 : ⌊x * 4 ^ k⌋.toNat + 1 ≤ (r + 1) * (r + 1) := s2
    have : (((⌊x * 4 ^ k⌋.toNat + 1 : ℕ)) : ℚ) ≤ (((r + 1) * (r + 1) : ℕ) : ℚ) := by
      exact_mod_cast h1
    push_cast at this
    rw [hcast] at this
    exact lt_of_lt_of_le (Int.lt_floor_add_one _) this
  have e1 : ((r : ℚ) / 2 ^ k) ^ 2 ≤ x := by
    rw [div_pow, div_le_iff₀ (by positivity), ← h4]
    calc (r : ℚ) ^ 2 = r * r := by ring
      _ ≤ x * 4 ^ k := l1
  have e2 : x < (((r : ℚ) + 1) / 2 ^ k) ^ 2 := by
    rw [div_pow, lt_div_iff₀ (by positivity), ← h4]
    calc x * 4 ^ k < ((r : ℚ) + 1) * (r + 1) := l2
      _ = ((r : ℚ) + 1) ^ 2 := by ring
  refine ⟨e1, e2, ?_⟩
  unfold sqrtSticky
  rw [hk, hr]
  by_cases hex : (r : ℚ) * r = x * 4 ^ k
  · left
    rw [if_pos hex]
    refine ⟨rfl, ?_⟩
    rw [div_pow, div_eq_iff (by positivity), ← h4, ← hex]
    ring
  · right
    rw [if_neg hex]
    refine ⟨rfl, ?_⟩
    rw [div_pow, div_lt_iff₀ (by positivity), ← h4]
    calc (r : ℚ) ^ 2 = r * r := by ring
      _ < x * 4 ^ k := lt_of_le_of_ne l1 hex


/-! ## Arithmetic of `float64` -/

theorem float64_ext {a b : Float64} (h : a.val = b.val) : a = b := by
  cases a
  cases b
  simp only at h
  subst h
  rfl

theorem float64_ofRat_val (x : ℚ) : (Float64.ofRat x).val = Ext.round x := rfl

theorem float64_zero_val : (0 : Float64).val = .fin 0 := round_zero

theorem float64_of_fin {a : Float64} {x : ℚ} (h : a.val = .fin x) : a = Float64.ofRat x := by
  apply float64_ext
  rw [float64_ofRat_val, h]
  rcases a.isFloat with h1 | h1 | h1 | ⟨y, h1⟩
  · rw [h] at h1
    cases h1
  · rw [h] at h1
    cases h1
  · rw [h] at h1
    cases h1
  · rw [h] at h1
    exact (round_idem h1.symm).symm

theorem float64_add_fin {a b : Float64} {x y : ℚ} (ha : a.val = .fin x) (hb : b.val = .fin y) :
    a + b = Float64.ofRat (x + y) := by
  show Float64.add a b = _
  simp only [Float64.add, ha, hb]

theorem float64_sub_fin {a b : Float64} {x y : ℚ} (ha : a.val = .fin x) (hb : b.val = .fin y) :
    a - b = Float64.ofRat (x - y) := by
  show Float64.sub a b = _
  simp only [Float64.sub, ha, hb]

theorem float64_mul_fin {a b : Float64} {x y : ℚ} (ha : a.val = .fin x) (hb : b.val = .fin y) :
    a * b = Float64.ofRat (x * y) := by
  show Float64.mul a b = _
  simp only [Float64.mul, ha, hb]

/-- Go `x - 0 == x` for every `float64` (NaN stays NaN). -/
theorem float64_sub_zero (p : Float64) : p - 0 = p := by
  cases hp : p.val with
  | fin q =>
    rw [float64_sub_fin hp float64_zero_val, sub_zero]
    exact (float64_of_fin hp).symm
  | posInf =>
    apply float64_ext
    show (Float64.sub p 0).val = _
    simp only [Float64.sub, hp, float64_zero_val]
    rfl
  | negInf =>
    apply float64_ext
    show (Float64.sub p 0).val = _
    simp only [Float64.sub, hp, float64_zero_val]
    rfl
  | nan =>
    apply float64_ext
    show (Float64.sub p 0).val = _
    simp only [Float64.sub, hp]
    rfl

theorem float64_zero_mul_fin {b : Float64} {y : ℚ} (hb : b.val = .fin y) : (0 : Float64) * b = 0 := by
  rw [float64_mul_fin float64_zero_val hb, zero_mul]
  rfl

theorem float64_le_fin_iff {a b : Float64} {x y : ℚ} (ha : a.val = .fin x) (hb : b.val = .fin y) :
    a ≤ b ↔ x ≤ y := by
  show Float64.ble a b = true ↔ _
  simp only [Float64.ble, ha, hb, decide_eq_true_eq]

theorem sqrtSticky_nonneg (x : ℚ) : 0 ≤ sqrtSticky x := by
  unfold sqrtSticky
  apply div_nonneg
  · split <;> positivity
  · positivity

theorem float64_epsilon_val : (EPSILON : Float64).val = .fin (3022314549036573 / 2 ^ 78) := by
  decide!

theorem float64_mul_nonneg_val {a b : Float64} {x y : ℚ} (ha : a.val = .fin x) (hb : b.val = .fin y)
    (hx : 0 ≤ x) (hy : 0 ≤ y) :
    (a * b).val = .posInf ∨ ∃ t, 0 ≤ t ∧ (a * b).val = .fin t := by
  rw [float64_mul_fin ha hb, float64_ofRat_val]
  exact round_nonneg (mul_nonneg hx hy)

theorem float64_add_zero_nonneg_val {u : Float64}
    (hu : u.val = .posInf ∨ ∃ t, 0 ≤ t ∧ u.val = .fin t) :
    (u + 0).val = .posInf ∨ ∃ t, 0 ≤ t ∧ (u + 0).val = .fin t := by
  rcases hu with hu | ⟨t, ht, hu⟩
  · left
    show (Float64.add u 0).val = _
    simp only [Float64.add, hu, float64_zero_val]
    rfl
  · rw [float64_add_fin hu float64_zero_val, float64_ofRat_val]
    exact round_nonneg (by linarith)

theorem float64_sqrt_nonneg_val {u : Float64}
    (hu : u.val = .posInf ∨ ∃ t, 0 ≤ t ∧ u.val = .fin t) :
    (Float64.sqrt u).val = .posInf ∨ ∃ t, 0 ≤ t ∧ (Float64.sqrt u).val = .fin t := by
  rcases hu with hu | ⟨t, ht, hu⟩
  · left
    simp only [Float64.sqrt, hu]
    rfl
  · simp only [Float64.sqrt, hu, if_neg (not_lt.mpr ht), float64_ofRat_val]
    exact round_nonneg (sqrtSticky_nonneg t)

theorem float64_add_epsilon_pos_val {u : Float64}
    (hu : u.val = .posInf ∨ ∃ t, 0 ≤ t ∧ u.val = .fin t) :
    (u + EPSILON).val = .posInf ∨ ∃ t, 0 < t ∧ (u + EPSILON).val = .fin t := by
  rcases hu with hu | ⟨t, ht, hu⟩
  · left
    show (Float64.add u EPSILON).val = _
    simp only [Float64.add, hu, float64_epsilon_val]
    rfl
  · rw [float64_add_fin hu float64_epsilon_val, float64_ofRat_val]
    apply round_pos
    have : (2 : ℚ) ^ (-1074 : ℤ) ≤ 3022314549036573 / 2 ^ 78 := by
      rw [zpow_neg, inv_eq_one_div, div_le_div_iff₀ (by positivity) (by positivity)]
      norm_num
    linarith

theorem float64_zero_div_pos_val {d : Float64}
    (hd : d.val = .posInf ∨ ∃ t, 0 < t ∧ d.val = .fin t) : (0 : Float64) / d = 0 := by
  show Float64.div 0 d = _
  rcases hd with hd | ⟨t, ht, hd⟩
  · simp only [Float64.div, hd, float64_zero_val]
    rfl
  · simp only [Float64.div, hd, float64_zero_val, if_neg (ne_of_gt ht), zero_div]
    rfl

/-- The step that `RMSProp.Step` computes for a zero raw accumulator, a finite average
`s ≥ 0`, a finite decay `≥ 0` and a finite learning rate is `0`. -/
theorem idle_step_zero {s b0 b1 lr : Float64} {a b c l : ℚ} (hs : s.val = .fin a)
    (ha : 0 ≤ a) (hb0 : b0.val = .fin b) (hb : 0 ≤ b) (hb1 : b1.val = .fin c)
    (hl : lr.val = .fin l) :
    (0 : Float64) / (Float64.sqrt (s * b0 + 0 * 0 * b1) + EPSILON) * lr = 0 := by
  rw [float64_zero_mul_fin float64_zero_val, float64_zero_mul_fin hb1,
    float64_zero_div_pos_val (float64_add_epsilon_pos_val (float64_sqrt_nonneg_val
      (float64_add_zero_nonneg_val (float64_mul_nonneg_val hs hb0 ha hb)))),
    float64_zero_mul_fin hl]

theorem float64_one_val : (1 : Float64).val = .fin 1 :=
  round_of_intMul (y := 1) (2 ^ 52) (by
    have : ilog2 1 = 0 := ilog2_unique (by norm_num) (by norm_num)
    rw [ulp_eq, this, max_eq_left (by norm_num)]
    norm_num) (by norm_num) (by norm_num)

theorem float64_fin_of_between {b : Float64} (h0 : 0 ≤ b) (h1 : b ≤ 1) :
    ∃ x : ℚ, b.val = .fin x ∧ 0 ≤ x ∧ x ≤ 1 := by
  cases hb : b.val with
  | fin x =>
    exact ⟨x, rfl, (float64_le_fin_iff float64_zero_val hb).mp h0,
      (float64_le_fin_iff hb float64_one_val).mp h1⟩
  | posInf =>
    exfalso
    have : Float64.ble b 1 = true := h1
    simp [Float64.ble, hb, float64_one_val] at this
  | negInf =>
    exfalso
    have : Float64.ble 0 b = true := h0
    simp [Float64.ble, hb, float64_zero_val] at this
  | nan =>
    exfalso
    have : Float64.ble 0 b = true := h0
    simp [Float64.ble, hb, float64_zero_val] at this

theorem float64_fin_nonneg_of_le {s : Float64} (hf : s.IsFinite) (h0 : 0 ≤ s) :
    ∃ x : ℚ, s.val = .fin x ∧ 0 ≤ x := by
  obtain ⟨x, hx⟩ := hf
  exact ⟨x, hx, (float64_le_fin_iff float64_zero_val hx).mp h0⟩

theorem float64_one_sub_fin {b : Float64} {x : ℚ} (hb : b.val = .fin x) (h0 : 0 ≤ x) (h1 : x ≤ 1) :
    ∃ c : ℚ, ((1 : Float64) - b).val = .fin c := by
  rw [float64_sub_fin float64_one_val hb, float64_ofRat_val]
  apply round_small
  rw [abs_le]
  constructor <;> linarith

/-- Known values of binary64 arithmetic, computed by the model: `0.1 + 0.2` is
`0.30000000000000004` and not `0.3`; `sqrt 2` is `1.4142135623730951`; the largest finite
number is `2 ^ 1024 - 2 ^ 971`, and the midpoint between it and `2 ^ 1024` rounds to `+Inf`;
half of the smallest subnormal `2 ^ (-1074)` rounds to zero. -/
theorem float64_known_values :
    (0.1 + 0.2 : Float64) = Float64.ofRat (1351079888211149 / 2 ^ 52) ∧
    (0.1 + 0.2 : Float64) ≠ 0.3 ∧
    Float64.sqrt 2.0 = Float64.ofRat (6369051672525773 / 2 ^ 52) ∧
    (Float64.ofRat (2 ^ 1024 - 2 ^ 971)).val = .fin (2 ^ 1024 - 2 ^ 971) ∧
    Float64.ofRat (2 ^ 1024 - 2 ^ 970) = Float64.posInf ∧
    Float64.ofRat (2 ^ 1024 - 2 ^ 970 - 1) = Float64.ofRat (2 ^ 1024 - 2 ^ 971) ∧
    Float64.ofRat (1 / 2 ^ 1075) = 0 ∧
    (Float64.ofRat (1 / 2 ^ 1074)).val = .fin (1 / 2 ^ 1074) := by
  decide!

/-! ## RMS propagation on `float64` -/

/-- C8, refuted on `float64`: RMS propagation with learning rate 1 and decay `-1` (so
`beta0 = -1`, `beta1 = 2`) on a network of one bias cell, after `Update [[1]]` and `Step`,
which leave the running average `2` and the raw accumulator `0`.  A further `Step`, with no
`Update` in between, sets the average to `2 * (-1) + 0 * 0 * 2 = -2`, takes
`sqrt (-2) = NaN`, computes the step `0 / (NaN + EPSILON) * 1 = NaN` and turns the parameter
into NaN: the network does not stay unchanged. -/
theorem rmsProp_idle_step_nan_float :
    Optimizer.run Float64.sqrt
        (.rmsProp (newRMSProp (⟨[.bias ⟨[0]⟩]⟩ : SeqNet Float64) 1 (-1)), ⟨[.bias ⟨[0]⟩]⟩)
        [.Update [[1]], .Step]
      = some (.rmsProp ⟨1, [[2.0]], [[0]], -1, 2.0⟩,
          ⟨[.bias ⟨[Float64.ofRat (-398065726718111 / 2 ^ 49)]⟩]⟩) ∧
    Optimizer.Step Float64.sqrt (.rmsProp ⟨1, [[2.0]], [[0]], -1, 2.0⟩)
        (⟨[.bias ⟨[Float64.ofRat (-398065726718111 / 2 ^ 49)]⟩]⟩ : SeqNet Float64)
      = some (.rmsProp ⟨1, [[-2.0]], [[0]], -1, 2.0⟩, ⟨[.bias ⟨[Float64.nan]⟩]⟩) ∧
    ¬ ∃ r1, Optimizer.Step Float64.sqrt (.rmsProp ⟨1, [[2.0]], [[0]], -1, 2.0⟩)
        (⟨[.bias ⟨[Float64.ofRat (-398065726718111 / 2 ^ 49)]⟩]⟩ : SeqNet Float64)
      = some (.rmsProp r1, ⟨[.bias ⟨[Float64.ofRat (-398065726718111 / 2 ^ 49)]⟩]⟩) := by
  have h1 : Optimizer.Step Float64.sqrt (.rmsProp ⟨1, [[2.0]], [[0]], -1, 2.0⟩)
        (⟨[.bias ⟨[Float64.ofRat (-398065726718111 / 2 ^ 49)]⟩]⟩ : SeqNet Float64)
      = some (.rmsProp ⟨1, [[-2.0]], [[0]], -1, 2.0⟩, ⟨[.bias ⟨[Float64.nan]⟩]⟩) := by
    decide!
  refine ⟨by decide!, h1, ?_⟩
  rintro ⟨r1, h⟩
  rw [h1] at h
  have h2 : (⟨[.bias ⟨[Float64.nan]⟩]⟩ : SeqNet Float64)
      = ⟨[.bias ⟨[Float64.ofRat (-398065726718111 / 2 ^ 49)]⟩]⟩ :=
    (Prod.mk.inj (Option.some.inj h)).2
  exact absurd h2 (by decide!)

/-- C8 (amended). RMS propagation on `float64`, built with a finite learning rate and a decay
`0 ≤ beta ≤ 1`: in every state reached from construction by `Update` and `Step` calls whose
last call, if any, is not an `Update`, and in which every running average is a finite number
`≥ 0`, a further `Step` succeeds and returns the network unchanged (every computed step is
`0 / (sqrt avgSq + EPSILON) * lr = 0`). -/
theorem rmsProp_idle_step_float (net : SeqNet Float64) (lr beta : Float64)
    (calls : List (Call Float64)) (r : RMSProp Float64) (n : SeqNet Float64)
    (hlr : lr.IsFinite) (hb0 : 0 ≤ beta) (hb1 : beta ≤ 1)
    (hlast : ∀ g, calls.getLast? ≠ some (.Update g))
    (hrun : Optimizer.run Float64.sqrt (.rmsProp (newRMSProp net lr beta), net) calls
      = some (.rmsProp r, n))
    (havg : ∀ row ∈ r.sumSteps, ∀ s ∈ row, s.IsFinite ∧ 0 ≤ s) :
    ∃ r1, Optimizer.Step Float64.sqrt (.rmsProp r) n = some (.rmsProp r1, n) := by
  obtain ⟨r1, e1, hS, hC, ⟨a1, a2, a3⟩, _, hd⟩ :=
    rmsProp_run_inv Float64.sqrt calls (newRMSProp net lr beta) net (.rmsProp r) n
      (zeros_shaped net) (zeros_shaped net) hrun
  simp only [Optimizer.rmsProp.injEq] at e1
  subst e1
  have hz := hd (fun _ => rfl) hlast
  obtain ⟨l, hl⟩ := hlr
  obtain ⟨b, hb, hb0', hb1'⟩ := float64_fin_of_between hb0 hb1
  obtain ⟨c, hc⟩ := float64_one_sub_fin hb hb0' hb1'
  have hlr' : r.learningRate.val = .fin l := by rw [a1]; exact hl
  have hbeta0 : r.beta0.val = .fin b := by rw [a2]; exact hb
  have hbeta1 : r.beta1.val = .fin c := by rw [a3]; exact hc
  have hcell : ∀ i j, ∃ a : ℚ, (cell r.sumSteps i j).val = .fin a ∧ 0 ≤ a := by
    intro i j
    rcases cell_mem_or_zero r.sumSteps i j with h0 | ⟨row, hrow, hmem⟩
    · rw [h0]
      exact ⟨0, float64_zero_val, le_refl 0⟩
    · obtain ⟨hf, hnn⟩ := havg row hrow _ hmem
      exact float64_fin_nonneg_of_le hf hnn
  rw [Optimizer.Step, rmsProp_step_eq Float64.sqrt r n hS hC, stepped_zero_of float64_sub_zero n]
  · exact ⟨_, rfl⟩
  · intro i k
    by_cases hk : k < (n.layer i).Parameters
    · rw [tab_getD _ _ hk, hz, cell_zeros]
      obtain ⟨a, ha, hnn⟩ := hcell i k
      exact idle_step_zero ha hnn hbeta0 hb0' hbeta1 hlr'
    · exact getD_eq_zero_of_le _ (by simpa using hk)

/-- Instance of C8 (amended): learning rate 1, decay 0.5, a one-cell bias network, after
`Update [[2]]` and `Step`; the running average is 2. -/
theorem rmsProp_idle_step_float_witness :
    Optimizer.run Float64.sqrt
        (.rmsProp (newRMSProp (⟨[.bias ⟨[0]⟩]⟩ : SeqNet Float64) 1 0.5), ⟨[.bias ⟨[0]⟩]⟩)
        [.Update [[2.0]], .Step]
      = some (.rmsProp ⟨1, [[2.0]], [[0]], 0.5, 0.5⟩,
          ⟨[.bias ⟨[Float64.ofRat (-398065726718111 / 2 ^ 48)]⟩]⟩) ∧
    ∃ r1, Optimizer.Step Float64.sqrt (.rmsProp ⟨1, [[2.0]], [[0]], 0.5, 0.5⟩)
        (⟨[.bias ⟨[Float64.ofRat (-398065726718111 / 2 ^ 48)]⟩]⟩ : SeqNet Float64)
      = some (.rmsProp r1, ⟨[.bias ⟨[Float64.ofRat (-398065726718111 / 2 ^ 48)]⟩]⟩) :=
  ⟨by decide!,
    rmsProp_idle_step_float ⟨[.bias ⟨[0]⟩]⟩ 1 0.5 [.Update [[2.0]], .Step]
      ⟨1, [[2.0]], [[0]], 0.5, 0.5⟩ ⟨[.bias ⟨[Float64.ofRat (-398065726718111 / 2 ^ 48)]⟩]⟩
      (by decide!) (by decide!) (by decide!) (by simp) (by decide!) (by decide!)⟩

/-- C19, refuted on `float64`: RMS propagation with learning rate 1 and decay 0 on a network of
one bias cell, after `Update [[1e200]]` and `Step` (the square of the gradient overflows, so
the running average is `+Inf`).  The next `Step` computes `+Inf * 0 = NaN` for the average
and applies a NaN step: the parameter goes from `0` to NaN and the amount subtracted is not
at most `lr / sqrt (1 - beta) = 1`. -/
theorem rmsProp_step_unbounded_float :
    Optimizer.run Float64.sqrt
        (.rmsProp (newRMSProp (⟨[.bias ⟨[0]⟩]⟩ : SeqNet Float64) 1 0), ⟨[.bias ⟨[0]⟩]⟩)
        [.Update [[1e200]], .Step]
      = some (.rmsProp ⟨1, [[Float64.posInf]], [[0]], 0, 1⟩, ⟨[.bias ⟨[0]⟩]⟩) ∧
    Optimizer.Step Float64.sqrt (.rmsProp ⟨1, [[Float64.posInf]], [[0]], 0, 1⟩)
        (⟨[.bias ⟨[0]⟩]⟩ : SeqNet Float64)
      = some (.rmsProp ⟨1, [[Float64.nan]], [[0]], 0, 1⟩, ⟨[.bias ⟨[Float64.nan]⟩]⟩) ∧
    ¬ (Float64.abs
        ((SeqNet.layer (⟨[.bias ⟨[0]⟩]⟩ : SeqNet Float64) 0).params.getD 0 0
          - (SeqNet.layer (⟨[.bias ⟨[Float64.nan]⟩]⟩ : SeqNet Float64) 0).params.getD 0 0)
      ≤ 1 / Float64.sqrt (1 - 0)) := by
  decide!

/-- Rounding alone breaks the bound of C19 on `float64`: with learning rate 1 and decay 0.5,
after `Update [[3e10]]` the step that `Step` subtracts from the parameter is
`6369051672525773 / 2 ^ 52` (1.4142135623730951), one unit in the last place above
`lr / sqrt (1 - beta)` as `float64` computes it, and above the real number `√2` as well. -/
theorem rmsProp_step_rounding_float :
    Optimizer.run Float64.sqrt
        (.rmsProp (newRMSProp (⟨[.bias ⟨[0]⟩]⟩ : SeqNet Float64) 1 0.5), ⟨[.bias ⟨[0]⟩]⟩)
        [.Update [[3e10]], .Step]
      = some (.rmsProp ⟨1, [[4.5e20]], [[0]], 0.5, 0.5⟩,
          ⟨[.bias ⟨[Float64.ofRat (-6369051672525773 / 2 ^ 52)]⟩]⟩) ∧
    ¬ (Float64.abs ((0 : Float64) - Float64.ofRat (-6369051672525773 / 2 ^ 52))
      ≤ 1 / Float64.sqrt (1 - 0.5)) ∧
    (2 : ℚ) < (6369051672525773 / 2 ^ 52) ^ 2 := by
  refine ⟨by decide!, by decide!, by norm_num⟩

end Gonn
